import Mathlib

/-!
# govalidtemple: template / view-model field validation

A shallow embedding of `validate.go`.

* A `*templateField` tree is embedded as the inductive `templateField`; the
  Go map `Children` is an association list in insertion order, read with
  `List.lookup` (first match).  A Go map has one entry per key; that
  representation invariant is the predicate `templateField.wf`.
* The Go code mutates the tree in place through pointers.  Here every walker
  takes the subtree rooted at `parentField` and returns the updated subtree; a
  pointer obtained by `addChild` calls is the list of keys leading to the node
  (`current`), and writing through it is `templateField.modifyAt`.
* `extractFieldsFromTemplate` follows template inclusions and need not
  terminate; its embedding takes a bound `fuel` on the depth of the Go call
  stack and returns `none` when the bound is reached.
-/

namespace GoValidTemple

/-! ## The field tree -/

/-- The Go struct `templateField`: a name and the map of its children. -/
inductive templateField where
  | mk (Name : String) (Children : List (String × templateField))

namespace templateField

/-- Field `Name`. -/
def Name : templateField → String
  | mk n _ => n

/-- Field `Children`. -/
def Children : templateField → List (String × templateField)
  | mk _ c => c

/-- The keys of the `Children` map. -/
def keys (tf : templateField) : List String :=
  tf.Children.map Prod.fst

/-- The map read `tf.Children[name]` (with its `ok` flag as `Option`). -/
def child (tf : templateField) (name : String) : Option templateField :=
  tf.Children.lookup name

end templateField

/-- The Go function `newTemplateField`. -/
def newTemplateField (name : String) : templateField :=
  .mk name []

/-- The map write `m[name] = c` on an association list that already has the key. -/
def setChild : List (String × templateField) → String → templateField →
    List (String × templateField)
  | [], _, _ => []
  | (k, v) :: rest, name, c =>
    if k == name then (k, c) :: rest else (k, v) :: setChild rest name c

namespace templateField

/-- The Go method `addChild`: the receiver after the call, and the returned child. -/
def addChild (tf : templateField) (name : String) : templateField × templateField :=
  match tf.Children.lookup name with
  | some child => (tf, child)
  | none =>
    let child := newTemplateField name
    (.mk tf.Name (tf.Children ++ [(name, child)]), child)

/-- The node a pointer designates: follow the keys of `path` from `tf`. -/
def nodeAt : templateField → List String → Option templateField
  | tf, [] => some tf
  | tf, k :: ks =>
    match tf.Children.lookup k with
    | none => none
    | some c => nodeAt c ks

/-- A write through a pointer: replace the node at `path` by its image under `f`. -/
def modifyAt (f : templateField → templateField) : List String → templateField → templateField
  | [], tf => f tf
  | k :: ks, tf =>
    match tf.Children.lookup k with
    | none => tf
    | some c => .mk tf.Name (setChild tf.Children k (modifyAt f ks c))

/-- A write through a pointer by a computation that may not finish. -/
def modifyAtM (f : templateField → Option templateField) :
    List String → templateField → Option templateField
  | [], tf => f tf
  | k :: ks, tf =>
    match tf.Children.lookup k with
    | none => some tf
    | some c =>
      match modifyAtM f ks c with
      | none => none
      | some c' => some (.mk tf.Name (setChild tf.Children k c'))

end templateField

/-- The loop `current := parentField; for _, part := range fieldParts
\x7b current = current.addChild(part) \x7d`: the tree after the loop and the
pointer `current`, as a path from `parentField`. -/
def descend (parentField : templateField) (fieldParts : List String) :
    templateField × List String :=
  fieldParts.foldl
    (fun st part => (st.1.modifyAt (fun c => (c.addChild part).1) st.2, st.2 ++ [part]))
    (parentField, [])

/-! ## The template parse tree -/

/-- The nodes of `text/template/parse` that the walker meets.  A `PipeNode` is
given by its `Cmds`, and a `CommandNode` by its `Args`. -/
inductive Node where
  | FieldNode (Ident : List String)
  | DotNode
  | PipeNode (Cmds : List (List Node))
  | ActionNode (Pipe : List (List Node))
  | TemplateNode (Name : String) (Pipe : Option (List (List Node)))
  | ListNode (Nodes : List Node)
  | IfNode (Pipe : List (List Node)) (list : List Node) (elseList : Option (List Node))
  | RangeNode (Pipe : List (List Node)) (list : List Node) (elseList : Option (List Node))
  | WithNode (Pipe : List (List Node)) (list : List Node) (elseList : Option (List Node))
  | OtherNode

/-- The Go struct `parse.Tree`, reduced to the `Nodes` of its `Root` list node. -/
structure Tree where
  Root : List Node

/-- One `*template.Template`: its `Tree` field may be nil. -/
structure Template where
  Tree : Option Tree

/-- The set of associated templates behind a `*template.Template`, given by
its method `Lookup` (`none` is the nil result). -/
structure TemplateSet where
  Lookup : String → Option Template

/-- The Go function `extractFieldsFromTemplate`; `fuel` bounds the call depth. -/
def extractFieldsFromTemplate (root : TemplateSet) :
    Nat → Node → templateField → Option templateField
  | 0, _, _ => none
  | fuel + 1, n, parentField =>
    match n with
    | .PipeNode Cmds =>
      some (Cmds.foldl (fun pf cmd => cmd.foldl (fun pf arg =>
        match arg with
        | .FieldNode Ident => (descend pf Ident).1
        | _ => pf) pf) parentField)
    | .ActionNode Pipe =>
      some (Pipe.foldl (fun pf cmd => cmd.foldl (fun pf arg =>
        match arg with
        | .FieldNode Ident => (descend pf Ident).1
        | _ => pf) pf) parentField)
    | .TemplateNode Name (some Cmds) =>
      Cmds.foldlM (fun pf cmd => cmd.foldlM (fun pf arg =>
        match arg with
        | .FieldNode Ident =>
          let st := descend pf Ident
          match root.Lookup Name with
          | some ⟨some tree⟩ =>
            st.1.modifyAtM (extractFieldsFromTemplate root fuel (.ListNode tree.Root)) st.2
          | _ => some st.1
        | .DotNode =>
          match root.Lookup Name with
          | some ⟨some tree⟩ => extractFieldsFromTemplate root fuel (.ListNode tree.Root) pf
          | _ => some pf
        | _ => some pf) pf) parentField
    | .TemplateNode Name none =>
      match root.Lookup Name with
      | some ⟨some tree⟩ => extractFieldsFromTemplate root fuel (.ListNode tree.Root) parentField
      | _ => some parentField
    | .ListNode Nodes =>
      Nodes.foldlM (fun pf child => extractFieldsFromTemplate root fuel child pf) parentField
    | .IfNode _ list elseList =>
      match extractFieldsFromTemplate root fuel (.ListNode list) parentField with
      | none => none
      | some pf =>
        match elseList with
        | some el => extractFieldsFromTemplate root fuel (.ListNode el) pf
        | none => some pf
    | .RangeNode Pipe _ _ => extractFieldsFromTemplate root fuel (.PipeNode Pipe) parentField
    | .WithNode _ list _ => extractFieldsFromTemplate root fuel (.ListNode list) parentField
    | _ => some parentField

/-! ## The data shape -/

/-- The Go struct `reflect.StructField`, reduced to the fields the walker reads. -/
structure StructField (τ : Type) where
  Name : String
  PkgPath : String
  Typ : τ

/-- A `reflect.Type`, by kind: pointer, struct, and the kinds the walker does
not look into (`Basic` stands for every remaining kind). -/
inductive GoType where
  | Ptr (Elem : GoType)
  | Struct (Fields : List (StructField GoType))
  | Slice (Elem : GoType)
  | Map (Key : GoType) (Elem : GoType)
  | Interface
  | Basic

/-- The method `Kind` of `reflect.Type`. -/
inductive Kind where
  | Ptr | Struct | Slice | Map | Interface | Basic
  deriving DecidableEq

/-- The kind of a type. -/
def GoType.Kind : GoType → Kind
  | .Ptr _ => .Ptr
  | .Struct _ => .Struct
  | .Slice _ => .Slice
  | .Map _ _ => .Map
  | .Interface => .Interface
  | .Basic => .Basic

mutual
/-- The Go function `extractHelper`.  The first two cases are a struct behind
one pointer (`typ = typ.Elem()`) and a struct; every other type returns at
`typ.Kind() != reflect.Struct`. -/
def extractHelper : GoType → templateField → templateField
  | .Ptr (.Struct Fields), parentField => extractHelperLoop Fields parentField
  | .Struct Fields, parentField => extractHelperLoop Fields parentField
  | _, parentField => parentField
/-- The loop `for i := 0; i < typ.NumField(); i++` of `extractHelper`. -/
def extractHelperLoop : List (StructField GoType) → templateField → templateField
  | [], parentField => parentField
  | ⟨Name, PkgPath, ty⟩ :: rest, parentField =>
    if PkgPath != "" then extractHelperLoop rest parentField
    else
      let pf := (parentField.addChild Name).1
      if ty.Kind = .Struct then
        extractHelperLoop rest (pf.modifyAt (fun child => extractHelper ty child) [Name])
      else extractHelperLoop rest pf
end

/-! ## Outcomes of a call -/

/-- The value a call panics with. -/
inductive PanicValue where
  /-- The string `fmt.Sprintf("template %q not found", templateName)`. -/
  | templateNotFound (templateName : String)
  /-- The runtime error of a method call on a nil interface value. -/
  | nilDereference
  deriving DecidableEq

/-- How a call ends: it returns, it panics, or it is still running when the
bound on the call depth is reached. -/
inductive Outcome (α : Type) where
  | returned (a : α)
  | panicked (v : PanicValue)
  | unfinished
  deriving DecidableEq

/-- The Go function `extractFieldsFromStruct`; `v` is the dynamic type of the
interface value (`reflect.TypeOf(v)`), `none` for the nil interface, on which
`typ.Kind()` panics. -/
def extractFieldsFromStruct (v : Option GoType) : Outcome templateField :=
  let root := newTemplateField "Root"
  match v with
  | none => .panicked .nilDereference
  | some typ => .returned (extractHelper typ root)

/-! ## The comparison -/

mutual
/-- The Go function `compareTemplateFields`: `(missing, extra)`. -/
def compareTemplateFields : templateField → templateField → List String × List String
  | .mk tName tChildren, structField =>
    let acc := compareLoop tChildren structField ([], [])
    structField.Children.foldl (fun acc kv =>
      match tChildren.lookup kv.1 with
      | none => (acc.1, acc.2 ++ [tName ++ "->" ++ kv.1])
      | some _ => acc) acc
/-- The first loop of `compareTemplateFields`, over the children of the
template-side node, with the running `(missing, extra)`. -/
def compareLoop : List (String × templateField) → templateField →
    List String × List String → List String × List String
  | [], _, acc => acc
  | (name, child) :: rest, structField, acc =>
    match structField.Children.lookup name with
    | none => compareLoop rest structField (acc.1 ++ [structField.Name ++ "->" ++ name], acc.2)
    | some sChild =>
      let me := compareTemplateFields child sChild
      compareLoop rest structField (acc.1 ++ me.1, acc.2 ++ me.2)
end

/-- The Go function `CompareViewModel`. -/
def CompareViewModel (data : Option GoType) (tmpl : TemplateSet) (templateName : String)
    (fuel : Nat) : Outcome (List String × List String) :=
  let rootTemplateField := newTemplateField "Root"
  match tmpl.Lookup templateName with
  | some ⟨some tmplTree⟩ =>
    match extractFieldsFromTemplate tmpl fuel (.ListNode tmplTree.Root) rootTemplateField with
    | none => .unfinished
    | some rootTemplateField =>
      match extractFieldsFromStruct data with
      | .returned rootStructField =>
        .returned (compareTemplateFields rootTemplateField rootStructField)
      | .panicked v => .panicked v
      | .unfinished => .unfinished
  | _ => .panicked (.templateNotFound templateName)

/-- The loop `for idx, item := range items` of `ValidateViewModel`, which
appends the items to `errorStr`, separated by a comma and a space. -/
def appendItems (errorStr : String) (items : List String) : String :=
  items.enum.foldl
    (fun errorStr p => (if p.1 > 0 then errorStr ++ ", " else errorStr) ++ p.2) errorStr

/-- The Go function `ValidateViewModel`; the returned `error` is `none` for
nil and `some msg` for `errors.New(msg)`. -/
def ValidateViewModel (data : Option GoType) (tmpl : TemplateSet) (templateName : String)
    (fuel : Nat) : Outcome (Option String) :=
  match CompareViewModel data tmpl templateName fuel with
  | .returned (missing, extra) =>
    let errorStr := ""
    let errorStr :=
      if extra.length > 0 then appendItems (errorStr ++ "extra fields [") extra ++ "] "
      else errorStr
    let errorStr :=
      if missing.length > 0 then appendItems (errorStr ++ "missing fields [") missing ++ "]"
      else errorStr
    if extra.length > 0 || missing.length > 0 then .returned (some errorStr)
    else .returned none
  | .panicked v => .panicked v
  | .unfinished => .unfinished

/-! ## Notions used to state the properties -/

mutual
/-- The invariant of the Go map: at every node, no key occurs twice. -/
def templateField.wf : templateField → Bool
  | .mk _ cs => decide ((cs.map Prod.fst).Nodup) && wfChildren cs
/-- Every child of the list satisfies `templateField.wf`. -/
def wfChildren : List (String × templateField) → Bool
  | [] => true
  | (_, c) :: rest => c.wf && wfChildren rest
end

/-- The string `n.Name + "->" + c` for the node `n` that `path` reaches in `tree`. -/
def entryAt (tree : templateField) (pc : List String × String) : String :=
  match tree.nodeAt pc.1 with
  | some n => n.Name ++ "->" ++ pc.2
  | none => ""

/-- The pair `(p, c)` is a missing field: `p` exists in both trees, `c` is a
child name of the template-side node at `p` and not of the data-side node. -/
def IsMissing (T D : templateField) (pc : List String × String) : Prop :=
  ∃ t d, T.nodeAt pc.1 = some t ∧ D.nodeAt pc.1 = some d ∧ pc.2 ∈ t.keys ∧ pc.2 ∉ d.keys

/-- The pair `(p, c)` is an extra field: `p` exists in both trees, `c` is a
child name of the data-side node at `p` and not of the template-side node. -/
def IsExtra (T D : templateField) (pc : List String × String) : Prop :=
  ∃ t d, T.nodeAt pc.1 = some t ∧ D.nodeAt pc.1 = some d ∧ pc.2 ∈ d.keys ∧ pc.2 ∉ t.keys

mutual
/-- An enumeration of the missing fields of two trees. -/
def missingPairs : templateField → templateField → List (List String × String)
  | .mk _ cs, D => missingPairsLoop cs D
/-- The missing fields found at or below the listed children. -/
def missingPairsLoop : List (String × templateField) → templateField →
    List (List String × String)
  | [], _ => []
  | (name, child) :: rest, D =>
    match D.Children.lookup name with
    | none => ([], name) :: missingPairsLoop rest D
    | some sChild =>
      (missingPairs child sChild).map (fun pc => (name :: pc.1, pc.2)) ++
        missingPairsLoop rest D
end

/-- The extra fields at the root: the keys of `D` that `tChildren` lacks. -/
def extraPairsHere (tChildren : List (String × templateField)) (D : templateField) :
    List (List String × String) :=
  (D.Children.filter (fun kv => (tChildren.lookup kv.1).isNone)).map (fun kv => ([], kv.1))

mutual
/-- An enumeration of the extra fields of two trees. -/
def extraPairs : templateField → templateField → List (List String × String)
  | .mk _ cs, D => extraPairsLoop cs D ++ extraPairsHere cs D
/-- The extra fields found below the listed children. -/
def extraPairsLoop : List (String × templateField) → templateField →
    List (List String × String)
  | [], _ => []
  | (name, child) :: rest, D =>
    match D.Children.lookup name with
    | none => extraPairsLoop rest D
    | some sChild =>
      (extraPairs child sChild).map (fun pc => (name :: pc.1, pc.2)) ++
        extraPairsLoop rest D
end

/-! ## Sample inputs -/

/-- A sample template-side tree: `Root` with `A -> B` and `C`. -/
def sampleTemplateTree : templateField :=
  .mk "Root" [("A", .mk "A" [("B", .mk "B" [("E", .mk "E" [])])]), ("C", .mk "C" [])]

/-- A sample data-side tree: `Root` with `A -> D`, `Y -> Z`. -/
def sampleDataTree : templateField :=
  .mk "Root" [("A", .mk "A" [("D", .mk "D" [])]), ("Y", .mk "Y" [("Z", .mk "Z" [])])]

/-- An exported field of a struct type. -/
def exportedField (name : String) (typ : GoType) : StructField GoType :=
  ⟨name, "", typ⟩

/-- The data shape with the two exported scalar fields `X` and `Y`. -/
def shapeXY : GoType :=
  .Struct [exportedField "X" .Basic, exportedField "Y" .Basic]

/-- The data shape with the one exported field `A`, a struct without fields. -/
def shapeA : GoType :=
  .Struct [exportedField "A" (.Struct [])]

/-- The action node of a single field access. -/
def fieldAction (Ident : List String) : Node :=
  .ActionNode [[.FieldNode Ident]]

/-- The template set with the one template `main`, of the given body. -/
def singleTemplate (body : List Node) : TemplateSet :=
  ⟨fun name => if name = "main" then some ⟨some ⟨body⟩⟩ else none⟩

/-- A tree with the paths `A`, `A.B` and `C`. -/
def samePathsTreeA : templateField :=
  .mk "Root" [("A", .mk "A" [("B", .mk "B" [])]), ("C", .mk "C" [])]

/-- A tree with the same paths, other names and another order of the children. -/
def samePathsTreeB : templateField :=
  .mk "Data" [("C", .mk "c" []), ("A", .mk "a" [("B", .mk "b" [])])]

/-- The tree `tf` with the chain of children `parts` added below it: each
segment in order is created, or descended into when it is already there. -/
def registerPath : templateField → List String → templateField
  | tf, [] => tf
  | tf, part :: rest =>
    (tf.addChild part).1.modifyAt (fun c => registerPath c rest) [part]

/-- The identifier chains of the field-access arguments of the commands, in order. -/
def fieldArgs (Cmds : List (List Node)) : List (List String) :=
  (Cmds.map (fun cmd => cmd.filterMap (fun arg =>
    match arg with
    | .FieldNode Ident => some Ident
    | _ => none))).flatten

/-- The template set with `main` and `sub`. -/
def twoTemplates (main sub : List Node) : TemplateSet :=
  ⟨fun name => if name = "main" then some ⟨some ⟨main⟩⟩
    else if name = "sub" then some ⟨some ⟨sub⟩⟩ else none⟩

/-- A walk of node `n` at scope `s` that returns the tree `r`. -/
def Walks (root : TemplateSet) (n : Node) (s r : templateField) : Prop :=
  ∃ fuel, extractFieldsFromTemplate root fuel n s = some r

/-- The body of `main` in the inclusion sample: `template "sub" .Inner`. -/
def includeInnerBody : List Node :=
  [.TemplateNode "sub" (some [[.FieldNode ["Inner"]]])]

/-- The body of `main` in the inclusion sample with the bare dot: `template "sub" .`. -/
def includeDotBody : List Node :=
  [.TemplateNode "sub" (some [[.DotNode]])]

mutual
/-- The type with every unexported struct field removed, at every depth. -/
def eraseUnexported : GoType → GoType
  | .Ptr Elem => .Ptr (eraseUnexported Elem)
  | .Struct Fields => .Struct (eraseUnexportedFields Fields)
  | .Slice Elem => .Slice (eraseUnexported Elem)
  | .Map Key Elem => .Map (eraseUnexported Key) (eraseUnexported Elem)
  | .Interface => .Interface
  | .Basic => .Basic
/-- The exported fields of the list, with the unexported fields below them removed. -/
def eraseUnexportedFields : List (StructField GoType) → List (StructField GoType)
  | [] => []
  | ⟨Name, PkgPath, ty⟩ :: rest =>
    if PkgPath != "" then eraseUnexportedFields rest
    else ⟨Name, PkgPath, eraseUnexported ty⟩ :: eraseUnexportedFields rest
end

/-- A struct shape with the exported field `X` and the unexported field `secret`. -/
def shapeHidden : GoType :=
  .Struct [exportedField "X" .Basic, ⟨"secret", "main", .Basic⟩]

/-- The body of `main` in the sample with an inclusion that does not resolve:
`template "ghost" .A` followed by the action `.B`. -/
def ghostBody : List Node :=
  [.TemplateNode "ghost" (some [[.FieldNode ["A"]]]), fieldAction ["B"]]

/-- The shape `S` behind `n` pointer layers. -/
def ptrLayers : Nat → GoType → GoType
  | 0, S => S
  | n + 1, S => .Ptr (ptrLayers n S)

/-- One step of dereferencing, as `extractHelper` does it: the element of a
pointer, and any other shape itself. -/
def derefOnce : GoType → GoType
  | .Ptr Elem => Elem
  | typ => typ

mutual
/-- The tree of a shape under the node `name`: for a struct, one child per
exported field, keyed and named by the field name, holding the tree of the
field type; for any other shape, no children. -/
def fieldTree (name : String) : GoType → templateField
  | .Struct Fields => .mk name (fieldTrees Fields)
  | _ => .mk name []
/-- The children for the exported fields of the list, in declaration order. -/
def fieldTrees : List (StructField GoType) → List (String × templateField)
  | [] => []
  | ⟨Name, PkgPath, ty⟩ :: rest =>
    if PkgPath != "" then fieldTrees rest
    else (Name, fieldTree Name ty) :: fieldTrees rest
end

/-- A struct shape with a scalar, a nested struct, an unexported field, a
slice and a pointer to a struct. -/
def shapeNested : GoType :=
  .Struct [exportedField "Name" .Basic,
    exportedField "Address" (.Struct [exportedField "City" .Basic]),
    ⟨"secret", "main", .Struct [exportedField "Inner" .Basic]⟩,
    exportedField "Tags" (.Slice .Basic),
    exportedField "Next" (.Ptr (.Struct [exportedField "Deep" .Basic]))]

mutual
/-- The two trees hold the same maps, whatever the order in which the children
are enumerated: equal names, the same keys, and under each key children that
hold the same maps. -/
def templateField.sameMap : templateField → templateField → Bool
  | .mk n cs, t' =>
    (n == t'.Name) && t'.keys.all (fun k => (cs.map Prod.fst).contains k) &&
      sameMapChildren cs t'
/-- Every listed child has a counterpart under its key in `t'`, with the same maps. -/
def sameMapChildren : List (String × templateField) → templateField → Bool
  | [], _ => true
  | (k, c) :: rest, t' =>
    (match t'.Children.lookup k with
      | some c' => c.sameMap c'
      | none => false) && sameMapChildren rest t'
end

/-- The sample template-side tree with its children enumerated in another order. -/
def sampleTemplateTreeReordered : templateField :=
  .mk "Root" [("C", .mk "C" []), ("A", .mk "A" [("B", .mk "B" [("E", .mk "E" [])])])]

/-- The sample data-side tree with its children enumerated in another order. -/
def sampleDataTreeReordered : templateField :=
  .mk "Root" [("Y", .mk "Y" [("Z", .mk "Z" [])]), ("A", .mk "A" [("D", .mk "D" [])])]

mutual
/-- Every node below the root is stored under the key that is its `Name`. -/
def templateField.keyNamed : templateField → Bool
  | .mk _ cs => keyNamedChildren cs
/-- Every listed child has its key as `Name`, and so below it. -/
def keyNamedChildren : List (String × templateField) → Bool
  | [] => true
  | (k, c) :: rest => (c.Name == k) && c.keyNamed && keyNamedChildren rest
end

/-- The trees built from `newTemplateField("Root")` by `addChild` calls on
nodes of the tree. -/
inductive Built : templateField → Prop
  | root : Built (newTemplateField "Root")
  | add (t : templateField) (path : List String) (name : String) :
      Built t → Built (t.modifyAt (fun c => (c.addChild name).1) path)

/-- The string `parent + "->" + c`, where `parent` is `Root` for the empty
path and the last segment of the path otherwise. -/
def lastSegmentEntry (pc : List String × String) : String :=
  (pc.1.getLast?.getD "Root") ++ "->" ++ pc.2

/-- A data shape with the fields `A` and `B`, each a struct with the field `X`. -/
def shapeTwins : GoType :=
  .Struct [exportedField "A" (.Struct [exportedField "X" (.Struct [])]),
    exportedField "B" (.Struct [exportedField "X" (.Struct [])])]

/-- The field access `Ident` occurs somewhere in the node: as the node itself,
as an argument of a pipe (also inside a nested pipe), or in the pipe, the body
or the else-branch of an action, if, range, with or inclusion node. -/
inductive Mentions : Node → List String → Prop
  | field (Ident : List String) : Mentions (.FieldNode Ident) Ident
  | pipe (Cmds : List (List Node)) (cmd : List Node) (arg : Node) (Ident : List String) :
      cmd ∈ Cmds → arg ∈ cmd → Mentions arg Ident → Mentions (.PipeNode Cmds) Ident
  | action (Pipe : List (List Node)) (Ident : List String) :
      Mentions (.PipeNode Pipe) Ident → Mentions (.ActionNode Pipe) Ident
  | templateArg (Name : String) (Cmds : List (List Node)) (Ident : List String) :
      Mentions (.PipeNode Cmds) Ident → Mentions (.TemplateNode Name (some Cmds)) Ident
  | list (Nodes : List Node) (n : Node) (Ident : List String) :
      n ∈ Nodes → Mentions n Ident → Mentions (.ListNode Nodes) Ident
  | ifPipe (Pipe : List (List Node)) (l : List Node) (e : Option (List Node))
      (Ident : List String) :
      Mentions (.PipeNode Pipe) Ident → Mentions (.IfNode Pipe l e) Ident
  | ifList (Pipe : List (List Node)) (l : List Node) (e : Option (List Node))
      (Ident : List String) :
      Mentions (.ListNode l) Ident → Mentions (.IfNode Pipe l e) Ident
  | ifElse (Pipe : List (List Node)) (l el : List Node) (Ident : List String) :
      Mentions (.ListNode el) Ident → Mentions (.IfNode Pipe l (some el)) Ident
  | rangePipe (Pipe : List (List Node)) (l : List Node) (e : Option (List Node))
      (Ident : List String) :
      Mentions (.PipeNode Pipe) Ident → Mentions (.RangeNode Pipe l e) Ident
  | rangeList (Pipe : List (List Node)) (l : List Node) (e : Option (List Node))
      (Ident : List String) :
      Mentions (.ListNode l) Ident → Mentions (.RangeNode Pipe l e) Ident
  | rangeElse (Pipe : List (List Node)) (l el : List Node) (Ident : List String) :
      Mentions (.ListNode el) Ident → Mentions (.RangeNode Pipe l (some el)) Ident
  | withPipe (Pipe : List (List Node)) (l : List Node) (e : Option (List Node))
      (Ident : List String) :
      Mentions (.PipeNode Pipe) Ident → Mentions (.WithNode Pipe l e) Ident
  | withList (Pipe : List (List Node)) (l : List Node) (e : Option (List Node))
      (Ident : List String) :
      Mentions (.ListNode l) Ident → Mentions (.WithNode Pipe l e) Ident
  | withElse (Pipe : List (List Node)) (l el : List Node) (Ident : List String) :
      Mentions (.ListNode el) Ident → Mentions (.WithNode Pipe l (some el)) Ident

/-- The path `p`, relative to the scope of the walk of the node, belongs to a
field access that the walker reaches: an argument of a pipe, action or range
pipe or of an inclusion; inside a list, the branches of an if node or the body
of a with node; and, below the scope that an inclusion passes on, in the body
of the included template. -/
inductive Registers (root : TemplateSet) : Node → List String → Prop
  | pipe (Cmds : List (List Node)) (cmd : List Node) (Ident : List String) :
      cmd ∈ Cmds → Node.FieldNode Ident ∈ cmd → Registers root (.PipeNode Cmds) Ident
  | action (Pipe : List (List Node)) (cmd : List Node) (Ident : List String) :
      cmd ∈ Pipe → Node.FieldNode Ident ∈ cmd → Registers root (.ActionNode Pipe) Ident
  | templateArg (Name : String) (Cmds : List (List Node)) (cmd : List Node)
      (Ident : List String) :
      cmd ∈ Cmds → Node.FieldNode Ident ∈ cmd →
      Registers root (.TemplateNode Name (some Cmds)) Ident
  | includeField (Name : String) (Cmds : List (List Node)) (cmd : List Node)
      (Ident : List String) (tree : Tree) (p : List String) :
      cmd ∈ Cmds → Node.FieldNode Ident ∈ cmd → root.Lookup Name = some ⟨some tree⟩ →
      Registers root (.ListNode tree.Root) p →
      Registers root (.TemplateNode Name (some Cmds)) (Ident ++ p)
  | includeDot (Name : String) (Cmds : List (List Node)) (cmd : List Node)
      (tree : Tree) (p : List String) :
      cmd ∈ Cmds → Node.DotNode ∈ cmd → root.Lookup Name = some ⟨some tree⟩ →
      Registers root (.ListNode tree.Root) p →
      Registers root (.TemplateNode Name (some Cmds)) p
  | includeNone (Name : String) (tree : Tree) (p : List String) :
      root.Lookup Name = some ⟨some tree⟩ → Registers root (.ListNode tree.Root) p →
      Registers root (.TemplateNode Name none) p
  | list (Nodes : List Node) (n : Node) (p : List String) :
      n ∈ Nodes → Registers root n p → Registers root (.ListNode Nodes) p
  | ifList (Pipe : List (List Node)) (l : List Node) (e : Option (List Node))
      (p : List String) :
      Registers root (.ListNode l) p → Registers root (.IfNode Pipe l e) p
  | ifElse (Pipe : List (List Node)) (l el : List Node) (p : List String) :
      Registers root (.ListNode el) p → Registers root (.IfNode Pipe l (some el)) p
  | range (Pipe : List (List Node)) (l : List Node) (e : Option (List Node))
      (p : List String) :
      Registers root (.PipeNode Pipe) p → Registers root (.RangeNode Pipe l e) p
  | withList (Pipe : List (List Node)) (l : List Node) (e : Option (List Node))
      (p : List String) :
      Registers root (.ListNode l) p → Registers root (.WithNode Pipe l e) p

/-- The body of the inner loop of the `TemplateNode` case of
`extractFieldsFromTemplate`, for one argument `arg` of the pipe, when the
recursive calls have the call depth `fuel`. -/
def includeArg (root : TemplateSet) (fuel : Nat) (Name : String) (pf : templateField)
    (arg : Node) : Option templateField :=
  match arg with
  | .FieldNode Ident =>
    let st := descend pf Ident
    match root.Lookup Name with
    | some ⟨some tree⟩ =>
      st.1.modifyAtM (extractFieldsFromTemplate root fuel (.ListNode tree.Root)) st.2
    | _ => some st.1
  | .DotNode =>
    match root.Lookup Name with
    | some ⟨some tree⟩ => extractFieldsFromTemplate root fuel (.ListNode tree.Root) pf
    | _ => some pf
  | _ => some pf

/-- The body `if .Cond` ... `.Shown` ... `end`. -/
def ifBody : List Node :=
  [.IfNode [[.FieldNode ["Cond"]]] [fieldAction ["Shown"]] none]

/-- The data shape with the two exported scalar fields `Cond` and `Shown`. -/
def shapeCondShown : GoType :=
  .Struct [exportedField "Cond" .Basic, exportedField "Shown" .Basic]

/-- The node `range .Items` ... `.Name` ... `end`. -/
def rangeItems : Node :=
  .RangeNode [[.FieldNode ["Items"]]] [fieldAction ["Name"]] none

/-- The node `with .User` ... `.Name` ... `end`. -/
def withUser : Node :=
  .WithNode [[.FieldNode ["User"]]] [fieldAction ["Name"]] none

/-- The call graph of `extractFieldsFromTemplate`: `Callee root n m` when the
call on the node `n` makes a recursive call on the node `m`. -/
inductive Callee (root : TemplateSet) : Node → Node → Prop
  | list (Nodes : List Node) (n : Node) : n ∈ Nodes → Callee root (.ListNode Nodes) n
  | ifList (Pipe : List (List Node)) (l : List Node) (e : Option (List Node)) :
      Callee root (.IfNode Pipe l e) (.ListNode l)
  | ifElse (Pipe : List (List Node)) (l el : List Node) :
      Callee root (.IfNode Pipe l (some el)) (.ListNode el)
  | range (Pipe : List (List Node)) (l : List Node) (e : Option (List Node)) :
      Callee root (.RangeNode Pipe l e) (.PipeNode Pipe)
  | withList (Pipe : List (List Node)) (l : List Node) (e : Option (List Node)) :
      Callee root (.WithNode Pipe l e) (.ListNode l)
  | includeNone (Name : String) (tree : Tree) :
      root.Lookup Name = some ⟨some tree⟩ →
      Callee root (.TemplateNode Name none) (.ListNode tree.Root)
  | includeField (Name : String) (Cmds : List (List Node)) (cmd : List Node)
      (Ident : List String) (tree : Tree) :
      cmd ∈ Cmds → Node.FieldNode Ident ∈ cmd → root.Lookup Name = some ⟨some tree⟩ →
      Callee root (.TemplateNode Name (some Cmds)) (.ListNode tree.Root)
  | includeDot (Name : String) (Cmds : List (List Node)) (cmd : List Node) (tree : Tree) :
      cmd ∈ Cmds → Node.DotNode ∈ cmd → root.Lookup Name = some ⟨some tree⟩ →
      Callee root (.TemplateNode Name (some Cmds)) (.ListNode tree.Root)

/-- The body of a template `main` that includes itself: `template "main" .`. -/
def selfBody : List Node :=
  [.TemplateNode "main" (some [[.DotNode]])]

/-- Every field-access argument of the pipe has at most `L` identifiers. -/
def pipeBounded (L : Nat) (Cmds : List (List Node)) : Prop :=
  ∀ cmd ∈ Cmds, ∀ Ident, Node.FieldNode Ident ∈ cmd → Ident.length ≤ L

/-- The field-access arguments that the call on the node itself registers have
at most `L` identifiers. -/
def identsBounded (L : Nat) : Node → Prop
  | .PipeNode Cmds => pipeBounded L Cmds
  | .ActionNode Pipe => pipeBounded L Pipe
  | .TemplateNode _ (some Cmds) => pipeBounded L Cmds
  | _ => True

mutual
/-- The exported field names of every struct the walker reaches are pairwise
distinct: the struct itself or the struct under one pointer, and the
struct-typed exported fields below it. Unexported fields, blank `_` fields
among them, may repeat and are not looked into. -/
def GoType.uniqueExported : GoType → Bool
  | .Ptr Elem => Elem.Kind != .Struct || Elem.uniqueExported
  | .Struct Fields =>
    decide (((Fields.filter (fun f => f.PkgPath == "")).map (fun f => f.Name)).Nodup) &&
      uniqueExportedList Fields
  | _ => true
/-- Every exported struct-typed field of the list satisfies
`GoType.uniqueExported`. -/
def uniqueExportedList : List (StructField GoType) → Bool
  | [] => true
  | ⟨_, PkgPath, ty⟩ :: rest =>
    (PkgPath != "" || ty.Kind != .Struct || ty.uniqueExported) && uniqueExportedList rest
end

/-- The shape `struct { X string; _ int; _ int }`: one exported field and two
blank fields. -/
def shapeBlanks : GoType :=
  .Struct [exportedField "X" .Basic, ⟨"_", "main", .Basic⟩, ⟨"_", "main", .Basic⟩]

/-! ## Lemmas on association lists and trees -/

theorem templateField_induction {P : templateField → Prop}
    (h : ∀ n cs, (∀ kv ∈ cs, P kv.2) → P (.mk n cs)) : ∀ t, P t := fun t =>
  templateField.rec (motive_1 := P) (motive_2 := fun cs => ∀ kv ∈ cs, P kv.2)
    (motive_3 := fun kv => P kv.2)
    (fun n cs ih => h n cs ih)
    (fun kv hkv => by cases hkv)
    (fun hd tl ih1 ih2 kv hkv => by
      rcases List.mem_cons.1 hkv with rfl | hm
      · exact ih1
      · exact ih2 kv hm)
    (fun k v ih => ih) t

theorem lookup_none_iff (cs : List (String × templateField)) (k : String) :
    cs.lookup k = none ↔ k ∉ cs.map Prod.fst := by
  induction cs with
  | nil => simp
  | cons kv rest ih =>
    obtain ⟨a, b⟩ := kv
    by_cases h : k = a
    · subst h; simp
    · have h2 : (k == a) = false := by simpa using h
      simp [List.lookup_cons, h2, ih, h]

theorem mem_of_lookup (cs : List (String × templateField)) (k : String) (v : templateField)
    (h : cs.lookup k = some v) : (k, v) ∈ cs := by
  induction cs with
  | nil => simp at h
  | cons kv rest ih =>
    obtain ⟨a, b⟩ := kv
    by_cases hk : k = a
    · subst hk; simp at h; simp [h]
    · have h2 : (k == a) = false := by simpa using hk
      simp [List.lookup_cons, h2] at h
      exact List.mem_cons_of_mem _ (ih h)

theorem lookup_of_mem (cs : List (String × templateField)) (hnd : (cs.map Prod.fst).Nodup)
    (k : String) (v : templateField) (h : (k, v) ∈ cs) : cs.lookup k = some v := by
  induction cs with
  | nil => simp at h
  | cons kv rest ih =>
    obtain ⟨a, b⟩ := kv
    simp only [List.map_cons, List.nodup_cons] at hnd
    rcases List.mem_cons.1 h with heq | hm
    · cases heq; simp
    · have hne : k ≠ a := by
        intro e; subst e
        exact hnd.1 (List.mem_map.2 ⟨(k, v), hm, rfl⟩)
      have h2 : (k == a) = false := by simpa using hne
      simp [List.lookup_cons, h2, ih hnd.2 hm]

theorem wfChildren_iff (cs : List (String × templateField)) :
    wfChildren cs = true ↔ ∀ kv ∈ cs, kv.2.wf = true := by
  induction cs with
  | nil => simp [wfChildren]
  | cons kv rest ih =>
    obtain ⟨a, b⟩ := kv
    simp [wfChildren, ih]

theorem wf_mk (n : String) (cs : List (String × templateField)) :
    (templateField.mk n cs).wf = true ↔
      (cs.map Prod.fst).Nodup ∧ ∀ kv ∈ cs, kv.2.wf = true := by
  simp [templateField.wf, wfChildren_iff]

theorem Children_mk (n : String) (cs : List (String × templateField)) :
    (templateField.mk n cs).Children = cs := rfl

theorem Name_mk (n : String) (cs : List (String × templateField)) :
    (templateField.mk n cs).Name = n := rfl

theorem nodeAt_nil (t : templateField) : t.nodeAt [] = some t := by
  cases t; rfl

theorem nodeAt_cons (t : templateField) (k : String) (ks : List String) :
    t.nodeAt (k :: ks) = (t.Children.lookup k).bind (fun c => c.nodeAt ks) := by
  cases t with
  | mk n cs =>
    simp only [templateField.nodeAt, templateField.Children]
    cases cs.lookup k <;> rfl

/-! ## The comparison computes the enumerations -/

theorem compareLoop_acc (cs : List (String × templateField)) (D : templateField) :
    ∀ acc : List String × List String, compareLoop cs D acc =
      (acc.1 ++ (compareLoop cs D ([], [])).1, acc.2 ++ (compareLoop cs D ([], [])).2) := by
  induction cs with
  | nil => intro acc; simp [compareLoop]
  | cons kv rest ih =>
    obtain ⟨name, child⟩ := kv
    intro acc
    simp only [compareLoop]
    cases D.Children.lookup name with
    | none =>
      simp only []
      rw [ih (acc.1 ++ _, acc.2), ih ([] ++ _, _)]
      simp
    | some sc =>
      simp only []
      rw [ih (acc.1 ++ _, acc.2 ++ _), ih ([] ++ _, [] ++ _)]
      simp

theorem extraLoop_eq (tName : String) (tChildren : List (String × templateField))
    (l : List (String × templateField)) : ∀ acc : List String × List String,
    l.foldl (fun acc kv =>
      match tChildren.lookup kv.1 with
      | none => (acc.1, acc.2 ++ [tName ++ "->" ++ kv.1])
      | some _ => acc) acc =
    (acc.1, acc.2 ++ ((l.filter (fun kv => (tChildren.lookup kv.1).isNone)).map
      (fun kv => tName ++ "->" ++ kv.1))) := by
  induction l with
  | nil => intro acc; simp
  | cons kv rest ih =>
    intro acc
    simp only [List.foldl_cons]
    rw [ih]
    cases h : tChildren.lookup kv.1 with
    | none => simp [List.filter_cons, h]
    | some c => simp [List.filter_cons, h]

theorem compare_mk (n : String) (cs : List (String × templateField)) (D : templateField) :
    compareTemplateFields (.mk n cs) D =
      ((compareLoop cs D ([], [])).1,
        (compareLoop cs D ([], [])).2 ++
          ((D.Children.filter (fun kv => (cs.lookup kv.1).isNone)).map
            (fun kv => n ++ "->" ++ kv.1))) := by
  simp only [compareTemplateFields]
  rw [extraLoop_eq]

theorem entryAt_cons (D sc : templateField) (name : String)
    (h : D.Children.lookup name = some sc) (pc : List String × String) :
    entryAt D (name :: pc.1, pc.2) = entryAt sc pc := by
  simp [entryAt, nodeAt_cons, h]

theorem compareLoop_missing (D : templateField) (cs : List (String × templateField))
    (ih : ∀ kv ∈ cs, ∀ D', (compareTemplateFields kv.2 D').1 =
      (missingPairs kv.2 D').map (entryAt D')) :
    (compareLoop cs D ([], [])).1 = (missingPairsLoop cs D).map (entryAt D) := by
  induction cs with
  | nil => simp [compareLoop, missingPairsLoop]
  | cons kv rest ihl =>
    obtain ⟨name, child⟩ := kv
    have ihr := ihl (fun kv hkv => ih kv (List.mem_cons_of_mem _ hkv))
    simp only [compareLoop, missingPairsLoop]
    cases h : D.Children.lookup name with
    | none =>
      simp only []
      rw [compareLoop_acc, ihr]
      simp [entryAt, nodeAt_nil]
    | some sc =>
      simp only []
      rw [compareLoop_acc, ihr, ih (name, child) (List.mem_cons_self _ _) sc]
      simp [Function.comp_def, entryAt_cons D sc name h]

theorem compare_missing_eq : ∀ T D : templateField,
    (compareTemplateFields T D).1 = (missingPairs T D).map (entryAt D) := by
  intro T
  induction T using templateField_induction with
  | h n cs ih =>
    intro D
    rw [compare_mk]
    simp only [missingPairs]
    exact compareLoop_missing D cs ih

theorem compareLoop_extra (T0 D : templateField) (cs : List (String × templateField))
    (hcs : ∀ kv ∈ cs, T0.Children.lookup kv.1 = some kv.2)
    (ih : ∀ kv ∈ cs, ∀ D', (compareTemplateFields kv.2 D').2 =
      (extraPairs kv.2 D').map (entryAt kv.2)) :
    (compareLoop cs D ([], [])).2 = (extraPairsLoop cs D).map (entryAt T0) := by
  induction cs with
  | nil => simp [compareLoop, extraPairsLoop]
  | cons kv rest ihl =>
    obtain ⟨name, child⟩ := kv
    have ihr := ihl (fun kv hkv => hcs kv (List.mem_cons_of_mem _ hkv))
      (fun kv hkv => ih kv (List.mem_cons_of_mem _ hkv))
    have hchild := hcs (name, child) (List.mem_cons_self _ _)
    simp only [compareLoop, extraPairsLoop]
    cases h : D.Children.lookup name with
    | none =>
      simp only []
      rw [compareLoop_acc, ihr]
      simp
    | some sc =>
      simp only []
      rw [compareLoop_acc, ihr, ih (name, child) (List.mem_cons_self _ _) sc]
      simp [Function.comp_def, entryAt_cons T0 child name hchild]

theorem compare_extra_eq : ∀ T : templateField, T.wf = true → ∀ D : templateField,
    (compareTemplateFields T D).2 = (extraPairs T D).map (entryAt (T)) := by
  intro T
  induction T using templateField_induction with
  | h n cs ih =>
    intro hwf D
    rw [wf_mk] at hwf
    rw [compare_mk]
    simp only [extraPairs, List.map_append]
    rw [compareLoop_extra (.mk n cs) D cs
      (fun kv hkv => lookup_of_mem cs hwf.1 kv.1 kv.2 hkv)
      (fun kv hkv => ih kv hkv (hwf.2 kv hkv))]
    simp [extraPairsHere, entryAt, nodeAt_nil, templateField.Name, Function.comp_def]

/-! ## The enumerations list each missing or extra field once -/

theorem mem_missingPairsLoop (D : templateField) (cs : List (String × templateField))
    (p : List String) (c : String) :
    (p, c) ∈ missingPairsLoop cs D ↔ ∃ kv ∈ cs,
      (D.Children.lookup kv.1 = none ∧ p = [] ∧ c = kv.1) ∨
      (∃ sc q, D.Children.lookup kv.1 = some sc ∧ p = kv.1 :: q ∧
        (q, c) ∈ missingPairs kv.2 sc) := by
  induction cs with
  | nil => simp [missingPairsLoop]
  | cons kv rest ih =>
    obtain ⟨name, child⟩ := kv
    simp only [missingPairsLoop]
    cases h : D.Children.lookup name with
    | none =>
      simp only [List.mem_cons, ih, Prod.mk.injEq]
      constructor
      · rintro (⟨rfl, rfl⟩ | ⟨kv, hkv, hr⟩)
        · exact ⟨(c, child), Or.inl rfl, Or.inl ⟨h, rfl, rfl⟩⟩
        · exact ⟨kv, Or.inr hkv, hr⟩
      · rintro ⟨kv, hkv | hkv, hr⟩
        · subst hkv
          rcases hr with ⟨_, rfl, rfl⟩ | ⟨sc, q, hs, _, _⟩
          · exact Or.inl ⟨rfl, rfl⟩
          · simp [h] at hs
        · exact Or.inr ⟨kv, hkv, hr⟩
    | some sc =>
      simp only [List.mem_append, List.mem_map, ih, Prod.mk.injEq, List.mem_cons]
      constructor
      · rintro (⟨⟨q, c'⟩, hm, rfl, rfl⟩ | ⟨kv, hkv, hr⟩)
        · exact ⟨(name, child), Or.inl rfl, Or.inr ⟨sc, q, h, rfl, hm⟩⟩
        · exact ⟨kv, Or.inr hkv, hr⟩
      · rintro ⟨kv, hkv | hkv, hr⟩
        · subst hkv
          rcases hr with ⟨hn, _, _⟩ | ⟨sc', q, hs, rfl, hm⟩
          · simp [h] at hn
          · simp only [h, Option.some.injEq] at hs
            subst hs
            exact Or.inl ⟨(q, c), hm, rfl, rfl⟩
        · exact Or.inr ⟨kv, hkv, hr⟩

theorem mem_keys_iff (cs : List (String × templateField)) (c : String) :
    c ∈ cs.map Prod.fst ↔ ∃ kv ∈ cs, kv.1 = c := by
  simp

theorem mem_missingPairs : ∀ T : templateField, T.wf = true →
    ∀ (D : templateField) (pc : List String × String),
      pc ∈ missingPairs T D ↔ IsMissing T D pc := by
  intro T
  induction T using templateField_induction with
  | h n cs ih =>
    intro hwf D pc
    obtain ⟨p, c⟩ := pc
    rw [wf_mk] at hwf
    simp only [missingPairs]
    rw [mem_missingPairsLoop]
    constructor
    · rintro ⟨kv, hkv, ⟨hnone, rfl, rfl⟩ | ⟨sc, q, hsome, rfl, hmem⟩⟩
      · refine ⟨.mk n cs, D, nodeAt_nil _, nodeAt_nil _, ?_, ?_⟩
        · exact List.mem_map.2 ⟨kv, hkv, rfl⟩
        · exact (lookup_none_iff _ _).1 hnone
      · obtain ⟨t, d, ht, hd, hc, hnc⟩ := (ih kv hkv (hwf.2 kv hkv) sc (q, c)).1 hmem
        refine ⟨t, d, ?_, ?_, hc, hnc⟩
        · simp only [nodeAt_cons, Children_mk]
          rw [lookup_of_mem cs hwf.1 kv.1 kv.2 hkv]
          exact ht
        · simp only [nodeAt_cons]
          rw [hsome]
          exact hd
    · rintro ⟨t, d, ht, hd, hc, hnc⟩
      cases p with
      | nil =>
        simp only [nodeAt_nil, Option.some.injEq] at ht hd
        subst ht; subst hd
        obtain ⟨kv, hkv, rfl⟩ := List.mem_map.1 hc
        exact ⟨kv, hkv, Or.inl ⟨(lookup_none_iff _ _).2 hnc, rfl, rfl⟩⟩
      | cons k q =>
        simp only [nodeAt_cons, Children_mk] at ht hd
        cases htc : cs.lookup k with
        | none => simp [htc] at ht
        | some tc =>
          cases hsc : D.Children.lookup k with
          | none => simp [hsc] at hd
          | some sc =>
            have hmem := mem_of_lookup cs k tc htc
            simp only [htc, Option.some_bind] at ht
            simp only [hsc, Option.some_bind] at hd
            refine ⟨(k, tc), hmem, Or.inr ⟨sc, q, hsc, rfl, ?_⟩⟩
            exact (ih (k, tc) hmem (hwf.2 _ hmem) sc (q, c)).2 ⟨t, d, ht, hd, hc, hnc⟩

theorem cons_path_injective (name : String) :
    Function.Injective (fun pc : List String × String => (name :: pc.1, pc.2)) := by
  rintro ⟨p, c⟩ ⟨q, d⟩ h
  simp only [Prod.mk.injEq, List.cons.injEq, true_and] at h
  exact Prod.ext h.1 h.2

theorem nodup_missingPairsLoop (D : templateField) (cs : List (String × templateField))
    (hnd : (cs.map Prod.fst).Nodup)
    (ih : ∀ kv ∈ cs, ∀ D', (missingPairs kv.2 D').Nodup) :
    (missingPairsLoop cs D).Nodup := by
  induction cs with
  | nil => simp [missingPairsLoop]
  | cons kv rest ihl =>
    obtain ⟨name, child⟩ := kv
    simp only [List.map_cons, List.nodup_cons] at hnd
    have ihr := ihl hnd.2 (fun kv hkv => ih kv (List.mem_cons_of_mem _ hkv))
    have hfresh : ∀ kv ∈ rest, kv.1 ≠ name := by
      intro kv hkv e
      exact hnd.1 (List.mem_map.2 ⟨kv, hkv, e⟩)
    simp only [missingPairsLoop]
    cases h : D.Children.lookup name with
    | none =>
      simp only []
      refine List.nodup_cons.2 ⟨?_, ihr⟩
      rw [mem_missingPairsLoop]
      rintro ⟨kv, hkv, ⟨_, _, e⟩ | ⟨sc, q, _, e, _⟩⟩
      · exact hfresh kv hkv e.symm
      · cases e
    | some sc =>
      simp only []
      refine List.Nodup.append ?_ ihr ?_
      · exact (ih (name, child) (List.mem_cons_self _ _) sc).map (cons_path_injective name)
      · intro pc h1 h2
        obtain ⟨⟨q, c⟩, _, rfl⟩ := List.mem_map.1 h1
        rw [mem_missingPairsLoop] at h2
        rcases h2 with ⟨kv, hkv, ⟨_, e, _⟩ | ⟨sc', q', _, e, _⟩⟩
        · cases e
        · simp only [List.cons.injEq] at e
          exact hfresh kv hkv e.1.symm

theorem nodup_missingPairs : ∀ T : templateField, T.wf = true →
    ∀ D : templateField, (missingPairs T D).Nodup := by
  intro T
  induction T using templateField_induction with
  | h n cs ih =>
    intro hwf D
    rw [wf_mk] at hwf
    simp only [missingPairs]
    exact nodup_missingPairsLoop D cs hwf.1 (fun kv hkv => ih kv hkv (hwf.2 kv hkv))

theorem mem_extraPairsLoop (D : templateField) (cs : List (String × templateField))
    (p : List String) (c : String) :
    (p, c) ∈ extraPairsLoop cs D ↔ ∃ kv ∈ cs, ∃ sc q,
      D.Children.lookup kv.1 = some sc ∧ p = kv.1 :: q ∧ (q, c) ∈ extraPairs kv.2 sc := by
  induction cs with
  | nil => simp [extraPairsLoop]
  | cons kv rest ih =>
    obtain ⟨name, child⟩ := kv
    simp only [extraPairsLoop]
    cases h : D.Children.lookup name with
    | none =>
      simp only [ih, List.mem_cons]
      constructor
      · rintro ⟨kv, hkv, hr⟩
        exact ⟨kv, Or.inr hkv, hr⟩
      · rintro ⟨kv, hkv | hkv, sc, q, hs, hr⟩
        · subst hkv
          simp [h] at hs
        · exact ⟨kv, hkv, sc, q, hs, hr⟩
    | some sc =>
      simp only [List.mem_append, List.mem_map, ih, Prod.mk.injEq, List.mem_cons]
      constructor
      · rintro (⟨⟨q, c'⟩, hm, rfl, rfl⟩ | ⟨kv, hkv, hr⟩)
        · exact ⟨(name, child), Or.inl rfl, sc, q, h, rfl, hm⟩
        · exact ⟨kv, Or.inr hkv, hr⟩
      · rintro ⟨kv, hkv | hkv, sc', q, hs, rfl, hm⟩
        · subst hkv
          simp only [h, Option.some.injEq] at hs
          subst hs
          exact Or.inl ⟨(q, c), hm, rfl, rfl⟩
        · exact Or.inr ⟨kv, hkv, sc', q, hs, rfl, hm⟩

theorem mem_extraPairsHere (D : templateField) (cs : List (String × templateField))
    (p : List String) (c : String) :
    (p, c) ∈ extraPairsHere cs D ↔ p = [] ∧ c ∈ D.keys ∧ c ∉ cs.map Prod.fst := by
  simp only [extraPairsHere, List.mem_map, List.mem_filter, Prod.mk.injEq, templateField.keys,
    Option.isNone_iff_eq_none, lookup_none_iff]
  constructor
  · rintro ⟨kv, ⟨hkv, hn⟩, rfl, rfl⟩
    exact ⟨rfl, ⟨kv, hkv, rfl⟩, hn⟩
  · rintro ⟨rfl, ⟨kv, hkv, rfl⟩, hn⟩
    exact ⟨kv, ⟨hkv, hn⟩, rfl, rfl⟩

theorem nodup_extraPairsHere (D : templateField) (cs : List (String × templateField))
    (hnd : D.keys.Nodup) : (extraPairsHere cs D).Nodup := by
  have h1 : ((D.Children.filter (fun kv => (cs.lookup kv.1).isNone)).map Prod.fst).Nodup :=
    hnd.sublist (List.Sublist.map _ (List.filter_sublist _))
  have h2 : extraPairsHere cs D =
      ((D.Children.filter (fun kv => (cs.lookup kv.1).isNone)).map Prod.fst).map
        (fun c => (([] : List String), c)) := by
    simp [extraPairsHere, Function.comp_def]
  rw [h2]
  refine h1.map ?_
  intro a b h
  simpa using h

theorem mem_extraPairs : ∀ T : templateField, T.wf = true →
    ∀ (D : templateField) (pc : List String × String),
      pc ∈ extraPairs T D ↔ IsExtra T D pc := by
  intro T
  induction T using templateField_induction with
  | h n cs ih =>
    intro hwf D pc
    obtain ⟨p, c⟩ := pc
    rw [wf_mk] at hwf
    simp only [extraPairs, List.mem_append]
    rw [mem_extraPairsLoop, mem_extraPairsHere]
    constructor
    · rintro (⟨kv, hkv, sc, q, hsome, rfl, hmem⟩ | ⟨rfl, hc, hnc⟩)
      · obtain ⟨t, d, ht, hd, hc, hnc⟩ := (ih kv hkv (hwf.2 kv hkv) sc (q, c)).1 hmem
        refine ⟨t, d, ?_, ?_, hc, hnc⟩
        · simp only [nodeAt_cons, Children_mk]
          rw [lookup_of_mem cs hwf.1 kv.1 kv.2 hkv]
          exact ht
        · simp only [nodeAt_cons]
          rw [hsome]
          exact hd
      · exact ⟨.mk n cs, D, nodeAt_nil _, nodeAt_nil _, hc, hnc⟩
    · rintro ⟨t, d, ht, hd, hc, hnc⟩
      cases p with
      | nil =>
        simp only [nodeAt_nil, Option.some.injEq] at ht hd
        subst ht; subst hd
        exact Or.inr ⟨rfl, hc, hnc⟩
      | cons k q =>
        simp only [nodeAt_cons, Children_mk] at ht hd
        cases htc : cs.lookup k with
        | none => simp [htc] at ht
        | some tc =>
          cases hsc : D.Children.lookup k with
          | none => simp [hsc] at hd
          | some sc =>
            have hmem := mem_of_lookup cs k tc htc
            simp only [htc, Option.some_bind] at ht
            simp only [hsc, Option.some_bind] at hd
            refine Or.inl ⟨(k, tc), hmem, sc, q, hsc, rfl, ?_⟩
            exact (ih (k, tc) hmem (hwf.2 _ hmem) sc (q, c)).2 ⟨t, d, ht, hd, hc, hnc⟩

theorem wf_keys (D : templateField) (h : D.wf = true) : D.keys.Nodup := by
  cases D with
  | mk n cs => exact ((wf_mk n cs).1 h).1

theorem wf_child (D : templateField) (h : D.wf = true) (k : String) (sc : templateField)
    (hk : D.Children.lookup k = some sc) : sc.wf = true := by
  cases D with
  | mk n cs => exact ((wf_mk n cs).1 h).2 (k, sc) (mem_of_lookup cs k sc hk)

theorem nodup_extraPairsLoop (D : templateField) (hD : D.wf = true)
    (cs : List (String × templateField)) (hnd : (cs.map Prod.fst).Nodup)
    (ih : ∀ kv ∈ cs, ∀ D', D'.wf = true → (extraPairs kv.2 D').Nodup) :
    (extraPairsLoop cs D).Nodup := by
  induction cs with
  | nil => simp [extraPairsLoop]
  | cons kv rest ihl =>
    obtain ⟨name, child⟩ := kv
    simp only [List.map_cons, List.nodup_cons] at hnd
    have ihr := ihl hnd.2 (fun kv hkv => ih kv (List.mem_cons_of_mem _ hkv))
    have hfresh : ∀ kv ∈ rest, kv.1 ≠ name := by
      intro kv hkv e
      exact hnd.1 (List.mem_map.2 ⟨kv, hkv, e⟩)
    simp only [extraPairsLoop]
    cases h : D.Children.lookup name with
    | none => exact ihr
    | some sc =>
      simp only []
      refine List.Nodup.append ?_ ihr ?_
      · exact (ih (name, child) (List.mem_cons_self _ _) sc (wf_child D hD name sc h)).map
          (cons_path_injective name)
      · intro pc h1 h2
        obtain ⟨⟨q, c⟩, _, rfl⟩ := List.mem_map.1 h1
        rw [mem_extraPairsLoop] at h2
        obtain ⟨kv, hkv, sc', q', _, e, _⟩ := h2
        simp only [List.cons.injEq] at e
        exact hfresh kv hkv e.1.symm

theorem nodup_extraPairs : ∀ T : templateField, T.wf = true →
    ∀ D : templateField, D.wf = true → (extraPairs T D).Nodup := by
  intro T
  induction T using templateField_induction with
  | h n cs ih =>
    intro hwf D hD
    rw [wf_mk] at hwf
    simp only [extraPairs]
    refine List.Nodup.append ?_ (nodup_extraPairsHere D cs (wf_keys D hD)) ?_
    · exact nodup_extraPairsLoop D hD cs hwf.1 (fun kv hkv => ih kv hkv (hwf.2 kv hkv))
    · rintro ⟨p, c⟩ h1 h2
      rw [mem_extraPairsLoop] at h1
      rw [mem_extraPairsHere] at h2
      obtain ⟨kv, _, sc, q, _, e, _⟩ := h1
      rw [h2.1] at e
      cases e

theorem nodeAt_append (t : templateField) (p q : List String) :
    t.nodeAt (p ++ q) = (t.nodeAt p).bind (fun n => n.nodeAt q) := by
  induction p generalizing t with
  | nil => simp [nodeAt_nil]
  | cons k ks ih =>
    simp only [List.cons_append, nodeAt_cons]
    cases t.Children.lookup k with
    | none => rfl
    | some c => simpa using ih c

/-! ## The missing and extra lists -/

theorem nodeAt_below_absent (D d : templateField) (p q : List String) (c : String)
    (hd : D.nodeAt p = some d) (hc : c ∉ d.keys) : D.nodeAt (p ++ c :: q) = none := by
  rw [nodeAt_append, hd]
  simp only [Option.some_bind, nodeAt_cons]
  rw [(lookup_none_iff d.Children c).2 hc]
  rfl

/-- C1: the `missing` list of `compareTemplateFields T D` is, up to order, the
list of the entries `(Name of the D-node at p) + "->" + c`, one for each pair
`(p, c)` such that the path `p` exists in both trees, `c` is a child name of
the T-node at `p` and `c` is not a child name of the D-node at `p`; no pair
lies below a field that is already missing; and a template using `.A.B`
against the data shape with the field `A` and no nested `B` gives
`missing = ["A->B"]` and `extra = []`. -/
theorem compareTemplateFields_missing (T D : templateField) (hT : T.wf = true) :
    (∃ ps : List (List String × String),
      ps.Nodup ∧ (∀ pc, pc ∈ ps ↔ IsMissing T D pc) ∧
      (compareTemplateFields T D).1.Perm (ps.map (entryAt D)) ∧
      (∀ p c q c', IsMissing T D (p, c) → (p ++ c :: q, c') ∉ ps)) ∧
    (∀ fuel, CompareViewModel (some shapeA) (singleTemplate [fieldAction ["A", "B"]]) "main"
      (fuel + 2) = .returned (["A->B"], [])) := by
  refine ⟨⟨missingPairs T D, nodup_missingPairs T hT D, mem_missingPairs T hT D, ?_, ?_⟩,
    fun _ => rfl⟩
  · rw [compare_missing_eq]
  · rintro p c q c' ⟨t, d, _, hd, _, hnc⟩ hmem
    obtain ⟨_, d', _, hd', _, _⟩ := (mem_missingPairs T hT D _).1 hmem
    rw [nodeAt_below_absent D d p q c hd hnc] at hd'
    cases hd'

theorem compareTemplateFields_missing_witness :
    sampleTemplateTree.wf = true ∧
    ((∃ ps : List (List String × String),
      ps.Nodup ∧ (∀ pc, pc ∈ ps ↔ IsMissing sampleTemplateTree sampleDataTree pc) ∧
      (compareTemplateFields sampleTemplateTree sampleDataTree).1.Perm
        (ps.map (entryAt sampleDataTree)) ∧
      (∀ p c q c', IsMissing sampleTemplateTree sampleDataTree (p, c) →
        (p ++ c :: q, c') ∉ ps)) ∧
    (∀ fuel, CompareViewModel (some shapeA) (singleTemplate [fieldAction ["A", "B"]]) "main"
      (fuel + 2) = .returned (["A->B"], []))) :=
  ⟨by decide, compareTemplateFields_missing sampleTemplateTree sampleDataTree (by decide)⟩

/-- C2: the `extra` list of `compareTemplateFields T D` is, up to order, the
list of the entries `(Name of the T-node at p) + "->" + c`, one for each pair
`(p, c)` such that the path `p` exists in both trees, `c` is a child name of
the D-node at `p` and `c` is not a child name of the T-node at `p`; no pair
lies below a field the template does not reference; and the data shape with
fields `X`, `Y` against a template using only `.X` gives `extra = ["Root->Y"]`
and `missing = []`. -/
theorem compareTemplateFields_extra (T D : templateField) (hT : T.wf = true)
    (hD : D.wf = true) :
    (∃ ps : List (List String × String),
      ps.Nodup ∧ (∀ pc, pc ∈ ps ↔ IsExtra T D pc) ∧
      (compareTemplateFields T D).2.Perm (ps.map (entryAt T)) ∧
      (∀ p c q c', IsExtra T D (p, c) → (p ++ c :: q, c') ∉ ps)) ∧
    (∀ fuel, CompareViewModel (some shapeXY) (singleTemplate [fieldAction ["X"]]) "main"
      (fuel + 2) = .returned ([], ["Root->Y"])) := by
  refine ⟨⟨extraPairs T D, nodup_extraPairs T hT D hD, mem_extraPairs T hT D, ?_, ?_⟩, ?_⟩
  · rw [compare_extra_eq T hT]
  · rintro p c q c' ⟨t, d, ht, _, _, hnc⟩ hmem
    obtain ⟨t', _, ht', _, _, _⟩ := (mem_extraPairs T hT D _).1 hmem
    rw [nodeAt_below_absent T t p q c ht hnc] at ht'
    cases ht'
  · intro fuel
    rfl

theorem compareTemplateFields_extra_witness :
    sampleTemplateTree.wf = true ∧ sampleDataTree.wf = true ∧
    ((∃ ps : List (List String × String),
      ps.Nodup ∧ (∀ pc, pc ∈ ps ↔ IsExtra sampleTemplateTree sampleDataTree pc) ∧
      (compareTemplateFields sampleTemplateTree sampleDataTree).2.Perm
        (ps.map (entryAt sampleTemplateTree)) ∧
      (∀ p c q c', IsExtra sampleTemplateTree sampleDataTree (p, c) →
        (p ++ c :: q, c') ∉ ps)) ∧
    (∀ fuel, CompareViewModel (some shapeXY) (singleTemplate [fieldAction ["X"]]) "main"
      (fuel + 2) = .returned ([], ["Root->Y"]))) :=
  ⟨by decide, by decide,
    compareTemplateFields_extra sampleTemplateTree sampleDataTree (by decide) (by decide)⟩

/-- The sample trees compare to `missing = ["A->B", "Root->C"]` and
`extra = ["A->D", "Root->Y"]`. -/
theorem compareTemplateFields_sample :
    compareTemplateFields sampleTemplateTree sampleDataTree =
      (["A->B", "Root->C"], ["A->D", "Root->Y"]) := by
  decide

/-! ## The walkers keep one entry per key -/

theorem keys_setChild (cs : List (String × templateField)) (k : String) (c : templateField) :
    (setChild cs k c).map Prod.fst = cs.map Prod.fst := by
  induction cs with
  | nil => rfl
  | cons kv rest ih =>
    obtain ⟨a, b⟩ := kv
    simp only [setChild]
    split
    · rfl
    · simp [ih]

theorem mem_setChild (cs : List (String × templateField)) (k : String) (c : templateField)
    (kv : String × templateField) (h : kv ∈ setChild cs k c) : kv.2 = c ∨ kv ∈ cs := by
  induction cs with
  | nil => simp [setChild] at h
  | cons hd rest ih =>
    obtain ⟨a, b⟩ := hd
    simp only [setChild] at h
    split at h
    · rcases List.mem_cons.1 h with rfl | hm
      · exact Or.inl rfl
      · exact Or.inr (List.mem_cons_of_mem _ hm)
    · rcases List.mem_cons.1 h with rfl | hm
      · exact Or.inr (List.mem_cons_self _ _)
      · rcases ih hm with h1 | h1
        · exact Or.inl h1
        · exact Or.inr (List.mem_cons_of_mem _ h1)

theorem wf_setChild (n : String) (cs : List (String × templateField)) (k : String)
    (c : templateField) (h : (templateField.mk n cs).wf = true) (hc : c.wf = true) :
    (templateField.mk n (setChild cs k c)).wf = true := by
  rw [wf_mk] at h ⊢
  refine ⟨by rw [keys_setChild]; exact h.1, ?_⟩
  intro kv hkv
  rcases mem_setChild cs k c kv hkv with h1 | h1
  · rw [h1]; exact hc
  · exact h.2 kv h1

theorem modifyAt_nil (f : templateField → templateField) (t : templateField) :
    t.modifyAt f [] = f t := by
  cases t; rfl

theorem modifyAt_cons (f : templateField → templateField) (t : templateField) (k : String)
    (ks : List String) :
    t.modifyAt f (k :: ks) =
      match t.Children.lookup k with
      | none => t
      | some c => .mk t.Name (setChild t.Children k (c.modifyAt f ks)) := by
  cases t; rfl

theorem modifyAtM_nil (f : templateField → Option templateField) (t : templateField) :
    t.modifyAtM f [] = f t := by
  cases t; rfl

theorem modifyAtM_cons (f : templateField → Option templateField) (t : templateField)
    (k : String) (ks : List String) :
    t.modifyAtM f (k :: ks) =
      match t.Children.lookup k with
      | none => some t
      | some c =>
        match c.modifyAtM f ks with
        | none => none
        | some c' => some (.mk t.Name (setChild t.Children k c')) := by
  cases t; rfl

theorem wf_modifyAt (f : templateField → templateField)
    (hf : ∀ t, t.wf = true → (f t).wf = true) :
    ∀ (path : List String) (t : templateField), t.wf = true → (t.modifyAt f path).wf = true := by
  intro path
  induction path with
  | nil => intro t ht; rw [modifyAt_nil]; exact hf t ht
  | cons k ks ih =>
    intro t ht
    rw [modifyAt_cons]
    cases h : t.Children.lookup k with
    | none => exact ht
    | some c =>
      cases t with
      | mk n cs => exact wf_setChild n cs k _ ht (ih c (wf_child _ ht k c h))

theorem wf_modifyAtM (f : templateField → Option templateField)
    (hf : ∀ t r, t.wf = true → f t = some r → r.wf = true) :
    ∀ (path : List String) (t r : templateField), t.wf = true →
      t.modifyAtM f path = some r → r.wf = true := by
  intro path
  induction path with
  | nil => intro t r ht hr; rw [modifyAtM_nil] at hr; exact hf t r ht hr
  | cons k ks ih =>
    intro t r ht hr
    rw [modifyAtM_cons] at hr
    cases h : t.Children.lookup k with
    | none =>
      simp only [h, Option.some.injEq] at hr
      rw [← hr]; exact ht
    | some c =>
      simp only [h] at hr
      cases h2 : c.modifyAtM f ks with
      | none => simp [h2] at hr
      | some c' =>
        simp only [h2, Option.some.injEq] at hr
        rw [← hr]
        cases t with
        | mk n cs => exact wf_setChild n cs k _ ht (ih c c' (wf_child _ ht k c h) h2)

theorem wf_newTemplateField (name : String) : (newTemplateField name).wf = true := by
  simp [newTemplateField, wf_mk]

theorem wf_addChild (t : templateField) (name : String) (ht : t.wf = true) :
    (t.addChild name).1.wf = true := by
  cases t with
  | mk n cs =>
    simp only [templateField.addChild, Children_mk, Name_mk]
    cases h : cs.lookup name with
    | some c => exact ht
    | none =>
      rw [wf_mk] at ht
      simp only [wf_mk, List.map_append, List.map_cons, List.map_nil, List.mem_append,
        List.mem_singleton]
      refine ⟨?_, ?_⟩
      · refine List.Nodup.append ht.1 (by simp) ?_
        intro a h1 h2
        simp only [List.mem_singleton] at h2
        subst h2
        exact (lookup_none_iff cs a).1 h h1
      · rintro kv (hkv | rfl)
        · exact ht.2 kv hkv
        · exact wf_newTemplateField name

theorem wf_descend_aux (fieldParts : List String) :
    ∀ st : templateField × List String, st.1.wf = true →
      (fieldParts.foldl
        (fun st part => (st.1.modifyAt (fun c => (c.addChild part).1) st.2, st.2 ++ [part]))
        st).1.wf = true := by
  induction fieldParts with
  | nil => intro st h; exact h
  | cons part rest ih =>
    intro st h
    simp only [List.foldl_cons]
    exact ih _ (wf_modifyAt _ (fun t ht => wf_addChild t part ht) _ _ h)

theorem wf_descend (pf : templateField) (fieldParts : List String) (h : pf.wf = true) :
    (descend pf fieldParts).1.wf = true :=
  wf_descend_aux fieldParts (pf, []) h

theorem foldl_inv {α β : Type} (P : α → Prop) (f : α → β → α)
    (l : List β) (hf : ∀ a, ∀ b ∈ l, P a → P (f a b)) : ∀ a, P a → P (l.foldl f a) := by
  induction l with
  | nil => intro a h; exact h
  | cons b rest ih =>
    intro a h
    exact ih (fun a b' hb' => hf a b' (List.mem_cons_of_mem _ hb')) _
      (hf a b (List.mem_cons_self _ _) h)

theorem foldlM_inv {α β : Type} (P : α → Prop) (f : α → β → Option α)
    (l : List β) (hf : ∀ a, ∀ b ∈ l, ∀ r, P a → f a b = some r → P r) :
    ∀ a r, P a → l.foldlM f a = some r → P r := by
  induction l with
  | nil =>
    intro a r h hr
    simp only [List.foldlM_nil] at hr
    cases hr
    exact h
  | cons b rest ih =>
    intro a r h hr
    simp only [List.foldlM_cons] at hr
    cases hb : f a b with
    | none => simp [hb] at hr
    | some a' =>
      simp only [hb, Option.some_bind] at hr
      exact ih (fun a b' hb' => hf a b' (List.mem_cons_of_mem _ hb')) a' r
        (hf a b (List.mem_cons_self _ _) a' h hb) hr

theorem wf_registerArg (pf : templateField) (arg : Node) (h : pf.wf = true) :
    (match arg with
      | .FieldNode Ident => (descend pf Ident).1
      | _ => pf).wf = true := by
  cases arg <;> first | exact h | exact wf_descend _ _ h

theorem wf_registerCmds (Cmds : List (List Node)) (pf : templateField) (h : pf.wf = true) :
    (Cmds.foldl (fun pf cmd => cmd.foldl (fun pf arg =>
        match arg with
        | .FieldNode Ident => (descend pf Ident).1
        | _ => pf) pf) pf).wf = true := by
  refine foldl_inv (fun t => t.wf = true) _ Cmds ?_ pf h
  intro a cmd _ ha
  refine foldl_inv (fun t => t.wf = true) _ cmd ?_ a ha
  intro a arg _ ha
  exact wf_registerArg a arg ha

theorem wf_extract (root : TemplateSet) : ∀ (fuel : Nat) (n : Node) (pf r : templateField),
    pf.wf = true → extractFieldsFromTemplate root fuel n pf = some r → r.wf = true := by
  intro fuel
  induction fuel with
  | zero => intro n pf r _ h; simp [extractFieldsFromTemplate] at h
  | succ fuel ih =>
    intro n pf r hpf h
    cases n with
    | FieldNode Ident =>
      simp only [extractFieldsFromTemplate, Option.some.injEq] at h
      rw [← h]; exact hpf
    | DotNode =>
      simp only [extractFieldsFromTemplate, Option.some.injEq] at h
      rw [← h]; exact hpf
    | OtherNode =>
      simp only [extractFieldsFromTemplate, Option.some.injEq] at h
      rw [← h]; exact hpf
    | PipeNode Cmds =>
      simp only [extractFieldsFromTemplate, Option.some.injEq] at h
      rw [← h]; exact wf_registerCmds Cmds pf hpf
    | ActionNode Pipe =>
      simp only [extractFieldsFromTemplate, Option.some.injEq] at h
      rw [← h]; exact wf_registerCmds Pipe pf hpf
    | TemplateNode Name Pipe =>
      cases Pipe with
      | none =>
        simp only [extractFieldsFromTemplate] at h
        split at h
        · exact ih _ _ _ hpf h
        · cases h; exact hpf
      | some Cmds =>
        simp only [extractFieldsFromTemplate] at h
        refine foldlM_inv (fun t => t.wf = true) _ Cmds ?_ pf r hpf h
        intro a cmd _ r1 ha h1
        refine foldlM_inv (fun t => t.wf = true) _ cmd ?_ a r1 ha h1
        intro a arg _ r2 ha h2
        split at h2
        · split at h2
          · exact wf_modifyAtM _ (fun t r ht hr => ih _ t r ht hr) _ _ _ (wf_descend _ _ ha) h2
          · cases h2; exact wf_descend _ _ ha
        · split at h2
          · exact ih _ _ _ ha h2
          · cases h2; exact ha
        · cases h2; exact ha
    | ListNode Nodes =>
      simp only [extractFieldsFromTemplate] at h
      exact foldlM_inv (fun t => t.wf = true) _ Nodes (fun a b _ r ha hr => ih b a r ha hr)
        pf r hpf h
    | IfNode _ list elseList =>
      simp only [extractFieldsFromTemplate] at h
      split at h
      · cases h
      · rename_i pf1 h1
        have hpf1 := ih _ _ _ hpf h1
        split at h
        · exact ih _ _ _ hpf1 h
        · cases h; exact hpf1
    | RangeNode Pipe _ _ =>
      simp only [extractFieldsFromTemplate] at h
      exact ih _ _ _ hpf h
    | WithNode _ list _ =>
      simp only [extractFieldsFromTemplate] at h
      exact ih _ _ _ hpf h

theorem GoType_induction {P : GoType → Prop}
    (hPtr : ∀ e, P e → P (.Ptr e))
    (hStruct : ∀ fs, (∀ f ∈ fs, P f.Typ) → P (.Struct fs))
    (hSlice : ∀ e, P e → P (.Slice e))
    (hMap : ∀ k e, P k → P e → P (.Map k e))
    (hInterface : P .Interface) (hBasic : P .Basic) : ∀ t, P t := fun t =>
  GoType.rec (motive_1 := P) (motive_2 := fun fs => ∀ f ∈ fs, P f.Typ)
    (motive_3 := fun f => P f.Typ)
    hPtr hStruct hSlice hMap hInterface hBasic
    (fun f hf => by cases hf)
    (fun hd tl ih1 ih2 f hf => by
      rcases List.mem_cons.1 hf with rfl | hm
      · exact ih1
      · exact ih2 f hm)
    (fun _ _ _ ih => ih) t

theorem extractHelper_ptr_struct (Fields : List (StructField GoType)) (pf : templateField) :
    extractHelper (.Ptr (.Struct Fields)) pf = extractHelper (.Struct Fields) pf := by
  simp [extractHelper]

theorem extractHelper_struct (Fields : List (StructField GoType)) (pf : templateField) :
    extractHelper (.Struct Fields) pf = extractHelperLoop Fields pf := by
  simp [extractHelper]

theorem extractHelper_of_ne (typ : GoType) (pf : templateField)
    (h1 : typ.Kind ≠ .Struct) (h2 : ∀ e, typ = .Ptr e → e.Kind ≠ .Struct) :
    extractHelper typ pf = pf := by
  cases typ with
  | Struct fs => simp [GoType.Kind] at h1
  | Ptr e =>
    cases e with
    | Struct fs => simpa [GoType.Kind] using h2 _ rfl
    | _ => simp [extractHelper]
  | _ => simp [extractHelper]

theorem extractHelperLoop_cons (f : StructField GoType) (rest : List (StructField GoType))
    (pf : templateField) :
    extractHelperLoop (f :: rest) pf =
      if f.PkgPath != "" then extractHelperLoop rest pf
      else if f.Typ.Kind = .Struct then
        extractHelperLoop rest
          ((pf.addChild f.Name).1.modifyAt (fun child => extractHelper f.Typ child) [f.Name])
      else extractHelperLoop rest (pf.addChild f.Name).1 := by
  obtain ⟨n, pk, ty⟩ := f
  simp [extractHelperLoop]

theorem wf_extractHelperLoop (fs : List (StructField GoType))
    (ih : ∀ f ∈ fs, ∀ pf : templateField, pf.wf = true → (extractHelper f.Typ pf).wf = true) :
    ∀ pf : templateField, pf.wf = true → (extractHelperLoop fs pf).wf = true := by
  induction fs with
  | nil => intro pf h; simpa [extractHelperLoop] using h
  | cons f rest ihl =>
    intro pf h
    have ihr := ihl (fun f hf => ih f (List.mem_cons_of_mem _ hf))
    rw [extractHelperLoop_cons]
    split
    · exact ihr pf h
    · split
      · exact ihr _ (wf_modifyAt _ (ih f (List.mem_cons_self _ _)) _ _ (wf_addChild _ _ h))
      · exact ihr _ (wf_addChild _ _ h)

theorem wf_extractHelper : ∀ (typ : GoType) (pf : templateField), pf.wf = true →
    (extractHelper typ pf).wf = true := by
  intro typ
  induction typ using GoType_induction with
  | hStruct fs ih =>
    intro pf h
    rw [extractHelper_struct]
    exact wf_extractHelperLoop fs ih pf h
  | hPtr e ih =>
    intro pf h
    cases e with
    | Struct fs => rw [extractHelper_ptr_struct]; exact ih pf h
    | _ => simpa [extractHelper] using h
  | _ => intro pf h; simpa [extractHelper] using h

theorem compare_nil_of_same_paths (T D : templateField) (hT : T.wf = true)
    (h : ∀ p, (T.nodeAt p).isSome = (D.nodeAt p).isSome) :
    compareTemplateFields T D = ([], []) := by
  have hm : missingPairs T D = [] := by
    refine List.eq_nil_iff_forall_not_mem.2 ?_
    rintro ⟨p, c⟩ hmem
    obtain ⟨t, d, ht, hd, hc, hnc⟩ := (mem_missingPairs T hT D _).1 hmem
    have h1 := h (p ++ [c])
    rw [nodeAt_below_absent D d p [] c hd hnc, nodeAt_append, ht] at h1
    simp only [Option.some_bind, nodeAt_cons, Option.isSome_none] at h1
    cases hl : t.Children.lookup c with
    | none => exact (lookup_none_iff _ _).1 hl hc
    | some tc => simp [hl, nodeAt_nil] at h1
  have he : extraPairs T D = [] := by
    refine List.eq_nil_iff_forall_not_mem.2 ?_
    rintro ⟨p, c⟩ hmem
    obtain ⟨t, d, ht, hd, hc, hnc⟩ := (mem_extraPairs T hT D _).1 hmem
    have h1 := h (p ++ [c])
    rw [nodeAt_below_absent T t p [] c ht hnc, nodeAt_append, hd] at h1
    simp only [Option.some_bind, nodeAt_cons, Option.isSome_none] at h1
    cases hl : d.Children.lookup c with
    | none => exact (lookup_none_iff _ _).1 hl hc
    | some tc => simp [hl, nodeAt_nil] at h1
  refine Prod.ext ?_ ?_
  · rw [compare_missing_eq, hm]; rfl
  · rw [compare_extra_eq T hT, he]; rfl

/-! ## Trees with the same paths -/

theorem nodeAt_leaf (n k : String) (q : List String) :
    (templateField.mk n []).nodeAt (k :: q) = none := by
  simp [nodeAt_cons, Children_mk]

theorem samePaths_sample : ∀ p, (samePathsTreeA.nodeAt p).isSome = (samePathsTreeB.nodeAt p).isSome := by
  intro p
  cases p with
  | nil => rfl
  | cons k q =>
    by_cases hA : k = "A"
    · subst hA
      cases q with
      | nil => rfl
      | cons k2 q2 =>
        by_cases hB : k2 = "B"
        · subst hB
          cases q2 with
          | nil => rfl
          | cons k3 q3 => rfl
        · have hB2 : (k2 == "B") = false := by simpa using hB
          simp [samePathsTreeA, samePathsTreeB, nodeAt_cons, Children_mk, List.lookup_cons, hB2]
    · by_cases hC : k = "C"
      · subst hC
        cases q with
        | nil => rfl
        | cons k2 q2 => rfl
      · have hA2 : (k == "A") = false := by simpa using hA
        have hC2 : (k == "C") = false := by simpa using hC
        simp [samePathsTreeA, samePathsTreeB, nodeAt_cons, Children_mk, List.lookup_cons, hA2, hC2]
/-- C3: two field trees with the same set of child-name paths compare to an
empty `missing` list and an empty `extra` list; in particular a tree compared
with itself does, and so does a tree built by either walker compared with the
tree built again from the same input. -/
theorem compareTemplateFields_same_paths (T D : templateField) (hT : T.wf = true)
    (h : ∀ p, (T.nodeAt p).isSome = (D.nodeAt p).isSome) :
    compareTemplateFields T D = ([], []) ∧
    compareTemplateFields T T = ([], []) ∧
    (∀ (root : TemplateSet) (fuel : Nat) (n : Node) (r r' : templateField),
      extractFieldsFromTemplate root fuel n (newTemplateField "Root") = some r →
      extractFieldsFromTemplate root fuel n (newTemplateField "Root") = some r' →
      compareTemplateFields r r' = ([], [])) ∧
    (∀ (v : Option GoType) (r r' : templateField),
      extractFieldsFromStruct v = .returned r → extractFieldsFromStruct v = .returned r' →
      compareTemplateFields r r' = ([], [])) := by
  refine ⟨compare_nil_of_same_paths T D hT h,
    compare_nil_of_same_paths T T hT (fun _ => rfl), ?_, ?_⟩
  · intro root fuel n r r' hr hr'
    rw [hr] at hr'
    cases hr'
    exact compare_nil_of_same_paths r r
      (wf_extract root fuel n _ r (wf_newTemplateField "Root") hr) (fun _ => rfl)
  · intro v r r' hr hr'
    rw [hr] at hr'
    cases hr'
    cases v with
    | none => simp [extractFieldsFromStruct] at hr
    | some typ =>
      simp only [extractFieldsFromStruct, Outcome.returned.injEq] at hr
      rw [← hr]
      exact compare_nil_of_same_paths _ _
        (wf_extractHelper typ _ (wf_newTemplateField "Root")) (fun _ => rfl)

theorem compareTemplateFields_same_paths_witness :
    samePathsTreeA.wf = true ∧
    (∀ p, (samePathsTreeA.nodeAt p).isSome = (samePathsTreeB.nodeAt p).isSome) ∧
    (compareTemplateFields samePathsTreeA samePathsTreeB = ([], []) ∧
    compareTemplateFields samePathsTreeA samePathsTreeA = ([], []) ∧
    (∀ (root : TemplateSet) (fuel : Nat) (n : Node) (r r' : templateField),
      extractFieldsFromTemplate root fuel n (newTemplateField "Root") = some r →
      extractFieldsFromTemplate root fuel n (newTemplateField "Root") = some r' →
      compareTemplateFields r r' = ([], [])) ∧
    (∀ (v : Option GoType) (r r' : templateField),
      extractFieldsFromStruct v = .returned r → extractFieldsFromStruct v = .returned r' →
      compareTemplateFields r r' = ([], []))) :=
  ⟨by decide, samePaths_sample,
    compareTemplateFields_same_paths samePathsTreeA samePathsTreeB (by decide) samePaths_sample⟩

/-! ## The top-level lookup and template inclusion -/

/-- C4: when the lookup of `templateName` in the template set gives nil, or a
template whose `Tree` is nil, `CompareViewModel` panics with the message
`template ... not found`, for every data value, and returns no lists. -/
theorem CompareViewModel_template_not_found (data : Option GoType) (tmpl : TemplateSet)
    (templateName : String) (fuel : Nat)
    (h : tmpl.Lookup templateName = none ∨ tmpl.Lookup templateName = some ⟨none⟩) :
    CompareViewModel data tmpl templateName fuel = .panicked (.templateNotFound templateName) ∧
    ∀ r, CompareViewModel data tmpl templateName fuel ≠ .returned r := by
  have h1 : CompareViewModel data tmpl templateName fuel =
      .panicked (.templateNotFound templateName) := by
    rcases h with h | h <;> simp [CompareViewModel, h]
  exact ⟨h1, fun r hr => by rw [h1] at hr; cases hr⟩

theorem CompareViewModel_template_not_found_witness :
    ((singleTemplate []).Lookup "other" = none ∨
      (singleTemplate []).Lookup "other" = some ⟨none⟩) ∧
    (CompareViewModel (some shapeXY) (singleTemplate []) "other" 5 =
      .panicked (.templateNotFound "other") ∧
    ∀ r, CompareViewModel (some shapeXY) (singleTemplate []) "other" 5 ≠ .returned r) :=
  ⟨Or.inl rfl, CompareViewModel_template_not_found (some shapeXY) (singleTemplate []) "other" 5
    (Or.inl rfl)⟩

/-- C6: for a resolvable template name, walking the inclusion node with the
bare dot as argument, and walking the one with no argument, each does what
walking the body of the included template at the same scope `s` does: the same
result one call deeper, hence the same returned trees. -/
theorem extractFieldsFromTemplate_include_dot (root : TemplateSet) (Name : String)
    (tree : Tree) (s : templateField) (h : root.Lookup Name = some ⟨some tree⟩) :
    (∀ fuel, extractFieldsFromTemplate root (fuel + 1) (.TemplateNode Name (some [[.DotNode]])) s =
        extractFieldsFromTemplate root fuel (.ListNode tree.Root) s) ∧
    (∀ fuel, extractFieldsFromTemplate root (fuel + 1) (.TemplateNode Name none) s =
        extractFieldsFromTemplate root fuel (.ListNode tree.Root) s) ∧
    (∀ r, Walks root (.TemplateNode Name (some [[.DotNode]])) s r ↔
        Walks root (.ListNode tree.Root) s r) ∧
    (∀ r, Walks root (.TemplateNode Name none) s r ↔ Walks root (.ListNode tree.Root) s r) := by
  have h1 : ∀ fuel, extractFieldsFromTemplate root (fuel + 1)
      (.TemplateNode Name (some [[.DotNode]])) s =
        extractFieldsFromTemplate root fuel (.ListNode tree.Root) s := by
    intro fuel
    simp only [extractFieldsFromTemplate, h, List.foldlM_cons, List.foldlM_nil]
    cases extractFieldsFromTemplate root fuel (.ListNode tree.Root) s <;> rfl
  have h2 : ∀ fuel, extractFieldsFromTemplate root (fuel + 1) (.TemplateNode Name none) s =
        extractFieldsFromTemplate root fuel (.ListNode tree.Root) s := by
    intro fuel
    simp only [extractFieldsFromTemplate, h]
  refine ⟨h1, h2, ?_, ?_⟩
  · intro r
    constructor
    · rintro ⟨fuel, hf⟩
      cases fuel with
      | zero => simp [extractFieldsFromTemplate] at hf
      | succ fuel => exact ⟨fuel, by rw [← h1]; exact hf⟩
    · rintro ⟨fuel, hf⟩
      exact ⟨fuel + 1, by rw [h1]; exact hf⟩
  · intro r
    constructor
    · rintro ⟨fuel, hf⟩
      cases fuel with
      | zero => simp [extractFieldsFromTemplate] at hf
      | succ fuel => exact ⟨fuel, by rw [← h2]; exact hf⟩
    · rintro ⟨fuel, hf⟩
      exact ⟨fuel + 1, by rw [h2]; exact hf⟩

theorem extractFieldsFromTemplate_include_dot_witness :
    (twoTemplates includeDotBody [fieldAction ["Field"]]).Lookup "sub" =
      some ⟨some ⟨[fieldAction ["Field"]]⟩⟩ ∧
    ((∀ fuel, extractFieldsFromTemplate (twoTemplates includeDotBody [fieldAction ["Field"]])
        (fuel + 1) (.TemplateNode "sub" (some [[.DotNode]])) (newTemplateField "Root") =
      extractFieldsFromTemplate (twoTemplates includeDotBody [fieldAction ["Field"]]) fuel
        (.ListNode [fieldAction ["Field"]]) (newTemplateField "Root")) ∧
    (∀ fuel, extractFieldsFromTemplate (twoTemplates includeDotBody [fieldAction ["Field"]])
        (fuel + 1) (.TemplateNode "sub" none) (newTemplateField "Root") =
      extractFieldsFromTemplate (twoTemplates includeDotBody [fieldAction ["Field"]]) fuel
        (.ListNode [fieldAction ["Field"]]) (newTemplateField "Root")) ∧
    (∀ r, Walks (twoTemplates includeDotBody [fieldAction ["Field"]])
        (.TemplateNode "sub" (some [[.DotNode]])) (newTemplateField "Root") r ↔
      Walks (twoTemplates includeDotBody [fieldAction ["Field"]])
        (.ListNode [fieldAction ["Field"]]) (newTemplateField "Root") r) ∧
    (∀ r, Walks (twoTemplates includeDotBody [fieldAction ["Field"]])
        (.TemplateNode "sub" none) (newTemplateField "Root") r ↔
      Walks (twoTemplates includeDotBody [fieldAction ["Field"]])
        (.ListNode [fieldAction ["Field"]]) (newTemplateField "Root") r)) :=
  ⟨rfl, extractFieldsFromTemplate_include_dot
    (twoTemplates includeDotBody [fieldAction ["Field"]]) "sub" ⟨[fieldAction ["Field"]]⟩
    (newTemplateField "Root") rfl⟩

/-- With `main` the body `template "sub" .` and `sub` the body `.Field`, the
walk of `main` from the root registers `Field` at the root. -/
theorem include_dot_sample (fuel : Nat) :
    extractFieldsFromTemplate (twoTemplates includeDotBody [fieldAction ["Field"]]) (fuel + 4)
      (.ListNode includeDotBody) (newTemplateField "Root") =
      some (.mk "Root" [("Field", .mk "Field" [])]) := by
  rfl

/-! ## Registering field paths -/

theorem lookup_setChild_self (cs : List (String × templateField)) (k : String)
    (c c' : templateField) (h : cs.lookup k = some c) : (setChild cs k c').lookup k = some c' := by
  induction cs with
  | nil => simp at h
  | cons kv rest ih =>
    obtain ⟨a, b⟩ := kv
    simp only [setChild]
    by_cases hk : a = k
    · subst hk; simp
    · have h1 : (a == k) = false := by simpa using hk
      have h2 : (k == a) = false := by simpa using fun e : k = a => hk e.symm
      simp only [h1, Bool.false_eq_true, if_false, List.lookup_cons, h2] at h ⊢
      exact ih h

theorem lookup_setChild_ne (cs : List (String × templateField)) (k k' : String)
    (c' : templateField) (h : k' ≠ k) : (setChild cs k c').lookup k' = cs.lookup k' := by
  induction cs with
  | nil => rfl
  | cons kv rest ih =>
    obtain ⟨a, b⟩ := kv
    simp only [setChild]
    by_cases hk : a = k
    · subst hk
      have h2 : (k' == a) = false := by simpa using h
      simp [List.lookup_cons, h2]
    · have h1 : (a == k) = false := by simpa using hk
      simp only [h1, Bool.false_eq_true, if_false, List.lookup_cons, ih]

theorem setChild_setChild (cs : List (String × templateField)) (k : String)
    (a b : templateField) : setChild (setChild cs k a) k b = setChild cs k b := by
  induction cs with
  | nil => rfl
  | cons kv rest ih =>
    obtain ⟨x, y⟩ := kv
    by_cases hk : x = k
    · subst hk; simp [setChild]
    · have h1 : (x == k) = false := by simpa using hk
      simp [setChild, h1, ih]

theorem modifyAt_modifyAt_append (f g : templateField → templateField) (cur q : List String) :
    ∀ t : templateField, (t.modifyAt f cur).modifyAt g (cur ++ q) =
      t.modifyAt (fun c => (f c).modifyAt g q) cur := by
  induction cur with
  | nil => intro t; simp [modifyAt_nil]
  | cons k ks ih =>
    intro t
    simp only [List.cons_append]
    rw [modifyAt_cons f, modifyAt_cons]
    cases h : t.Children.lookup k with
    | none => simp only []; rw [modifyAt_cons, h]
    | some c =>
      simp only []
      rw [modifyAt_cons, Children_mk, Name_mk, lookup_setChild_self _ _ _ _ h]
      simp only [setChild_setChild, ih]
      rw [h]

theorem setChild_self (cs : List (String × templateField)) (k : String) (c : templateField)
    (h : cs.lookup k = some c) : setChild cs k c = cs := by
  induction cs with
  | nil => rfl
  | cons kv rest ih =>
    obtain ⟨a, b⟩ := kv
    simp only [setChild]
    by_cases hk : a = k
    · subst hk
      simp only [List.lookup_cons_self, Option.some.injEq] at h
      simp [h]
    · have h1 : (a == k) = false := by simpa using hk
      have h2 : (k == a) = false := by simpa using fun e : k = a => hk e.symm
      simp only [List.lookup_cons, h2] at h
      simp [h1, ih h]

theorem modifyAt_id (path : List String) : ∀ t : templateField,
    t.modifyAt (fun c => c) path = t := by
  induction path with
  | nil => intro t; rw [modifyAt_nil]
  | cons k ks ih =>
    intro t
    rw [modifyAt_cons]
    cases h : t.Children.lookup k with
    | none => rfl
    | some c =>
      simp only [ih]
      rw [setChild_self _ _ _ h]
      cases t; rfl

theorem registerPath_nil (t : templateField) : registerPath t [] = t := by
  simp [registerPath]

theorem registerPath_cons (t : templateField) (part : String) (rest : List String) :
    registerPath t (part :: rest) =
      (t.addChild part).1.modifyAt (fun c => registerPath c rest) [part] := by
  simp [registerPath]

theorem descend_aux (parts : List String) : ∀ (t : templateField) (cur : List String),
    parts.foldl
      (fun st part => (st.1.modifyAt (fun c => (c.addChild part).1) st.2, st.2 ++ [part]))
      (t, cur) = (t.modifyAt (fun c => registerPath c parts) cur, cur ++ parts) := by
  induction parts with
  | nil =>
    intro t cur
    simp only [List.foldl_nil, List.append_nil, registerPath_nil]
    rw [modifyAt_id]
  | cons part rest ih =>
    intro t cur
    simp only [List.foldl_cons]
    rw [ih, modifyAt_modifyAt_append]
    simp [registerPath_cons]

theorem descend_eq (s : templateField) (Ident : List String) :
    descend s Ident = (registerPath s Ident, Ident) := by
  simp only [descend]
  rw [descend_aux, modifyAt_nil]
  simp

theorem addChild_snd (t : templateField) (a : String) :
    (t.addChild a).2 =
      match t.Children.lookup a with
      | some c => c
      | none => newTemplateField a := by
  simp only [templateField.addChild]
  cases t.Children.lookup a <;> rfl

theorem addChild_lookup (t : templateField) (a : String) :
    (t.addChild a).1.Children.lookup a = some (t.addChild a).2 := by
  simp only [templateField.addChild]
  cases h : t.Children.lookup a with
  | some c => exact h
  | none =>
    simp only [Children_mk, List.lookup_append, h]
    simp

theorem addChild_lookup_ne (t : templateField) (a k : String) (hk : k ≠ a) :
    (t.addChild a).1.Children.lookup k = t.Children.lookup k := by
  simp only [templateField.addChild]
  cases h : t.Children.lookup a with
  | some c => rfl
  | none =>
    have h2 : (k == a) = false := by simpa using hk
    simp only [Children_mk, List.lookup_append, List.lookup_cons, h2, List.lookup_nil]
    cases t.Children.lookup k <;> rfl

theorem addChild_name (t : templateField) (a : String) : (t.addChild a).1.Name = t.Name := by
  simp only [templateField.addChild]
  cases t.Children.lookup a <;> rfl

theorem modifyAt_name (f : templateField → templateField) (t : templateField) (k : String)
    (ks : List String) : (t.modifyAt f (k :: ks)).Name = t.Name := by
  rw [modifyAt_cons]
  cases t.Children.lookup k <;> rfl

theorem registerPath_name (Ident : List String) (t : templateField) :
    (registerPath t Ident).Name = t.Name := by
  cases Ident with
  | nil => rw [registerPath_nil]
  | cons a rest => rw [registerPath_cons, modifyAt_name, addChild_name]

theorem nodeAt_registerPath_self (t : templateField) (a : String) (rest q : List String) :
    (registerPath t (a :: rest)).nodeAt (a :: q) =
      (registerPath (t.addChild a).2 rest).nodeAt q := by
  rw [registerPath_cons, modifyAt_cons, addChild_lookup]
  simp only [nodeAt_cons, Children_mk, modifyAt_nil]
  rw [lookup_setChild_self _ _ _ _ (addChild_lookup t a)]
  rfl

theorem nodeAt_registerPath_ne (t : templateField) (a k : String) (rest q : List String)
    (hk : k ≠ a) : (registerPath t (a :: rest)).nodeAt (k :: q) = t.nodeAt (k :: q) := by
  rw [registerPath_cons, modifyAt_cons, addChild_lookup]
  simp only [nodeAt_cons, Children_mk]
  rw [lookup_setChild_ne _ _ _ _ hk, addChild_lookup_ne t a k hk]

theorem nodeAt_new (a k : String) (q : List String) :
    (newTemplateField a).nodeAt (k :: q) = none := by
  simp [newTemplateField, nodeAt_cons, Children_mk]

theorem registerPath_isSome (Ident : List String) : ∀ (t : templateField) (p : List String),
    ((registerPath t Ident).nodeAt p).isSome = true ↔
      (t.nodeAt p).isSome = true ∨ p <+: Ident := by
  induction Ident with
  | nil =>
    intro t p
    rw [registerPath_nil]
    constructor
    · exact Or.inl
    · rintro (h | h)
      · exact h
      · simp only [List.prefix_nil] at h
        subst h
        simp [nodeAt_nil]
  | cons a rest ih =>
    intro t p
    cases p with
    | nil => simp [nodeAt_nil]
    | cons k q =>
      by_cases hk : k = a
      · subst hk
        rw [nodeAt_registerPath_self, ih, addChild_snd, nodeAt_cons]
        simp only [List.cons_prefix_cons, true_and]
        cases h : t.Children.lookup k with
        | some c => simp
        | none =>
          simp only [Option.none_bind, Option.isSome_none, Bool.false_eq_true, false_or,
            or_iff_right_iff_imp]
          cases q with
          | nil => simp
          | cons k2 q2 => simp [nodeAt_new]
      · rw [nodeAt_registerPath_ne _ _ _ _ _ hk]
        simp [List.cons_prefix_cons, hk]

theorem registerPath_old (Ident : List String) : ∀ (t : templateField) (p : List String)
    (x : templateField), t.nodeAt p = some x →
      ∃ y, (registerPath t Ident).nodeAt p = some y ∧ y.Name = x.Name := by
  induction Ident with
  | nil => intro t p x h; exact ⟨x, by rw [registerPath_nil]; exact h, rfl⟩
  | cons a rest ih =>
    intro t p x h
    cases p with
    | nil =>
      rw [nodeAt_nil] at h
      cases h
      exact ⟨_, nodeAt_nil _, registerPath_name _ _⟩
    | cons k q =>
      by_cases hk : k = a
      · subst hk
        rw [nodeAt_registerPath_self, addChild_snd]
        rw [nodeAt_cons] at h
        cases hl : t.Children.lookup k with
        | none => simp [hl] at h
        | some c =>
          simp only [hl, Option.some_bind] at h
          exact ih c q x h
      · exact ⟨x, by rw [nodeAt_registerPath_ne _ _ _ _ _ hk]; exact h, rfl⟩

theorem registerPath_names (Ident : List String) : ∀ (t : templateField) (p : List String)
    (k : String) (n : templateField), (registerPath t Ident).nodeAt (p ++ [k]) = some n →
      n.Name = k ∨ ∃ x, t.nodeAt (p ++ [k]) = some x ∧ x.Name = n.Name := by
  induction Ident with
  | nil => intro t p k n h; exact Or.inr ⟨n, by rw [registerPath_nil] at h; exact h, rfl⟩
  | cons a rest ih =>
    intro t p k n h
    cases p with
    | nil =>
      simp only [List.nil_append] at h ⊢
      by_cases hk : k = a
      · subst hk
        rw [nodeAt_registerPath_self, nodeAt_nil, addChild_snd] at h
        cases h
        rw [registerPath_name, nodeAt_cons]
        cases hl : t.Children.lookup k with
        | none => exact Or.inl rfl
        | some c => exact Or.inr ⟨c, by simp [nodeAt_nil], rfl⟩
      · rw [nodeAt_registerPath_ne _ _ _ _ _ hk] at h
        exact Or.inr ⟨n, h, rfl⟩
    | cons k1 p1 =>
      simp only [List.cons_append] at h ⊢
      by_cases hk : k1 = a
      · subst hk
        rw [nodeAt_registerPath_self, addChild_snd] at h
        rw [nodeAt_cons]
        cases hl : t.Children.lookup k1 with
        | none =>
          rw [hl] at h
          rcases ih _ p1 k n h with h1 | ⟨x, hx, _⟩
          · exact Or.inl h1
          · cases p1 <;> simp [nodeAt_new] at hx
        | some c =>
          rw [hl] at h
          rcases ih _ p1 k n h with h1 | ⟨x, hx, hn⟩
          · exact Or.inl h1
          · exact Or.inr ⟨x, by simpa using hx, hn⟩
      · rw [nodeAt_registerPath_ne _ _ _ _ _ hk] at h
        exact Or.inr ⟨n, h, rfl⟩

theorem registerArgs_eq (cmd : List Node) : ∀ pf : templateField,
    cmd.foldl (fun pf arg =>
        match arg with
        | .FieldNode Ident => (descend pf Ident).1
        | _ => pf) pf =
      (cmd.filterMap (fun arg =>
        match arg with
        | .FieldNode Ident => some Ident
        | _ => none)).foldl registerPath pf := by
  induction cmd with
  | nil => intro pf; rfl
  | cons arg rest ih =>
    intro pf
    simp only [List.foldl_cons, ih]
    cases arg <;> simp [List.filterMap_cons, descend_eq]

theorem registerCmds_eq (Cmds : List (List Node)) : ∀ pf : templateField,
    Cmds.foldl (fun pf cmd => cmd.foldl (fun pf arg =>
        match arg with
        | .FieldNode Ident => (descend pf Ident).1
        | _ => pf) pf) pf =
      (fieldArgs Cmds).foldl registerPath pf := by
  induction Cmds with
  | nil => intro pf; rfl
  | cons cmd rest ih =>
    intro pf
    simp only [List.foldl_cons]
    rw [ih, registerArgs_eq]
    simp only [fieldArgs, List.map_cons, List.flatten_cons, List.foldl_append]

theorem mem_fieldArgs (Cmds : List (List Node)) (Ident : List String) :
    Ident ∈ fieldArgs Cmds ↔ ∃ cmd ∈ Cmds, Node.FieldNode Ident ∈ cmd := by
  constructor
  · intro h
    simp only [fieldArgs, List.mem_flatten, List.mem_map] at h
    obtain ⟨l, ⟨cmd, hcmd, rfl⟩, hl⟩ := h
    rw [List.mem_filterMap] at hl
    obtain ⟨arg, harg, h⟩ := hl
    cases arg <;> simp at h
    subst h
    exact ⟨cmd, hcmd, harg⟩
  · rintro ⟨cmd, hcmd, harg⟩
    simp only [fieldArgs, List.mem_flatten, List.mem_map]
    refine ⟨_, ⟨cmd, hcmd, rfl⟩, ?_⟩
    rw [List.mem_filterMap]
    exact ⟨_, harg, rfl⟩

theorem registerAll_isSome (idents : List (List String)) : ∀ (t : templateField)
    (p : List String), ((idents.foldl registerPath t).nodeAt p).isSome = true ↔
      (t.nodeAt p).isSome = true ∨ ∃ Ident ∈ idents, p <+: Ident := by
  induction idents with
  | nil => intro t p; simp
  | cons a rest ih =>
    intro t p
    simp only [List.foldl_cons, ih, registerPath_isSome, List.mem_cons, exists_eq_or_imp, or_assoc]

theorem registerAll_old (idents : List (List String)) : ∀ (t : templateField)
    (p : List String) (x : templateField), t.nodeAt p = some x →
      ∃ y, (idents.foldl registerPath t).nodeAt p = some y ∧ y.Name = x.Name := by
  induction idents with
  | nil => intro t p x h; exact ⟨x, h, rfl⟩
  | cons a rest ih =>
    intro t p x h
    obtain ⟨y, hy, hn⟩ := registerPath_old a t p x h
    obtain ⟨z, hz, hn2⟩ := ih _ p y hy
    exact ⟨z, hz, hn2.trans hn⟩

theorem registerAll_names (idents : List (List String)) : ∀ (t : templateField)
    (p : List String) (k : String) (n : templateField),
    (idents.foldl registerPath t).nodeAt (p ++ [k]) = some n →
      n.Name = k ∨ ∃ x, t.nodeAt (p ++ [k]) = some x ∧ x.Name = n.Name := by
  induction idents with
  | nil => intro t p k n h; exact Or.inr ⟨n, h, rfl⟩
  | cons a rest ih =>
    intro t p k n h
    rcases ih _ p k n h with h1 | ⟨x, hx, hn⟩
    · exact Or.inl h1
    · rcases registerPath_names a t p k x hx with h2 | ⟨y, hy, hn2⟩
      · exact Or.inl (hn ▸ h2)
      · exact Or.inr ⟨y, hy, hn2.trans hn⟩

theorem modifyAtM_eq (f : templateField → Option templateField) (path : List String) :
    ∀ t node : templateField, t.nodeAt path = some node →
      t.modifyAtM f path = (f node).map (fun b => t.modifyAt (fun _ => b) path) := by
  induction path with
  | nil =>
    intro t node h
    rw [nodeAt_nil] at h
    cases h
    rw [modifyAtM_nil]
    cases f t <;> simp [modifyAt_nil]
  | cons k ks ih =>
    intro t node h
    rw [nodeAt_cons] at h
    rw [modifyAtM_cons]
    cases hl : t.Children.lookup k with
    | none => simp [hl] at h
    | some c =>
      simp only [hl, Option.some_bind] at h
      simp only [ih c node h, modifyAt_cons, hl]
      cases f node <;> rfl

theorem nodeAt_modifyAt_self (b : templateField) (path : List String) :
    ∀ t node : templateField, t.nodeAt path = some node →
      (t.modifyAt (fun _ => b) path).nodeAt path = some b := by
  induction path with
  | nil => intro t node _; rw [modifyAt_nil, nodeAt_nil]
  | cons k ks ih =>
    intro t node h
    rw [nodeAt_cons] at h
    rw [modifyAt_cons]
    cases hl : t.Children.lookup k with
    | none => simp [hl] at h
    | some c =>
      simp only [hl, Option.some_bind] at h
      simp only [nodeAt_cons, Children_mk]
      rw [lookup_setChild_self _ _ _ _ hl]
      exact ih c node h

theorem keys_modifyAt_cons (f : templateField → templateField) (t : templateField)
    (k : String) (ks : List String) : (t.modifyAt f (k :: ks)).keys = t.keys := by
  rw [modifyAt_cons]
  cases t.Children.lookup k with
  | none => rfl
  | some c => simp [templateField.keys, Children_mk, keys_setChild]

theorem registerPath_resolves (t : templateField) (Ident : List String) :
    ∃ node, (registerPath t Ident).nodeAt Ident = some node := by
  have h := (registerPath_isSome Ident t Ident).2 (Or.inr (List.prefix_refl _))
  exact Option.isSome_iff_exists.1 h

theorem extract_pipe_eq (root : TemplateSet) (fuel : Nat) (Cmds : List (List Node))
    (s : templateField) :
    extractFieldsFromTemplate root (fuel + 1) (.PipeNode Cmds) s =
      some ((fieldArgs Cmds).foldl registerPath s) := by
  simp only [extractFieldsFromTemplate]
  exact congrArg some (registerCmds_eq Cmds s)

theorem extract_action_eq (root : TemplateSet) (fuel : Nat) (Pipe : List (List Node))
    (s : templateField) :
    extractFieldsFromTemplate root (fuel + 1) (.ActionNode Pipe) s =
      some ((fieldArgs Pipe).foldl registerPath s) := by
  simp only [extractFieldsFromTemplate]
  exact congrArg some (registerCmds_eq Pipe s)

theorem extract_include_field_eq (root : TemplateSet) (Name : String) (tree : Tree)
    (Ident : List String) (s : templateField) (fuel : Nat)
    (h : root.Lookup Name = some ⟨some tree⟩) :
    extractFieldsFromTemplate root (fuel + 1)
        (.TemplateNode Name (some [[.FieldNode Ident]])) s =
      (registerPath s Ident).modifyAtM
        (extractFieldsFromTemplate root fuel (.ListNode tree.Root)) Ident := by
  simp only [extractFieldsFromTemplate, h, List.foldlM_cons, List.foldlM_nil, descend_eq]
  cases (registerPath s Ident).modifyAtM
    (extractFieldsFromTemplate root fuel (.ListNode tree.Root)) Ident <;> rfl

/-- C5: for a resolvable template name and the single field-access argument
`.F1...Fn`, walking the inclusion node at scope `s` gives the tree obtained by
adding the path `F1 -> ... -> Fn` to `s` (what walking the argument as a pipe
does) and then walking the body of the included template at the node reached
at `Fn`: the walk returns exactly when the walk of the body at that node
returns, the returned tree is the tree with the path added and that node
replaced by the result, and the children of `s` are those it had plus `F1`.
With `main` the body `template "sub" .Inner` and `sub` the body `.Field`, the
tree is `Root -> Inner -> Field`. -/
theorem extractFieldsFromTemplate_include_field (root : TemplateSet) (Name : String)
    (tree : Tree) (Ident : List String) (s : templateField) (fuel : Nat)
    (h : root.Lookup Name = some ⟨some tree⟩) :
    (∀ fuel', extractFieldsFromTemplate (twoTemplates includeInnerBody [fieldAction ["Field"]])
        (fuel' + 4) (.ListNode includeInnerBody) (newTemplateField "Root") =
      some (.mk "Root" [("Inner", .mk "Inner" [("Field", .mk "Field" [])])])) ∧
    extractFieldsFromTemplate root (fuel + 1)
        (.TemplateNode Name (some [[.FieldNode Ident]])) s =
      (registerPath s Ident).modifyAtM
        (extractFieldsFromTemplate root fuel (.ListNode tree.Root)) Ident ∧
    extractFieldsFromTemplate root (fuel + 1) (.PipeNode [[.FieldNode Ident]]) s =
      some (registerPath s Ident) ∧
    (∃ node, (registerPath s Ident).nodeAt Ident = some node ∧
      ∀ r, extractFieldsFromTemplate root (fuel + 1)
          (.TemplateNode Name (some [[.FieldNode Ident]])) s = some r ↔
        ∃ b, extractFieldsFromTemplate root fuel (.ListNode tree.Root) node = some b ∧
          r = (registerPath s Ident).modifyAt (fun _ => b) Ident ∧
          r.nodeAt Ident = some b) ∧
    (∀ r F1 rest, Ident = F1 :: rest →
      extractFieldsFromTemplate root (fuel + 1)
          (.TemplateNode Name (some [[.FieldNode Ident]])) s = some r →
        r.keys = (s.addChild F1).1.keys) := by
  obtain ⟨node, hnode⟩ := registerPath_resolves s Ident
  have hiff : ∀ r, extractFieldsFromTemplate root (fuel + 1)
          (.TemplateNode Name (some [[.FieldNode Ident]])) s = some r ↔
        ∃ b, extractFieldsFromTemplate root fuel (.ListNode tree.Root) node = some b ∧
          r = (registerPath s Ident).modifyAt (fun _ => b) Ident ∧
          r.nodeAt Ident = some b := by
    intro r
    rw [extract_include_field_eq root Name tree Ident s fuel h, modifyAtM_eq _ _ _ node hnode]
    constructor
    · intro hr
      cases hb : extractFieldsFromTemplate root fuel (.ListNode tree.Root) node with
      | none => simp [hb] at hr
      | some b =>
        simp only [hb, Option.map_some', Option.some.injEq] at hr
        exact ⟨b, rfl, hr.symm, by rw [← hr]; exact nodeAt_modifyAt_self b Ident _ node hnode⟩
    · rintro ⟨b, hb, hr, _⟩
      simp [hb, hr]
  refine ⟨fun _ => rfl, extract_include_field_eq root Name tree Ident s fuel h, ?_,
    ⟨node, hnode, hiff⟩, ?_⟩
  · rw [extract_pipe_eq]
    simp [fieldArgs]
  · intro r F1 rest hI hr
    obtain ⟨b, _, hr2, _⟩ := (hiff r).1 hr
    rw [hr2, hI, keys_modifyAt_cons, registerPath_cons, keys_modifyAt_cons]

theorem extractFieldsFromTemplate_include_field_witness :
    (twoTemplates includeInnerBody [fieldAction ["Field"]]).Lookup "sub" =
      some ⟨some ⟨[fieldAction ["Field"]]⟩⟩ ∧
    extractFieldsFromTemplate (twoTemplates includeInnerBody [fieldAction ["Field"]]) 3
        (.TemplateNode "sub" (some [[.FieldNode ["Inner"]]])) (newTemplateField "Root") =
      (registerPath (newTemplateField "Root") ["Inner"]).modifyAtM
        (extractFieldsFromTemplate (twoTemplates includeInnerBody [fieldAction ["Field"]]) 2
          (.ListNode [fieldAction ["Field"]])) ["Inner"] :=
  ⟨rfl, (extractFieldsFromTemplate_include_field
    (twoTemplates includeInnerBody [fieldAction ["Field"]]) "sub" ⟨[fieldAction ["Field"]]⟩
    ["Inner"] (newTemplateField "Root") 2 rfl).2.1⟩

/-- C10: walking a pipe node at scope `s` returns a tree that contains, for
every field-access argument, the whole chain of its identifiers below `s`;
every node of `s` is still there under its name; every node of the result is a
node of `s` or lies on such a chain; a node of the result is an old node or is
named by its key (so each chain node `si` has `Name` `si` when the nodes of `s`
are named by their keys); and walking the action node of the same pipe returns
the same tree. -/
theorem extractFieldsFromTemplate_pipe (root : TemplateSet) (fuel : Nat)
    (Cmds : List (List Node)) (s : templateField) :
    ∃ r, extractFieldsFromTemplate root (fuel + 1) (.PipeNode Cmds) s = some r ∧
      extractFieldsFromTemplate root (fuel + 1) (.ActionNode Cmds) s = some r ∧
      (∀ cmd ∈ Cmds, ∀ Ident, Node.FieldNode Ident ∈ cmd → ∀ p, p <+: Ident →
        (r.nodeAt p).isSome = true) ∧
      (∀ p x, s.nodeAt p = some x → ∃ y, r.nodeAt p = some y ∧ y.Name = x.Name) ∧
      (∀ p, (r.nodeAt p).isSome = true → (s.nodeAt p).isSome = true ∨
        ∃ cmd ∈ Cmds, ∃ Ident, Node.FieldNode Ident ∈ cmd ∧ p <+: Ident) ∧
      (∀ p k n, r.nodeAt (p ++ [k]) = some n →
        n.Name = k ∨ ∃ x, s.nodeAt (p ++ [k]) = some x ∧ x.Name = n.Name) ∧
      ((∀ p k x, s.nodeAt (p ++ [k]) = some x → x.Name = k) →
        ∀ p k n, r.nodeAt (p ++ [k]) = some n → n.Name = k) := by
  refine ⟨(fieldArgs Cmds).foldl registerPath s, extract_pipe_eq root fuel Cmds s,
    extract_action_eq root fuel Cmds s, ?_, registerAll_old _ s, ?_, registerAll_names _ s, ?_⟩
  · intro cmd hcmd Ident harg p hp
    exact (registerAll_isSome _ s p).2
      (Or.inr ⟨Ident, (mem_fieldArgs Cmds Ident).2 ⟨cmd, hcmd, harg⟩, hp⟩)
  · intro p hp
    rcases (registerAll_isSome _ s p).1 hp with h1 | ⟨Ident, hI, hpre⟩
    · exact Or.inl h1
    · obtain ⟨cmd, hcmd, harg⟩ := (mem_fieldArgs Cmds Ident).1 hI
      exact Or.inr ⟨cmd, hcmd, Ident, harg, hpre⟩
  · intro hs p k n hn
    rcases registerAll_names _ s p k n hn with h1 | ⟨x, hx, hxn⟩
    · exact h1
    · rw [← hxn]; exact hs p k x hx

/-! ## Unexported fields -/

theorem mem_keys_addChild (t : templateField) (a k : String) :
    k ∈ (t.addChild a).1.keys ↔ k ∈ t.keys ∨ k = a := by
  simp only [templateField.addChild, templateField.keys]
  cases h : t.Children.lookup a with
  | some c =>
    simp only []
    constructor
    · exact Or.inl
    · rintro (h1 | rfl)
      · exact h1
      · have := mem_of_lookup _ _ _ h
        exact List.mem_map.2 ⟨_, this, rfl⟩
  | none => simp [Children_mk]

theorem mem_keys_extractHelperLoop (fs : List (StructField GoType)) :
    ∀ (pf : templateField) (k : String), k ∈ (extractHelperLoop fs pf).keys ↔
      k ∈ pf.keys ∨ ∃ f ∈ fs, f.PkgPath = "" ∧ f.Name = k := by
  induction fs with
  | nil => intro pf k; simp [extractHelperLoop]
  | cons f rest ih =>
    intro pf k
    rw [extractHelperLoop_cons]
    by_cases hp : f.PkgPath = ""
    · simp only [hp, bne_self_eq_false, Bool.false_eq_true, if_false]
      split
      · rw [ih, keys_modifyAt_cons, mem_keys_addChild]
        simp only [List.mem_cons, exists_eq_or_imp, hp, true_and]
        constructor
        · rintro ((h | h) | h)
          · exact Or.inl h
          · exact Or.inr (Or.inl h.symm)
          · exact Or.inr (Or.inr h)
        · rintro (h | h | h)
          · exact Or.inl (Or.inl h)
          · exact Or.inl (Or.inr h.symm)
          · exact Or.inr h
      · rw [ih, mem_keys_addChild]
        simp only [List.mem_cons, exists_eq_or_imp, hp, true_and]
        constructor
        · rintro ((h | h) | h)
          · exact Or.inl h
          · exact Or.inr (Or.inl h.symm)
          · exact Or.inr (Or.inr h)
        · rintro (h | h | h)
          · exact Or.inl (Or.inl h)
          · exact Or.inl (Or.inr h.symm)
          · exact Or.inr h
    · have hp2 : (f.PkgPath != "") = true := by simpa using hp
      simp only [hp2, if_true, ih, List.mem_cons, exists_eq_or_imp, hp, false_and, false_or]

theorem eraseUnexported_kind (typ : GoType) : (eraseUnexported typ).Kind = typ.Kind := by
  cases typ <;> simp [eraseUnexported, GoType.Kind]

theorem extractHelperLoop_erase (fs : List (StructField GoType))
    (ih : ∀ f ∈ fs, ∀ pf : templateField,
      extractHelper (eraseUnexported f.Typ) pf = extractHelper f.Typ pf) :
    ∀ pf : templateField,
      extractHelperLoop (eraseUnexportedFields fs) pf = extractHelperLoop fs pf := by
  induction fs with
  | nil => intro pf; simp [eraseUnexportedFields]
  | cons f rest ihl =>
    intro pf
    have ihr := ihl (fun f hf => ih f (List.mem_cons_of_mem _ hf))
    have ihf := ih f (List.mem_cons_self _ _)
    obtain ⟨n, pk, ty⟩ := f
    rw [extractHelperLoop_cons]
    simp only [eraseUnexportedFields]
    by_cases hp : pk = ""
    · subst hp
      simp only [bne_self_eq_false, Bool.false_eq_true, if_false]
      rw [extractHelperLoop_cons]
      simp only [bne_self_eq_false, Bool.false_eq_true, if_false, eraseUnexported_kind, ihr]
      simp only at ihf
      simp only [ihf]
    · have hp2 : (pk != "") = true := by simpa using hp
      simp only [hp2, if_true, ihr]

theorem extractHelper_erase : ∀ (typ : GoType) (pf : templateField),
    extractHelper (eraseUnexported typ) pf = extractHelper typ pf := by
  intro typ
  induction typ using GoType_induction with
  | hStruct fs ih =>
    intro pf
    simp only [eraseUnexported, extractHelper_struct]
    exact extractHelperLoop_erase fs ih pf
  | hPtr e ih =>
    intro pf
    cases e with
    | Struct fs =>
      have := ih pf
      simp only [eraseUnexported, extractHelper_struct] at this
      simp only [eraseUnexported, extractHelper_ptr_struct, extractHelper_struct]
      exact this
    | _ => simp [eraseUnexported, extractHelper]
  | _ => intro pf; simp [eraseUnexported, extractHelper]

/-- C7: the tree built by `extractFieldsFromStruct` for a struct shape, or
for a pointer to it, has a child exactly for the names of the exported fields
(`PkgPath` empty): every exported field has a child node, and an unexported
field has none (when no exported field has its name), so every extra field
at the root is an exported field; removing the unexported
fields from a data shape, at every depth, changes neither the tree nor the
outcome of `CompareViewModel`; and for the shape with the exported `X` and the
unexported `secret`, `extra` holds no entry for `secret`, whether the template
uses `.X` or nothing. -/
theorem extractFieldsFromStruct_unexported (fs : List (StructField GoType)) :
    extractFieldsFromStruct (some (.Ptr (.Struct fs))) =
      extractFieldsFromStruct (some (.Struct fs)) ∧
    (∃ r, extractFieldsFromStruct (some (.Struct fs)) = .returned r ∧
      (∀ k, k ∈ r.keys ↔ ∃ f ∈ fs, f.PkgPath = "" ∧ f.Name = k) ∧
      (∀ f ∈ fs, f.PkgPath = "" → (r.child f.Name).isSome = true) ∧
      (∀ f ∈ fs, f.PkgPath ≠ "" → (∀ g ∈ fs, g.PkgPath = "" → g.Name ≠ f.Name) →
        r.child f.Name = none) ∧
      (∀ T c, IsExtra T r ([], c) → ∃ f ∈ fs, f.PkgPath = "" ∧ f.Name = c)) ∧
    (∀ typ, extractFieldsFromStruct (some (eraseUnexported typ)) =
      extractFieldsFromStruct (some typ)) ∧
    (∀ typ tmpl templateName fuel,
      CompareViewModel (some (eraseUnexported typ)) tmpl templateName fuel =
        CompareViewModel (some typ) tmpl templateName fuel) ∧
    (∀ fuel, CompareViewModel (some shapeHidden) (singleTemplate [fieldAction ["X"]]) "main"
      (fuel + 2) = .returned ([], [])) ∧
    (∀ fuel, CompareViewModel (some shapeHidden) (singleTemplate []) "main"
      (fuel + 1) = .returned ([], ["Root->X"])) := by
  have hkeys : ∀ k, k ∈ (extractHelper (.Struct fs) (newTemplateField "Root")).keys ↔
      ∃ f ∈ fs, f.PkgPath = "" ∧ f.Name = k := by
    intro k
    rw [extractHelper_struct, mem_keys_extractHelperLoop]
    simp [newTemplateField, templateField.keys, Children_mk]
  have herase : ∀ typ, extractFieldsFromStruct (some (eraseUnexported typ)) =
      extractFieldsFromStruct (some typ) := by
    intro typ
    simp only [extractFieldsFromStruct, extractHelper_erase]
  refine ⟨?_, ⟨_, rfl, hkeys, ?_, ?_, ?_⟩, herase, ?_, fun _ => rfl, fun _ => rfl⟩
  · simp only [extractFieldsFromStruct, extractHelper_ptr_struct]
  · intro f hf hp
    have h1 := (hkeys f.Name).2 ⟨f, hf, hp, rfl⟩
    cases hl : (extractHelper (.Struct fs) (newTemplateField "Root")).child f.Name with
    | some c => rfl
    | none => exact absurd h1 ((lookup_none_iff _ _).1 hl)
  · intro f hf _ huniq
    refine (lookup_none_iff _ _).2 ?_
    intro hmem
    obtain ⟨g, hg, hgp, hgn⟩ := (hkeys f.Name).1 hmem
    exact huniq g hg hgp hgn
  · rintro T c ⟨t, d, _, hd, hc, _⟩
    rw [nodeAt_nil] at hd
    cases hd
    exact (hkeys c).1 hc
  · intro typ tmpl templateName fuel
    simp only [CompareViewModel, herase]

/-! ## The error of `ValidateViewModel` -/

theorem intercalate_go_append (e a sep : String) (items : List String) :
    String.intercalate.go (e ++ a) sep items = e ++ String.intercalate.go a sep items := by
  induction items generalizing a with
  | nil => simp [String.intercalate.go]
  | cons b rest ih =>
    simp only [String.intercalate.go]
    rw [← ih, String.append_assoc, String.append_assoc, String.append_assoc]

theorem appendItems_from (items : List String) : ∀ (n : Nat) (e : String), 0 < n →
    (items.enumFrom n).foldl
      (fun errorStr p => (if p.1 > 0 then errorStr ++ ", " else errorStr) ++ p.2) e =
    String.intercalate.go e ", " items := by
  induction items with
  | nil => intro n e _; simp [String.intercalate.go]
  | cons a rest ih =>
    intro n e hn
    simp only [List.enumFrom_cons, List.foldl_cons, hn, if_true, String.intercalate.go]
    exact ih (n + 1) _ (Nat.succ_pos n)

theorem appendItems_eq (e : String) (items : List String) :
    appendItems e items = e ++ ", ".intercalate items := by
  cases items with
  | nil => simp [appendItems, String.intercalate]
  | cons a rest =>
    simp only [appendItems, List.enum, List.enumFrom_cons, List.foldl_cons, String.intercalate]
    rw [← intercalate_go_append]
    exact appendItems_from rest 1 _ Nat.one_pos

theorem ValidateViewModel_returned (data : Option GoType) (tmpl : TemplateSet)
    (templateName : String) (fuel : Nat) (missing extra : List String)
    (h : CompareViewModel data tmpl templateName fuel = .returned (missing, extra)) :
    ValidateViewModel data tmpl templateName fuel =
      if extra.length > 0 || missing.length > 0 then
        .returned (some
          ((if missing.length > 0 then
              appendItems ((if extra.length > 0 then
                appendItems ("" ++ "extra fields [") extra ++ "] " else "") ++
                  "missing fields [") missing ++ "]"
            else (if extra.length > 0 then
                appendItems ("" ++ "extra fields [") extra ++ "] " else ""))))
      else .returned none := by
  simp only [ValidateViewModel, h]

/-- C8: `ValidateViewModel` returns nil exactly when `CompareViewModel` returns
an empty `missing` list and an empty `extra` list, and it returns a non-nil
error whenever `CompareViewModel` returns with one of the lists non-empty. -/
theorem ValidateViewModel_nil_iff (data : Option GoType) (tmpl : TemplateSet)
    (templateName : String) (fuel : Nat) :
    (ValidateViewModel data tmpl templateName fuel = .returned none ↔
      CompareViewModel data tmpl templateName fuel = .returned ([], [])) ∧
    (∀ missing extra,
      CompareViewModel data tmpl templateName fuel = .returned (missing, extra) →
      (missing ≠ [] ∨ extra ≠ []) →
      ∃ msg, ValidateViewModel data tmpl templateName fuel = .returned (some msg)) ∧
    (∀ fuel', ValidateViewModel (some shapeXY) (singleTemplate [fieldAction ["X"],
        fieldAction ["Y"]]) "main" (fuel' + 2) = .returned none) := by
  refine ⟨?_, ?_, fun _ => rfl⟩
  · cases h : CompareViewModel data tmpl templateName fuel with
    | returned me =>
      obtain ⟨m, e⟩ := me
      rw [ValidateViewModel_returned _ _ _ _ _ _ h]
      cases m <;> cases e <;> simp
    | panicked v => simp [ValidateViewModel, h]
    | unfinished => simp [ValidateViewModel, h]
  · intro m e h hne
    rw [ValidateViewModel_returned _ _ _ _ _ _ h]
    cases m <;> cases e <;> simp at hne ⊢

/-- The message of `ValidateViewModel`: the extra part, when `extra` is not
empty, is `extra fields [`, the entries joined by a comma and a space, and `] `
with its space; the missing part follows. -/
theorem ValidateViewModel_message (data : Option GoType) (tmpl : TemplateSet)
    (templateName : String) (fuel : Nat) (missing extra : List String)
    (h : CompareViewModel data tmpl templateName fuel = .returned (missing, extra))
    (hne : missing ≠ [] ∨ extra ≠ []) :
    ValidateViewModel data tmpl templateName fuel = .returned (some
      ((if extra = [] then "" else "extra fields [" ++ ", ".intercalate extra ++ "] ") ++
        (if missing = [] then "" else "missing fields [" ++ ", ".intercalate missing ++ "]"))) := by
  rw [ValidateViewModel_returned _ _ _ _ _ _ h]
  have hsep : "] missing fields [" = "] " ++ "missing fields [" := by decide
  cases missing <;> cases extra <;>
    simp [appendItems_eq, String.append_assoc] at hne ⊢
  rw [hsep, String.append_assoc]

/-- C9: for the data shape with fields `X` and `Y` and a template using only
`.X`, `CompareViewModel` returns `missing = []` and `extra = ["Root->Y"]`, and
the message of `ValidateViewModel` is `extra fields [Root->Y] `, with a space
after the closing bracket although there is no missing part. -/
theorem ValidateViewModel_trailing_space :
    ValidateViewModel (some shapeXY) (singleTemplate [fieldAction ["X"]]) "main" 2 =
      .returned (some "extra fields [Root->Y] ") ∧
    CompareViewModel (some shapeXY) (singleTemplate [fieldAction ["X"]]) "main" 2 =
      .returned ([], ["Root->Y"]) := by
  decide

/-! ## `addChild` and inclusions that do not resolve -/

/-- C13: `addChild` is get-or-create and idempotent: when `x` is a key of
`n.Children` it returns the child stored there and leaves `n` as it is;
otherwise it appends one new childless node with `Name` `x` under the key `x`
and every other key reads as before; a second `addChild x` changes nothing and
returns the same child. -/
theorem addChild_get_or_create (n : templateField) (x : String) :
    (x ∈ n.keys ↔ ∃ c, n.Children.lookup x = some c) ∧
    (∀ c, n.Children.lookup x = some c → n.addChild x = (n, c)) ∧
    (n.Children.lookup x = none →
      (n.addChild x).2 = .mk x [] ∧
      (n.addChild x).1 = .mk n.Name (n.Children ++ [(x, .mk x [])]) ∧
      (n.addChild x).1.Children.lookup x = some (.mk x []) ∧
      ∀ k, k ≠ x → (n.addChild x).1.Children.lookup k = n.Children.lookup k) ∧
    (n.addChild x).1.addChild x = ((n.addChild x).1, (n.addChild x).2) := by
  have hget : ∀ (t c : templateField), t.Children.lookup x = some c → t.addChild x = (t, c) := by
    intro t c h
    simp [templateField.addChild, h]
  refine ⟨?_, hget n, ?_, hget _ _ (addChild_lookup n x)⟩
  · cases h : n.Children.lookup x with
    | none => simpa [templateField.keys] using (lookup_none_iff _ _).1 h
    | some c =>
      simp only [Option.some.injEq, exists_eq', iff_true]
      exact List.mem_map.2 ⟨_, mem_of_lookup _ _ _ h, rfl⟩
  · intro h
    refine ⟨?_, ?_, ?_, ?_⟩
    · simp [templateField.addChild, h, newTemplateField]
    · simp [templateField.addChild, h, newTemplateField]
    · have := addChild_lookup n x
      rw [this]
      simp [templateField.addChild, h, newTemplateField]
    · intro k hk
      exact addChild_lookup_ne n x k hk

theorem unresolved_arg (root : TemplateSet) (Name : String)
    (h : root.Lookup Name = none ∨ root.Lookup Name = some ⟨none⟩) (fuel : Nat)
    (pf : templateField) (arg : Node) :
    (match arg with
      | .FieldNode Ident =>
        let st := descend pf Ident
        match root.Lookup Name with
        | some ⟨some tree⟩ =>
          st.1.modifyAtM (extractFieldsFromTemplate root fuel (.ListNode tree.Root)) st.2
        | _ => some st.1
      | .DotNode =>
        match root.Lookup Name with
        | some ⟨some tree⟩ => extractFieldsFromTemplate root fuel (.ListNode tree.Root) pf
        | _ => some pf
      | _ => some pf) =
    some (match arg with
      | .FieldNode Ident => (descend pf Ident).1
      | _ => pf) := by
  rcases h with h | h <;> cases arg <;> simp [h]

theorem foldlM_some {α β : Type} (f : α → β → Option α) (g : α → β → α) (l : List β)
    (h : ∀ a, ∀ b ∈ l, f a b = some (g a b)) : ∀ a, l.foldlM f a = some (l.foldl g a) := by
  induction l with
  | nil => intro a; rfl
  | cons b rest ih =>
    intro a
    simp only [List.foldlM_cons, List.foldl_cons, h a b (List.mem_cons_self _ _),
      Option.some_bind]
    exact ih (fun a b' hb' => h a b' (List.mem_cons_of_mem _ hb')) _

theorem extract_unresolved_cmds (root : TemplateSet) (Name : String)
    (h : root.Lookup Name = none ∨ root.Lookup Name = some ⟨none⟩) (fuel : Nat)
    (Cmds : List (List Node)) (s : templateField) :
    extractFieldsFromTemplate root (fuel + 1) (.TemplateNode Name (some Cmds)) s =
      extractFieldsFromTemplate root (fuel + 1) (.PipeNode Cmds) s := by
  simp only [extractFieldsFromTemplate]
  refine foldlM_some _ _ Cmds ?_ s
  intro a cmd _
  refine foldlM_some _ _ cmd ?_ a
  intro a arg _
  exact unresolved_arg root Name h fuel a arg

theorem extract_unresolved_none (root : TemplateSet) (Name : String)
    (h : root.Lookup Name = none ∨ root.Lookup Name = some ⟨none⟩) (fuel : Nat)
    (s : templateField) :
    extractFieldsFromTemplate root (fuel + 1) (.TemplateNode Name none) s = some s := by
  rcases h with h | h <;> simp [extractFieldsFromTemplate, h]

theorem extract_list_append (root : TemplateSet) (fuel : Nat) (pre rest : List Node)
    (s : templateField) :
    extractFieldsFromTemplate root (fuel + 1) (.ListNode (pre ++ rest)) s =
      (extractFieldsFromTemplate root (fuel + 1) (.ListNode pre) s).bind
        (fun s1 => extractFieldsFromTemplate root (fuel + 1) (.ListNode rest) s1) := by
  simp only [extractFieldsFromTemplate, List.foldlM_append]
  rfl

theorem extract_list_cons (root : TemplateSet) (fuel : Nat) (n : Node) (rest : List Node)
    (s : templateField) :
    extractFieldsFromTemplate root (fuel + 1) (.ListNode (n :: rest)) s =
      (extractFieldsFromTemplate root fuel n s).bind
        (fun s1 => extractFieldsFromTemplate root (fuel + 1) (.ListNode rest) s1) := by
  simp only [extractFieldsFromTemplate, List.foldlM_cons]
  rfl

/-- C12: for an inclusion node whose name does not resolve, the walk returns:
with no argument or the bare dot it returns the scope unchanged; with a
field-access argument it returns the scope with that path added; in general it
does what walking the argument pipe does; and in an enclosing list the nodes
before and after it are walked as they are without it. -/
theorem extractFieldsFromTemplate_unresolved (root : TemplateSet) (Name : String)
    (fuel : Nat) (s : templateField)
    (h : root.Lookup Name = none ∨ root.Lookup Name = some ⟨none⟩) :
    extractFieldsFromTemplate root (fuel + 1) (.TemplateNode Name none) s = some s ∧
    extractFieldsFromTemplate root (fuel + 1) (.TemplateNode Name (some [[.DotNode]])) s =
      some s ∧
    (∀ Ident, extractFieldsFromTemplate root (fuel + 1)
        (.TemplateNode Name (some [[.FieldNode Ident]])) s = some (registerPath s Ident)) ∧
    (∀ Cmds, extractFieldsFromTemplate root (fuel + 1) (.TemplateNode Name (some Cmds)) s =
      extractFieldsFromTemplate root (fuel + 1) (.PipeNode Cmds) s) ∧
    (∀ pre rest, extractFieldsFromTemplate root (fuel + 2)
        (.ListNode (pre ++ .TemplateNode Name none :: rest)) s =
      extractFieldsFromTemplate root (fuel + 2) (.ListNode (pre ++ rest)) s) ∧
    (∀ pre rest Cmds, extractFieldsFromTemplate root (fuel + 2)
        (.ListNode (pre ++ .TemplateNode Name (some Cmds) :: rest)) s =
      extractFieldsFromTemplate root (fuel + 2) (.ListNode (pre ++ .PipeNode Cmds :: rest)) s) := by
  refine ⟨extract_unresolved_none root Name h fuel s, ?_, ?_,
    fun Cmds => extract_unresolved_cmds root Name h fuel Cmds s, ?_, ?_⟩
  · rw [extract_unresolved_cmds root Name h, extract_pipe_eq]
    rfl
  · intro Ident
    rw [extract_unresolved_cmds root Name h, extract_pipe_eq]
    simp [fieldArgs]
  · intro pre rest
    rw [extract_list_append, extract_list_append]
    congr 1
    funext s1
    rw [extract_list_cons, extract_unresolved_none root Name h]
    rfl
  · intro pre rest Cmds
    rw [extract_list_append, extract_list_append]
    congr 1
    funext s1
    rw [extract_list_cons, extract_list_cons, extract_unresolved_cmds root Name h]

theorem extractFieldsFromTemplate_unresolved_witness :
    ((singleTemplate ghostBody).Lookup "ghost" = none ∨
      (singleTemplate ghostBody).Lookup "ghost" = some ⟨none⟩) ∧
    extractFieldsFromTemplate (singleTemplate ghostBody) 1 (.TemplateNode "ghost" none)
      (newTemplateField "Root") = some (newTemplateField "Root") :=
  ⟨Or.inl rfl, (extractFieldsFromTemplate_unresolved (singleTemplate ghostBody) "ghost" 0
    (newTemplateField "Root") (Or.inl rfl)).1⟩

/-- The walk of `template "ghost" .A` followed by `.B`, where `ghost` does not
resolve, registers `A` and `B` at the root. -/
theorem unresolved_sample (fuel : Nat) :
    extractFieldsFromTemplate (singleTemplate ghostBody) (fuel + 2) (.ListNode ghostBody)
      (newTemplateField "Root") =
      some (.mk "Root" [("A", .mk "A" []), ("B", .mk "B" [])]) := by
  rfl

/-! ## The data-side tree -/


theorem extractHelper_ptr_ptr (S : GoType) (pf : templateField) :
    extractHelper (.Ptr (.Ptr S)) pf = pf := by
  simp [extractHelper]

theorem extractHelper_ptr_of_not_ptr (S : GoType) (pf : templateField)
    (h : S.Kind ≠ .Ptr) : extractHelper (.Ptr S) pf = extractHelper S pf := by
  cases S with
  | Ptr e => simp [GoType.Kind] at h
  | Struct fs => exact extractHelper_ptr_struct fs pf
  | _ => simp [extractHelper]

/-- C15, amended: for a shape `S` that is not itself a pointer, `extractHelper`
populates the same tree for `S` and for `S` behind one pointer layer; behind two
or more pointer layers it adds nothing. -/
theorem extractHelper_pointer_layers (S : GoType) (n : Nat) (pf : templateField)
    (h : S.Kind ≠ .Ptr) :
    extractHelper (ptrLayers n S) pf = if n ≤ 1 then extractHelper S pf else pf := by
  match n with
  | 0 => rfl
  | 1 => exact extractHelper_ptr_of_not_ptr S pf h
  | n + 2 => simp [ptrLayers, extractHelper_ptr_ptr]

theorem extractHelper_pointer_layers_witness :
    shapeXY.Kind ≠ .Ptr ∧
    extractHelper (ptrLayers 1 shapeXY) (newTemplateField "Root") =
      (if 1 ≤ 1 then extractHelper shapeXY (newTemplateField "Root")
        else newTemplateField "Root") ∧
    extractHelper (ptrLayers 3 shapeXY) (newTemplateField "Root") =
      (if 3 ≤ 1 then extractHelper shapeXY (newTemplateField "Root")
        else newTemplateField "Root") :=
  ⟨by decide, extractHelper_pointer_layers shapeXY 1 _ (by decide),
    extractHelper_pointer_layers shapeXY 3 _ (by decide)⟩

/-- C15 fails for two pointer layers: behind them the struct with the fields
`X` and `Y` gives no children, and by itself it gives the children `X`, `Y`. -/
theorem extractHelper_two_pointers_counterexample :
    ¬ (extractHelper (ptrLayers 2 shapeXY) (newTemplateField "Root") =
      extractHelper shapeXY (newTemplateField "Root")) := by
  intro h
  have h2 := congrArg templateField.keys h
  revert h2
  decide

/-- The tree of the sample shape: `Name`, `Address -> City`, `Tags`, `Next`. -/
theorem extractFieldsFromStruct_sample :
    extractFieldsFromStruct (some shapeNested) = .returned
      (.mk "Root" [("Name", .mk "Name" []), ("Address", .mk "Address" [("City", .mk "City" [])]),
        ("Tags", .mk "Tags" []), ("Next", .mk "Next" [])]) := by
  rfl

/-! ## Soundness of an empty comparison -/

theorem nodeAt_snoc (t : templateField) (p : List String) (c : String) :
    t.nodeAt (p ++ [c]) = (t.nodeAt p).bind (fun n => n.Children.lookup c) := by
  rw [nodeAt_append]
  congr 1
  funext n
  rw [nodeAt_cons]
  cases n.Children.lookup c <;> simp [nodeAt_nil]

theorem same_paths_of_no_pairs (T D : templateField)
    (hm : ∀ pc, ¬ IsMissing T D pc) (he : ∀ pc, ¬ IsExtra T D pc) :
    ∀ p, (T.nodeAt p).isSome = (D.nodeAt p).isSome := by
  intro p
  induction p using List.reverseRecOn with
  | nil => simp [nodeAt_nil]
  | append_singleton p c ih =>
    rw [nodeAt_snoc, nodeAt_snoc]
    cases ht : T.nodeAt p with
    | none =>
      cases hd : D.nodeAt p with
      | none => rfl
      | some d => simp [ht, hd] at ih
    | some t =>
      cases hd : D.nodeAt p with
      | none => simp [ht, hd] at ih
      | some d =>
        simp only [Option.some_bind]
        cases hlt : t.Children.lookup c with
        | none =>
          cases hld : d.Children.lookup c with
          | none => rfl
          | some dc =>
            exfalso
            refine he (p, c) ⟨t, d, ht, hd, ?_, (lookup_none_iff _ _).1 hlt⟩
            exact List.mem_map.2 ⟨_, mem_of_lookup _ _ _ hld, rfl⟩
        | some tc =>
          cases hld : d.Children.lookup c with
          | some dc => rfl
          | none =>
            exfalso
            refine hm (p, c) ⟨t, d, ht, hd, ?_, (lookup_none_iff _ _).1 hld⟩
            exact List.mem_map.2 ⟨_, mem_of_lookup _ _ _ hlt, rfl⟩

theorem same_paths_of_compare_nil (T D : templateField) (hT : T.wf = true)
    (h : compareTemplateFields T D = ([], [])) :
    ∀ p, (T.nodeAt p).isSome = (D.nodeAt p).isSome := by
  have h1 : missingPairs T D = [] := by
    have := compare_missing_eq T D
    rw [h] at this
    exact List.map_eq_nil_iff.1 this.symm
  have h2 : extraPairs T D = [] := by
    have := compare_extra_eq T hT D
    rw [h] at this
    exact List.map_eq_nil_iff.1 this.symm
  refine same_paths_of_no_pairs T D ?_ ?_
  · intro pc hpc
    have := (mem_missingPairs T hT D pc).2 hpc
    rw [h1] at this
    cases this
  · intro pc hpc
    have := (mem_extraPairs T hT D pc).2 hpc
    rw [h2] at this
    cases this

theorem validate_nil_iff (data : Option GoType) (tmpl : TemplateSet) (templateName : String)
    (fuel : Nat) :
    ValidateViewModel data tmpl templateName fuel = .returned none ↔
      CompareViewModel data tmpl templateName fuel = .returned ([], []) := by
  cases h : CompareViewModel data tmpl templateName fuel with
  | returned me =>
    obtain ⟨m, e⟩ := me
    rw [ValidateViewModel_returned _ _ _ _ _ _ h]
    cases m <;> cases e <;> simp
  | panicked v => simp [ValidateViewModel, h]
  | unfinished => simp [ValidateViewModel, h]

/-- C19: when `compareTemplateFields T D` returns an empty `missing` list and
an empty `extra` list, the trees `T` and `D` have the same child-name paths;
so when `ValidateViewModel` returns nil, the tree of the template and the tree
of the data shape have the same paths. -/
theorem compareTemplateFields_empty_sound (T D : templateField) (hT : T.wf = true)
    (h : compareTemplateFields T D = ([], [])) :
    (∀ p, (T.nodeAt p).isSome = (D.nodeAt p).isSome) ∧
    (∀ data tmpl templateName fuel,
      ValidateViewModel data tmpl templateName fuel = .returned none →
      ∃ tree T' D', tmpl.Lookup templateName = some ⟨some tree⟩ ∧
        extractFieldsFromTemplate tmpl fuel (.ListNode tree.Root) (newTemplateField "Root") =
          some T' ∧
        extractFieldsFromStruct data = .returned D' ∧
        ∀ p, (T'.nodeAt p).isSome = (D'.nodeAt p).isSome) := by
  refine ⟨same_paths_of_compare_nil T D hT h, ?_⟩
  intro data tmpl templateName fuel hv
  have hc := (validate_nil_iff data tmpl templateName fuel).1 hv
  simp only [CompareViewModel] at hc
  split at hc
  · rename_i tree hl
    split at hc
    · cases hc
    · rename_i T' hT'
      split at hc
      · rename_i D' hD'
        simp only [Outcome.returned.injEq] at hc
        exact ⟨tree, T', D', hl, hT', hD', same_paths_of_compare_nil T' D'
          (wf_extract tmpl fuel _ _ T' (wf_newTemplateField "Root") hT') hc⟩
      · cases hc
      · cases hc
  · cases hc

theorem compareTemplateFields_empty_sound_witness :
    samePathsTreeA.wf = true ∧
    compareTemplateFields samePathsTreeA samePathsTreeB = ([], []) ∧
    (∀ p, (samePathsTreeA.nodeAt p).isSome = (samePathsTreeB.nodeAt p).isSome) :=
  ⟨by decide, by decide,
    (compareTemplateFields_empty_sound samePathsTreeA samePathsTreeB (by decide)
      (by decide)).1⟩

/-! ## The order of enumeration -/

theorem sameMapChildren_iff (cs : List (String × templateField)) (t' : templateField) :
    sameMapChildren cs t' = true ↔
      ∀ kv ∈ cs, ∃ c', t'.Children.lookup kv.1 = some c' ∧ kv.2.sameMap c' = true := by
  induction cs with
  | nil => simp [sameMapChildren]
  | cons kv rest ih =>
    obtain ⟨k, c⟩ := kv
    simp only [sameMapChildren, Bool.and_eq_true, ih, List.mem_cons, forall_eq_or_imp]
    constructor
    · rintro ⟨h1, h2⟩
      refine ⟨?_, h2⟩
      cases hl : t'.Children.lookup k with
      | none => simp [hl] at h1
      | some c' => exact ⟨c', rfl, by simpa [hl] using h1⟩
    · rintro ⟨⟨c', hl, hc⟩, h2⟩
      exact ⟨by simpa [hl] using hc, h2⟩

theorem sameMap_mk (n : String) (cs : List (String × templateField)) (t' : templateField) :
    (templateField.mk n cs).sameMap t' = true ↔
      n = t'.Name ∧ (∀ k ∈ t'.keys, k ∈ cs.map Prod.fst) ∧
      ∀ kv ∈ cs, ∃ c', t'.Children.lookup kv.1 = some c' ∧ kv.2.sameMap c' = true := by
  simp only [templateField.sameMap, Bool.and_eq_true, sameMapChildren_iff, beq_iff_eq,
    List.all_eq_true, and_assoc]
  simp

theorem sameMap_name (t t' : templateField) (h : t.sameMap t' = true) : t.Name = t'.Name := by
  cases t with
  | mk n cs => exact ((sameMap_mk n cs t').1 h).1

theorem sameMap_keys (t t' : templateField) (h : t.sameMap t' = true) (k : String) :
    k ∈ t.keys ↔ k ∈ t'.keys := by
  cases t with
  | mk n cs =>
    obtain ⟨_, h2, h3⟩ := (sameMap_mk n cs t').1 h
    constructor
    · intro hk
      obtain ⟨kv, hkv, rfl⟩ := List.mem_map.1 hk
      obtain ⟨c', hl, _⟩ := h3 kv hkv
      exact List.mem_map.2 ⟨_, mem_of_lookup _ _ _ hl, rfl⟩
    · exact h2 k

theorem sameMap_lookup (t t' : templateField) (h : t.sameMap t' = true) (k : String)
    (c : templateField) (hc : t.Children.lookup k = some c) :
    ∃ c', t'.Children.lookup k = some c' ∧ c.sameMap c' = true := by
  cases t with
  | mk n cs =>
    obtain ⟨_, _, h3⟩ := (sameMap_mk n cs t').1 h
    exact h3 (k, c) (mem_of_lookup _ _ _ hc)

theorem sameMap_lookup_back (t t' : templateField) (h : t.sameMap t' = true) (k : String)
    (c' : templateField) (hc : t'.Children.lookup k = some c') :
    ∃ c, t.Children.lookup k = some c ∧ c.sameMap c' = true := by
  have hk : k ∈ t.keys :=
    (sameMap_keys t t' h k).2 (List.mem_map.2 ⟨_, mem_of_lookup _ _ _ hc, rfl⟩)
  cases hl : t.Children.lookup k with
  | none => exact absurd hk ((lookup_none_iff _ _).1 hl)
  | some c =>
    obtain ⟨c2, hl2, hs⟩ := sameMap_lookup t t' h k c hl
    rw [hc] at hl2
    cases hl2
    exact ⟨c, rfl, hs⟩

theorem sameMap_nodeAt (p : List String) : ∀ (t t' : templateField),
    t.sameMap t' = true → ∀ n, t.nodeAt p = some n →
      ∃ n', t'.nodeAt p = some n' ∧ n.sameMap n' = true := by
  induction p with
  | nil =>
    intro t t' h n hn
    rw [nodeAt_nil] at hn
    cases hn
    exact ⟨t', nodeAt_nil _, h⟩
  | cons k q ih =>
    intro t t' h n hn
    rw [nodeAt_cons] at hn ⊢
    cases hl : t.Children.lookup k with
    | none => simp [hl] at hn
    | some c =>
      obtain ⟨c', hl', hs⟩ := sameMap_lookup t t' h k c hl
      simp only [hl, Option.some_bind] at hn
      simp only [hl', Option.some_bind]
      exact ih c c' hs n hn

theorem sameMap_nodeAt_back (p : List String) : ∀ (t t' : templateField),
    t.sameMap t' = true → ∀ n', t'.nodeAt p = some n' →
      ∃ n, t.nodeAt p = some n ∧ n.sameMap n' = true := by
  induction p with
  | nil =>
    intro t t' h n' hn
    rw [nodeAt_nil] at hn
    cases hn
    exact ⟨t, nodeAt_nil _, h⟩
  | cons k q ih =>
    intro t t' h n' hn
    rw [nodeAt_cons] at hn ⊢
    cases hl : t'.Children.lookup k with
    | none => simp [hl] at hn
    | some c' =>
      obtain ⟨c, hlc, hs⟩ := sameMap_lookup_back t t' h k c' hl
      simp only [hl, Option.some_bind] at hn
      simp only [hlc, Option.some_bind]
      exact ih c c' hs n' hn

theorem isMissing_sameMap (T T' D D' : templateField) (hT : T.sameMap T' = true)
    (hD : D.sameMap D' = true) (pc : List String × String) :
    IsMissing T D pc ↔ IsMissing T' D' pc := by
  constructor
  · rintro ⟨t, d, ht, hd, hc, hnc⟩
    obtain ⟨t', ht', hst⟩ := sameMap_nodeAt _ T T' hT t ht
    obtain ⟨d', hd', hsd⟩ := sameMap_nodeAt _ D D' hD d hd
    exact ⟨t', d', ht', hd', (sameMap_keys t t' hst _).1 hc,
      fun h => hnc ((sameMap_keys d d' hsd _).2 h)⟩
  · rintro ⟨t', d', ht', hd', hc, hnc⟩
    obtain ⟨t, ht, hst⟩ := sameMap_nodeAt_back _ T T' hT t' ht'
    obtain ⟨d, hd, hsd⟩ := sameMap_nodeAt_back _ D D' hD d' hd'
    exact ⟨t, d, ht, hd, (sameMap_keys t t' hst _).2 hc,
      fun h => hnc ((sameMap_keys d d' hsd _).1 h)⟩

theorem isExtra_sameMap (T T' D D' : templateField) (hT : T.sameMap T' = true)
    (hD : D.sameMap D' = true) (pc : List String × String) :
    IsExtra T D pc ↔ IsExtra T' D' pc := by
  constructor
  · rintro ⟨t, d, ht, hd, hc, hnc⟩
    obtain ⟨t', ht', hst⟩ := sameMap_nodeAt _ T T' hT t ht
    obtain ⟨d', hd', hsd⟩ := sameMap_nodeAt _ D D' hD d hd
    exact ⟨t', d', ht', hd', (sameMap_keys d d' hsd _).1 hc,
      fun h => hnc ((sameMap_keys t t' hst _).2 h)⟩
  · rintro ⟨t', d', ht', hd', hc, hnc⟩
    obtain ⟨t, ht, hst⟩ := sameMap_nodeAt_back _ T T' hT t' ht'
    obtain ⟨d, hd, hsd⟩ := sameMap_nodeAt_back _ D D' hD d' hd'
    exact ⟨t, d, ht, hd, (sameMap_keys d d' hsd _).2 hc,
      fun h => hnc ((sameMap_keys t t' hst _).1 h)⟩

theorem entryAt_sameMap (D D' : templateField) (hD : D.sameMap D' = true)
    (pc : List String × String) : entryAt D pc = entryAt D' pc := by
  simp only [entryAt]
  cases hd : D.nodeAt pc.1 with
  | some d =>
    obtain ⟨d', hd', hs⟩ := sameMap_nodeAt _ D D' hD d hd
    simp [hd', sameMap_name d d' hs]
  | none =>
    cases hd' : D'.nodeAt pc.1 with
    | none => rfl
    | some d' =>
      obtain ⟨d, hd2, _⟩ := sameMap_nodeAt_back _ D D' hD d' hd'
      rw [hd] at hd2
      cases hd2

/-- C18: for trees with one entry per key, enumerating the children of the
template-side tree and of the data-side tree in other orders (trees holding the
same maps) gives a `missing` list that is a permutation of the first one, and
an `extra` list that is a permutation of the first one. -/
theorem compareTemplateFields_order (T T' D D' : templateField)
    (hT : T.wf = true) (hT' : T'.wf = true) (hD : D.wf = true) (hD' : D'.wf = true)
    (hTT : T.sameMap T' = true) (hDD : D.sameMap D' = true) :
    (compareTemplateFields T D).1.Perm (compareTemplateFields T' D').1 ∧
    (compareTemplateFields T D).2.Perm (compareTemplateFields T' D').2 := by
  constructor
  · rw [compare_missing_eq, compare_missing_eq]
    have hp : (missingPairs T D).Perm (missingPairs T' D') :=
      (List.perm_ext_iff_of_nodup (nodup_missingPairs T hT D) (nodup_missingPairs T' hT' D')).2
        (fun pc => by
          rw [mem_missingPairs T hT, mem_missingPairs T' hT', isMissing_sameMap T T' D D' hTT hDD])
    have he : entryAt D = entryAt D' := funext (entryAt_sameMap D D' hDD)
    rw [he]
    exact hp.map _
  · rw [compare_extra_eq T hT, compare_extra_eq T' hT']
    have hp : (extraPairs T D).Perm (extraPairs T' D') :=
      (List.perm_ext_iff_of_nodup (nodup_extraPairs T hT D hD)
        (nodup_extraPairs T' hT' D' hD')).2
        (fun pc => by
          rw [mem_extraPairs T hT, mem_extraPairs T' hT', isExtra_sameMap T T' D D' hTT hDD])
    have he : entryAt T = entryAt T' := funext (entryAt_sameMap T T' hTT)
    rw [he]
    exact hp.map _

theorem compareTemplateFields_order_witness :
    sampleTemplateTree.wf = true ∧ sampleTemplateTreeReordered.wf = true ∧
    sampleDataTree.wf = true ∧ sampleDataTreeReordered.wf = true ∧
    sampleTemplateTree.sameMap sampleTemplateTreeReordered = true ∧
    sampleDataTree.sameMap sampleDataTreeReordered = true ∧
    (compareTemplateFields sampleTemplateTree sampleDataTree).1.Perm
      (compareTemplateFields sampleTemplateTreeReordered sampleDataTreeReordered).1 ∧
    (compareTemplateFields sampleTemplateTree sampleDataTree).2.Perm
      (compareTemplateFields sampleTemplateTreeReordered sampleDataTreeReordered).2 :=
  ⟨by decide, by decide, by decide, by decide, by decide, by decide,
    compareTemplateFields_order _ _ _ _ (by decide) (by decide) (by decide) (by decide)
      (by decide) (by decide)⟩

/-- In the other order of enumeration the sample trees compare to the same
entries in another order. -/
theorem compareTemplateFields_reordered_sample :
    compareTemplateFields sampleTemplateTreeReordered sampleDataTreeReordered =
      (["Root->C", "A->B"], ["A->D", "Root->Y"]) := by
  decide

/-! ## Names and keys -/

theorem keyNamedChildren_iff (cs : List (String × templateField)) :
    keyNamedChildren cs = true ↔ ∀ kv ∈ cs, kv.2.Name = kv.1 ∧ kv.2.keyNamed = true := by
  induction cs with
  | nil => simp [keyNamedChildren]
  | cons kv rest ih =>
    obtain ⟨k, c⟩ := kv
    simp [keyNamedChildren, ih, and_assoc]

theorem keyNamed_mk (n : String) (cs : List (String × templateField)) :
    (templateField.mk n cs).keyNamed = true ↔
      ∀ kv ∈ cs, kv.2.Name = kv.1 ∧ kv.2.keyNamed = true := by
  simp [templateField.keyNamed, keyNamedChildren_iff]

theorem keyNamed_child (t : templateField) (h : t.keyNamed = true) (k : String)
    (c : templateField) (hc : t.Children.lookup k = some c) :
    c.Name = k ∧ c.keyNamed = true := by
  cases t with
  | mk n cs => exact (keyNamed_mk n cs).1 h (k, c) (mem_of_lookup cs k c hc)

theorem keyNamed_new (name : String) : (newTemplateField name).keyNamed = true := by
  simp [newTemplateField, keyNamed_mk]

theorem keyNamed_addChild (t : templateField) (name : String) (h : t.keyNamed = true) :
    (t.addChild name).1.keyNamed = true := by
  cases t with
  | mk n cs =>
    simp only [templateField.addChild, Children_mk, Name_mk]
    cases hl : cs.lookup name with
    | some c => exact h
    | none =>
      rw [keyNamed_mk] at h ⊢
      intro kv hkv
      rcases List.mem_append.1 hkv with h1 | h1
      · exact h kv h1
      · simp only [List.mem_singleton] at h1
        subst h1
        exact ⟨rfl, keyNamed_new name⟩

theorem mem_setChild_key (cs : List (String × templateField)) (k : String) (c : templateField)
    (kv : String × templateField) (h : kv ∈ setChild cs k c) :
    (kv.1 = k ∧ kv.2 = c) ∨ kv ∈ cs := by
  induction cs with
  | nil => simp [setChild] at h
  | cons hd rest ih =>
    obtain ⟨a, b⟩ := hd
    simp only [setChild] at h
    split at h
    · rename_i hak
      rcases List.mem_cons.1 h with rfl | hm
      · exact Or.inl ⟨by simpa using hak, rfl⟩
      · exact Or.inr (List.mem_cons_of_mem _ hm)
    · rcases List.mem_cons.1 h with rfl | hm
      · exact Or.inr (List.mem_cons_self _ _)
      · rcases ih hm with h1 | h1
        · exact Or.inl h1
        · exact Or.inr (List.mem_cons_of_mem _ h1)

theorem keyNamed_setChild (n : String) (cs : List (String × templateField)) (k : String)
    (c : templateField) (h : (templateField.mk n cs).keyNamed = true)
    (hc : c.Name = k ∧ c.keyNamed = true) :
    (templateField.mk n (setChild cs k c)).keyNamed = true := by
  rw [keyNamed_mk] at h ⊢
  intro kv hkv
  rcases mem_setChild_key cs k c kv hkv with ⟨h1, h2⟩ | h1
  · rw [h1, h2]; exact hc
  · exact h kv h1

theorem keyNamed_modifyAt (f : templateField → templateField)
    (hf : ∀ t, t.keyNamed = true → (f t).keyNamed = true ∧ (f t).Name = t.Name) :
    ∀ (path : List String) (t : templateField), t.keyNamed = true →
      (t.modifyAt f path).keyNamed = true ∧ (t.modifyAt f path).Name = t.Name := by
  intro path
  induction path with
  | nil => intro t ht; rw [modifyAt_nil]; exact hf t ht
  | cons k ks ih =>
    intro t ht
    refine ⟨?_, modifyAt_name f t k ks⟩
    rw [modifyAt_cons]
    cases h : t.Children.lookup k with
    | none => exact ht
    | some c =>
      obtain ⟨hn, hk⟩ := keyNamed_child t ht k c h
      obtain ⟨h1, h2⟩ := ih c hk
      cases t with
      | mk n cs => exact keyNamed_setChild n cs k _ ht ⟨h2.trans hn, h1⟩

theorem keyNamed_modifyAtM (f : templateField → Option templateField)
    (hf : ∀ t r, t.keyNamed = true → f t = some r → r.keyNamed = true ∧ r.Name = t.Name) :
    ∀ (path : List String) (t r : templateField), t.keyNamed = true →
      t.modifyAtM f path = some r → r.keyNamed = true ∧ r.Name = t.Name := by
  intro path
  induction path with
  | nil => intro t r ht hr; rw [modifyAtM_nil] at hr; exact hf t r ht hr
  | cons k ks ih =>
    intro t r ht hr
    rw [modifyAtM_cons] at hr
    cases h : t.Children.lookup k with
    | none =>
      simp only [h, Option.some.injEq] at hr
      rw [← hr]; exact ⟨ht, rfl⟩
    | some c =>
      simp only [h] at hr
      cases h2 : c.modifyAtM f ks with
      | none => simp [h2] at hr
      | some c' =>
        simp only [h2, Option.some.injEq] at hr
        rw [← hr]
        obtain ⟨hn, hk⟩ := keyNamed_child t ht k c h
        obtain ⟨h3, h4⟩ := ih c c' hk h2
        cases t with
        | mk n cs => exact ⟨keyNamed_setChild n cs k _ ht ⟨h4.trans hn, h3⟩, rfl⟩

theorem keyNamed_registerPath (Ident : List String) : ∀ t : templateField,
    t.keyNamed = true → (registerPath t Ident).keyNamed = true := by
  induction Ident with
  | nil => intro t h; rw [registerPath_nil]; exact h
  | cons a rest ih =>
    intro t h
    rw [registerPath_cons]
    exact (keyNamed_modifyAt _ (fun c hc => ⟨ih c hc, registerPath_name rest c⟩) [a] _
      (keyNamed_addChild t a h)).1

theorem keyNamed_descend (pf : templateField) (Ident : List String)
    (h : pf.keyNamed = true) :
    (descend pf Ident).1.keyNamed = true ∧ (descend pf Ident).1.Name = pf.Name := by
  rw [descend_eq]
  exact ⟨keyNamed_registerPath Ident pf h, registerPath_name Ident pf⟩

theorem keyNamed_registerAll (idents : List (List String)) : ∀ t : templateField,
    t.keyNamed = true →
      (idents.foldl registerPath t).keyNamed = true ∧
      (idents.foldl registerPath t).Name = t.Name := by
  induction idents with
  | nil => intro t h; exact ⟨h, rfl⟩
  | cons a rest ih =>
    intro t h
    obtain ⟨h1, h2⟩ := ih _ (keyNamed_registerPath a t h)
    exact ⟨h1, h2.trans (registerPath_name a t)⟩

theorem keyNamed_extract (root : TemplateSet) : ∀ (fuel : Nat) (n : Node)
    (pf r : templateField), pf.keyNamed = true →
    extractFieldsFromTemplate root fuel n pf = some r →
      r.keyNamed = true ∧ r.Name = pf.Name := by
  intro fuel
  induction fuel with
  | zero => intro n pf r _ h; simp [extractFieldsFromTemplate] at h
  | succ fuel ih =>
    intro n pf r hpf h
    cases n with
    | FieldNode Ident =>
      simp only [extractFieldsFromTemplate, Option.some.injEq] at h
      rw [← h]; exact ⟨hpf, rfl⟩
    | DotNode =>
      simp only [extractFieldsFromTemplate, Option.some.injEq] at h
      rw [← h]; exact ⟨hpf, rfl⟩
    | OtherNode =>
      simp only [extractFieldsFromTemplate, Option.some.injEq] at h
      rw [← h]; exact ⟨hpf, rfl⟩
    | PipeNode Cmds =>
      rw [extract_pipe_eq] at h
      cases h
      exact keyNamed_registerAll _ pf hpf
    | ActionNode Pipe =>
      rw [extract_action_eq] at h
      cases h
      exact keyNamed_registerAll _ pf hpf
    | TemplateNode Name Pipe =>
      cases Pipe with
      | none =>
        simp only [extractFieldsFromTemplate] at h
        split at h
        · exact ih _ _ _ hpf h
        · cases h; exact ⟨hpf, rfl⟩
      | some Cmds =>
        simp only [extractFieldsFromTemplate] at h
        refine foldlM_inv (fun t => t.keyNamed = true ∧ t.Name = pf.Name) _ Cmds ?_ pf r
          ⟨hpf, rfl⟩ h
        intro a cmd _ r1 ha h1
        refine foldlM_inv (fun t => t.keyNamed = true ∧ t.Name = pf.Name) _ cmd ?_ a r1 ha h1
        intro a arg _ r2 ha h2
        split at h2
        · obtain ⟨hd1, hd2⟩ := keyNamed_descend a _ ha.1
          split at h2
          · obtain ⟨h3, h4⟩ := keyNamed_modifyAtM _ (fun t r ht hr => ih _ t r ht hr) _ _ _ hd1 h2
            exact ⟨h3, h4.trans (hd2.trans ha.2)⟩
          · cases h2; exact ⟨hd1, hd2.trans ha.2⟩
        · split at h2
          · obtain ⟨h3, h4⟩ := ih _ _ _ ha.1 h2
            exact ⟨h3, h4.trans ha.2⟩
          · cases h2; exact ha
        · cases h2; exact ha
    | ListNode Nodes =>
      simp only [extractFieldsFromTemplate] at h
      refine foldlM_inv (fun t => t.keyNamed = true ∧ t.Name = pf.Name) _ Nodes ?_ pf r
        ⟨hpf, rfl⟩ h
      intro a b _ r1 ha hr
      obtain ⟨h3, h4⟩ := ih b a r1 ha.1 hr
      exact ⟨h3, h4.trans ha.2⟩
    | IfNode _ list elseList =>
      simp only [extractFieldsFromTemplate] at h
      split at h
      · cases h
      · rename_i pf1 h1
        obtain ⟨h3, h4⟩ := ih _ _ _ hpf h1
        split at h
        · obtain ⟨h5, h6⟩ := ih _ _ _ h3 h
          exact ⟨h5, h6.trans h4⟩
        · cases h; exact ⟨h3, h4⟩
    | RangeNode Pipe _ _ =>
      simp only [extractFieldsFromTemplate] at h
      exact ih _ _ _ hpf h
    | WithNode _ list _ =>
      simp only [extractFieldsFromTemplate] at h
      exact ih _ _ _ hpf h

theorem keyNamed_extractHelperLoop (fs : List (StructField GoType))
    (ih : ∀ f ∈ fs, ∀ pf : templateField, pf.keyNamed = true →
      (extractHelper f.Typ pf).keyNamed = true ∧ (extractHelper f.Typ pf).Name = pf.Name) :
    ∀ pf : templateField, pf.keyNamed = true →
      (extractHelperLoop fs pf).keyNamed = true ∧ (extractHelperLoop fs pf).Name = pf.Name := by
  induction fs with
  | nil => intro pf h; simpa [extractHelperLoop] using h
  | cons f rest ihl =>
    intro pf h
    have ihr := ihl (fun f hf => ih f (List.mem_cons_of_mem _ hf))
    rw [extractHelperLoop_cons]
    split
    · exact ihr pf h
    · split
      · obtain ⟨h1, h2⟩ := keyNamed_modifyAt _ (ih f (List.mem_cons_self _ _)) [f.Name] _
          (keyNamed_addChild pf f.Name h)
        obtain ⟨h3, h4⟩ := ihr _ h1
        exact ⟨h3, h4.trans (h2.trans (addChild_name pf f.Name))⟩
      · obtain ⟨h3, h4⟩ := ihr _ (keyNamed_addChild pf f.Name h)
        exact ⟨h3, h4.trans (addChild_name pf f.Name)⟩

theorem keyNamed_extractHelper : ∀ (typ : GoType) (pf : templateField),
    pf.keyNamed = true →
      (extractHelper typ pf).keyNamed = true ∧ (extractHelper typ pf).Name = pf.Name := by
  intro typ
  induction typ using GoType_induction with
  | hStruct fs ih =>
    intro pf h
    rw [extractHelper_struct]
    exact keyNamed_extractHelperLoop fs ih pf h
  | hPtr e ih =>
    intro pf h
    cases e with
    | Struct fs => rw [extractHelper_ptr_struct]; exact ih pf h
    | _ => simpa [extractHelper] using h
  | _ => intro pf h; simpa [extractHelper] using h

theorem keyNamed_built (t : templateField) (h : Built t) :
    t.keyNamed = true ∧ t.Name = "Root" := by
  induction h with
  | root => exact ⟨keyNamed_new _, rfl⟩
  | add t path name _ ih =>
    obtain ⟨h1, h2⟩ := keyNamed_modifyAt _
      (fun c hc => ⟨keyNamed_addChild c name hc, addChild_name c name⟩) path t ih.1
    exact ⟨h1, h2.trans ih.2⟩

theorem keyNamed_nodeAt (p : List String) : ∀ (t n : templateField), t.keyNamed = true →
    t.nodeAt p = some n → n.keyNamed = true := by
  induction p with
  | nil => intro t n h hn; rw [nodeAt_nil] at hn; cases hn; exact h
  | cons k q ih =>
    intro t n h hn
    rw [nodeAt_cons] at hn
    cases hl : t.Children.lookup k with
    | none => simp [hl] at hn
    | some c =>
      simp only [hl, Option.some_bind] at hn
      exact ih c n (keyNamed_child t h k c hl).2 hn

theorem keyNamed_name (t : templateField) (h : t.keyNamed = true) (p : List String)
    (k : String) (n : templateField) (hn : t.nodeAt (p ++ [k]) = some n) : n.Name = k := by
  rw [nodeAt_snoc] at hn
  cases hm : t.nodeAt p with
  | none => simp [hm] at hn
  | some m =>
    simp only [hm, Option.some_bind] at hn
    exact (keyNamed_child m (keyNamed_nodeAt p t m h hm) k n hn).1

theorem entryAt_lastSegment (t : templateField) (h : t.keyNamed = true)
    (hr : t.Name = "Root") (pc : List String × String) (n : templateField)
    (hn : t.nodeAt pc.1 = some n) : entryAt t pc = lastSegmentEntry pc := by
  obtain ⟨p, c⟩ := pc
  simp only [entryAt, lastSegmentEntry] at hn ⊢
  rw [hn]
  rcases List.eq_nil_or_concat p with rfl | ⟨q, k, rfl⟩
  · rw [nodeAt_nil] at hn
    cases hn
    simp [hr]
  · have := keyNamed_name t h q k n (by simpa using hn)
    simp [this]

theorem compare_trees (data : Option GoType) (tmpl : TemplateSet) (templateName : String)
    (fuel : Nat) (me : List String × List String)
    (h : CompareViewModel data tmpl templateName fuel = .returned me) :
    ∃ tree typ T, tmpl.Lookup templateName = some ⟨some tree⟩ ∧ data = some typ ∧
      extractFieldsFromTemplate tmpl fuel (.ListNode tree.Root) (newTemplateField "Root") =
        some T ∧
      me = compareTemplateFields T (extractHelper typ (newTemplateField "Root")) := by
  simp only [CompareViewModel] at h
  split at h
  · rename_i tree hl
    split at h
    · cases h
    · rename_i T hT
      cases data with
      | none => simp [extractFieldsFromStruct] at h
      | some typ =>
        simp only [extractFieldsFromStruct, Outcome.returned.injEq] at h
        exact ⟨tree, typ, T, hl, rfl, hT, h.symm⟩
  · cases h

/-- C20: in a tree built from `newTemplateField("Root")` by `addChild` calls,
and in the tree returned by either walker, the root is named `Root` and every
other node is named by the key under which its parent stores it.  Hence, when
`CompareViewModel` returns, the two nodes compared at a shared path have equal
names, and `missing` and `extra` consist of the entries `parent + "->" + c` of
the missing and extra fields `(p, c)`, where `parent` is `Root` for the empty
path and the last segment of `p` otherwise; the paths `A.X.Y` and `B.X.Y`
give the same entry `X->Y` twice. -/
theorem names_equal_keys :
    (∀ t, Built t → t.Name = "Root" ∧
      ∀ p k n, t.nodeAt (p ++ [k]) = some n → n.Name = k) ∧
    (∀ (root : TemplateSet) fuel n r,
      extractFieldsFromTemplate root fuel n (newTemplateField "Root") = some r →
      r.Name = "Root" ∧ ∀ p k m, r.nodeAt (p ++ [k]) = some m → m.Name = k) ∧
    (∀ v r, extractFieldsFromStruct v = .returned r →
      r.Name = "Root" ∧ ∀ p k m, r.nodeAt (p ++ [k]) = some m → m.Name = k) ∧
    (∀ data tmpl templateName fuel missing extra,
      CompareViewModel data tmpl templateName fuel = .returned (missing, extra) →
      ∃ tree T D, tmpl.Lookup templateName = some ⟨some tree⟩ ∧
        extractFieldsFromTemplate tmpl fuel (.ListNode tree.Root) (newTemplateField "Root") =
          some T ∧
        extractFieldsFromStruct data = .returned D ∧
        compareTemplateFields T D = (missing, extra) ∧
        (∀ p t d, T.nodeAt p = some t → D.nodeAt p = some d → t.Name = d.Name) ∧
        (∃ ps : List (List String × String), ps.Nodup ∧ (∀ pc, pc ∈ ps ↔ IsMissing T D pc) ∧
          missing.Perm (ps.map lastSegmentEntry)) ∧
        (∃ ps : List (List String × String), ps.Nodup ∧ (∀ pc, pc ∈ ps ↔ IsExtra T D pc) ∧
          extra.Perm (ps.map lastSegmentEntry))) ∧
    (∀ fuel, CompareViewModel (some shapeTwins)
        (singleTemplate [fieldAction ["A", "X", "Y"], fieldAction ["B", "X", "Y"]]) "main"
        (fuel + 2) = .returned (["X->Y", "X->Y"], [])) ∧
    lastSegmentEntry (["A", "X"], "Y") = "X->Y" ∧ lastSegmentEntry ([], "Y") = "Root->Y" := by
  refine ⟨?_, ?_, ?_, ?_, fun _ => rfl, by decide, by decide⟩
  · intro t ht
    obtain ⟨h1, h2⟩ := keyNamed_built t ht
    exact ⟨h2, keyNamed_name t h1⟩
  · intro root fuel n r hr
    obtain ⟨h1, h2⟩ := keyNamed_extract root fuel n _ r (keyNamed_new "Root") hr
    exact ⟨h2, keyNamed_name r h1⟩
  · intro v r hr
    cases v with
    | none => simp [extractFieldsFromStruct] at hr
    | some typ =>
      simp only [extractFieldsFromStruct, Outcome.returned.injEq] at hr
      obtain ⟨h1, h2⟩ := keyNamed_extractHelper typ _ (keyNamed_new "Root")
      rw [← hr]
      exact ⟨h2, keyNamed_name _ h1⟩
  · intro data tmpl templateName fuel missing extra h
    obtain ⟨tree, typ, T, hl, hdata, hT, hme⟩ := compare_trees _ _ _ _ _ h
    obtain ⟨hTk, hTn⟩ := keyNamed_extract tmpl fuel _ _ T (keyNamed_new "Root") hT
    obtain ⟨hDk, hDn⟩ := keyNamed_extractHelper typ _ (keyNamed_new "Root")
    have hTw := wf_extract tmpl fuel _ _ T (wf_newTemplateField "Root") hT
    have hDw := wf_extractHelper typ _ (wf_newTemplateField "Root")
    refine ⟨tree, T, extractHelper typ (newTemplateField "Root"), hl, hT, ?_, hme.symm,
      ?_, ?_, ?_⟩
    · rw [hdata]; rfl
    · intro p t d ht hd
      rcases List.eq_nil_or_concat p with rfl | ⟨q, k, rfl⟩
      · rw [nodeAt_nil] at ht hd
        cases ht; cases hd
        exact hTn.trans hDn.symm
      · rw [keyNamed_name T hTk q k t (by simpa using ht),
          keyNamed_name _ hDk q k d (by simpa using hd)]
    · refine ⟨missingPairs T _, nodup_missingPairs T hTw _, mem_missingPairs T hTw _, ?_⟩
      have h1 : missing = (compareTemplateFields T
          (extractHelper typ (newTemplateField "Root"))).1 := by rw [← hme]
      rw [h1, compare_missing_eq]
      refine List.Perm.of_eq (List.map_congr_left ?_)
      intro pc hpc
      obtain ⟨_, d, _, hd, _, _⟩ := (mem_missingPairs T hTw _ pc).1 hpc
      exact entryAt_lastSegment _ hDk hDn pc d hd
    · refine ⟨extraPairs T _, nodup_extraPairs T hTw _ hDw, mem_extraPairs T hTw _, ?_⟩
      have h1 : extra = (compareTemplateFields T
          (extractHelper typ (newTemplateField "Root"))).2 := by rw [← hme]
      rw [h1, compare_extra_eq T hTw]
      refine List.Perm.of_eq (List.map_congr_left ?_)
      intro pc hpc
      obtain ⟨t, _, ht, _, _, _⟩ := (mem_extraPairs T hTw _ pc).1 hpc
      exact entryAt_lastSegment _ hTk hTn pc t ht

/-! ## What the template walk registers -/

theorem nodeAt_setChild_self (t : templateField) (k : String) (c c' : templateField)
    (q : List String) (h : t.Children.lookup k = some c) :
    (templateField.mk t.Name (setChild t.Children k c')).nodeAt (k :: q) = c'.nodeAt q := by
  rw [nodeAt_cons, Children_mk, lookup_setChild_self _ _ _ _ h]
  rfl

theorem nodeAt_setChild_ne (t : templateField) (k k' : String) (c' : templateField)
    (q : List String) (h : k' ≠ k) :
    (templateField.mk t.Name (setChild t.Children k c')).nodeAt (k' :: q) =
      t.nodeAt (k' :: q) := by
  rw [nodeAt_cons, nodeAt_cons, Children_mk, lookup_setChild_ne _ _ _ _ h]

theorem mono_modifyAtM (f : templateField → Option templateField)
    (hf : ∀ t r, f t = some r → ∀ p, (t.nodeAt p).isSome = true → (r.nodeAt p).isSome = true) :
    ∀ (path : List String) (t r : templateField), t.modifyAtM f path = some r →
      ∀ p, (t.nodeAt p).isSome = true → (r.nodeAt p).isSome = true := by
  intro path
  induction path with
  | nil => intro t r hr; rw [modifyAtM_nil] at hr; exact hf t r hr
  | cons k ks ih =>
    intro t r hr p hp
    rw [modifyAtM_cons] at hr
    cases h : t.Children.lookup k with
    | none =>
      simp only [h, Option.some.injEq] at hr
      rw [← hr]; exact hp
    | some c =>
      simp only [h] at hr
      cases h2 : c.modifyAtM f ks with
      | none => simp [h2] at hr
      | some c' =>
        simp only [h2, Option.some.injEq] at hr
        rw [← hr]
        cases p with
        | nil => simp [nodeAt_nil]
        | cons k' q =>
          by_cases hk : k' = k
          · subst hk
            rw [nodeAt_setChild_self t k' c c' q h]
            rw [nodeAt_cons, h] at hp
            exact ih c c' h2 q hp
          · rw [nodeAt_setChild_ne t k k' c' q hk]
            exact hp

theorem mono_registerAll (idents : List (List String)) (t : templateField) (p : List String)
    (hp : (t.nodeAt p).isSome = true) : ((idents.foldl registerPath t).nodeAt p).isSome = true :=
  (registerAll_isSome idents t p).2 (Or.inl hp)

theorem mono_extract (root : TemplateSet) : ∀ (fuel : Nat) (n : Node) (pf r : templateField),
    extractFieldsFromTemplate root fuel n pf = some r →
      ∀ p, (pf.nodeAt p).isSome = true → (r.nodeAt p).isSome = true := by
  intro fuel
  induction fuel with
  | zero => intro n pf r h; simp [extractFieldsFromTemplate] at h
  | succ fuel ih =>
    intro n pf r h p hp
    cases n with
    | FieldNode Ident =>
      simp only [extractFieldsFromTemplate, Option.some.injEq] at h
      rw [← h]; exact hp
    | DotNode =>
      simp only [extractFieldsFromTemplate, Option.some.injEq] at h
      rw [← h]; exact hp
    | OtherNode =>
      simp only [extractFieldsFromTemplate, Option.some.injEq] at h
      rw [← h]; exact hp
    | PipeNode Cmds =>
      rw [extract_pipe_eq] at h
      cases h
      exact mono_registerAll _ pf p hp
    | ActionNode Pipe =>
      rw [extract_action_eq] at h
      cases h
      exact mono_registerAll _ pf p hp
    | TemplateNode Name Pipe =>
      cases Pipe with
      | none =>
        simp only [extractFieldsFromTemplate] at h
        split at h
        · exact ih _ _ _ h p hp
        · cases h; exact hp
      | some Cmds =>
        simp only [extractFieldsFromTemplate] at h
        refine foldlM_inv (fun t => (t.nodeAt p).isSome = true) _ Cmds ?_ pf r hp h
        intro a cmd _ r1 ha h1
        refine foldlM_inv (fun t => (t.nodeAt p).isSome = true) _ cmd ?_ a r1 ha h1
        intro a arg _ r2 ha h2
        cases arg with
        | FieldNode Ident =>
          have hd : (((descend a Ident).1).nodeAt p).isSome = true := by
            rw [descend_eq]
            exact (registerPath_isSome _ a p).2 (Or.inl ha)
          dsimp only at h2
          split at h2
          · exact mono_modifyAtM _ (fun t r hr => ih _ t r hr) _ _ _ h2 p hd
          · cases h2; exact hd
        | DotNode =>
          dsimp only at h2
          split at h2
          · exact ih _ _ _ h2 p ha
          · cases h2; exact ha
        | _ => cases h2; exact ha
    | ListNode Nodes =>
      simp only [extractFieldsFromTemplate] at h
      exact foldlM_inv (fun t => (t.nodeAt p).isSome = true) _ Nodes
        (fun a b _ r ha hr => ih b a r hr p ha) pf r hp h
    | IfNode _ list elseList =>
      simp only [extractFieldsFromTemplate] at h
      split at h
      · cases h
      · rename_i pf1 h1
        have hpf1 := ih _ _ _ h1 p hp
        split at h
        · exact ih _ _ _ h p hpf1
        · cases h; exact hpf1
    | RangeNode Pipe _ _ =>
      simp only [extractFieldsFromTemplate] at h
      exact ih _ _ _ h p hp
    | WithNode _ list _ =>
      simp only [extractFieldsFromTemplate] at h
      exact ih _ _ _ h p hp

theorem extract_include_eq (root : TemplateSet) (fuel : Nat) (Name : String)
    (Cmds : List (List Node)) (s : templateField) :
    extractFieldsFromTemplate root (fuel + 1) (.TemplateNode Name (some Cmds)) s =
      Cmds.foldlM (fun pf cmd => cmd.foldlM (includeArg root fuel Name) pf) s := by
  simp only [extractFieldsFromTemplate]
  rfl

theorem includeArg_field (root : TemplateSet) (fuel : Nat) (Name : String)
    (pf : templateField) (Ident : List String) :
    includeArg root fuel Name pf (.FieldNode Ident) =
      match root.Lookup Name with
      | some ⟨some tree⟩ =>
        (registerPath pf Ident).modifyAtM
          (extractFieldsFromTemplate root fuel (.ListNode tree.Root)) Ident
      | _ => some (registerPath pf Ident) := by
  simp only [includeArg, descend_eq]

theorem includeArg_dot (root : TemplateSet) (fuel : Nat) (Name : String)
    (pf : templateField) :
    includeArg root fuel Name pf .DotNode =
      match root.Lookup Name with
      | some ⟨some tree⟩ => extractFieldsFromTemplate root fuel (.ListNode tree.Root) pf
      | _ => some pf := by
  simp only [includeArg]

theorem includeArg_other (root : TemplateSet) (fuel : Nat) (Name : String)
    (pf : templateField) (arg : Node) (h1 : ∀ Ident, arg ≠ .FieldNode Ident)
    (h2 : arg ≠ .DotNode) : includeArg root fuel Name pf arg = some pf := by
  cases arg <;> first | rfl | exact absurd rfl (h1 _) | exact absurd rfl h2

theorem mono_includeArg (root : TemplateSet) (fuel : Nat) (Name : String)
    (a r : templateField) (arg : Node) (h : includeArg root fuel Name a arg = some r)
    (p : List String) (hp : (a.nodeAt p).isSome = true) : (r.nodeAt p).isSome = true := by
  cases arg with
  | FieldNode Ident =>
    rw [includeArg_field] at h
    have hd : ((registerPath a Ident).nodeAt p).isSome = true :=
      (registerPath_isSome _ a p).2 (Or.inl hp)
    split at h
    · exact mono_modifyAtM _ (fun t r hr => mono_extract root fuel _ t r hr) _ _ _ h p hd
    · cases h; exact hd
  | DotNode =>
    rw [includeArg_dot] at h
    split at h
    · exact mono_extract root fuel _ _ _ h p hp
    · cases h; exact hp
  | _ => cases h; exact hp

theorem mono_includeCmd (root : TemplateSet) (fuel : Nat) (Name : String)
    (cmd : List Node) (a r : templateField)
    (h : cmd.foldlM (includeArg root fuel Name) a = some r)
    (p : List String) (hp : (a.nodeAt p).isSome = true) : (r.nodeAt p).isSome = true :=
  foldlM_inv (fun t => (t.nodeAt p).isSome = true) _ cmd
    (fun a arg _ r ha hr => mono_includeArg root fuel Name a r arg hr p ha) a r hp h

theorem foldlM_reach {α β : Type} (Q : α → Prop) (f : α → β → Option α) (l : List β)
    (b : β) (hb : b ∈ l) (hstep : ∀ a b' r, f a b' = some r → Q a → Q r)
    (hhit : ∀ a r, f a b = some r → Q r) : ∀ a r, l.foldlM f a = some r → Q r := by
  induction l with
  | nil => cases hb
  | cons x rest ih =>
    intro a r hr
    simp only [List.foldlM_cons] at hr
    cases hx : f a x with
    | none => simp [hx] at hr
    | some a' =>
      simp only [hx, Option.some_bind] at hr
      rcases List.mem_cons.1 hb with rfl | hm
      · exact foldlM_inv Q f rest (fun a b' _ r ha hr => hstep a b' r hr ha) a' r
          (hhit a a' hx) hr
      · exact ih hm a' r hr

theorem include_reach (root : TemplateSet) (fuel : Nat) (Name : String)
    (Cmds : List (List Node)) (cmd : List Node) (arg : Node) (hcmd : cmd ∈ Cmds)
    (harg : arg ∈ cmd) (p : List String)
    (hhit : ∀ a r, includeArg root fuel Name a arg = some r → (r.nodeAt p).isSome = true)
    (s r : templateField)
    (h : extractFieldsFromTemplate root (fuel + 1) (.TemplateNode Name (some Cmds)) s =
      some r) : (r.nodeAt p).isSome = true := by
  rw [extract_include_eq] at h
  refine foldlM_reach (fun t => (t.nodeAt p).isSome = true) _ Cmds cmd hcmd ?_ ?_ s r h
  · intro a cmd' r1 h1 ha
    exact mono_includeCmd root fuel Name cmd' a r1 h1 p ha
  · intro a r1 h1
    exact foldlM_reach (fun t => (t.nodeAt p).isSome = true) _ cmd arg harg
      (fun a arg' r hr ha => mono_includeArg root fuel Name a r arg' hr p ha) hhit a r1 h1

theorem registers_sound (root : TemplateSet) (n : Node) (p : List String)
    (h : Registers root n p) : ∀ (fuel : Nat) (s r : templateField),
    extractFieldsFromTemplate root fuel n s = some r → (r.nodeAt p).isSome = true := by
  induction h with
  | pipe Cmds cmd Ident hcmd harg =>
    intro fuel s r hr
    cases fuel with
    | zero => simp [extractFieldsFromTemplate] at hr
    | succ fuel =>
      rw [extract_pipe_eq] at hr
      cases hr
      exact (registerAll_isSome _ s Ident).2
        (Or.inr ⟨Ident, (mem_fieldArgs Cmds Ident).2 ⟨cmd, hcmd, harg⟩, List.prefix_refl _⟩)
  | action Pipe cmd Ident hcmd harg =>
    intro fuel s r hr
    cases fuel with
    | zero => simp [extractFieldsFromTemplate] at hr
    | succ fuel =>
      rw [extract_action_eq] at hr
      cases hr
      exact (registerAll_isSome _ s Ident).2
        (Or.inr ⟨Ident, (mem_fieldArgs Pipe Ident).2 ⟨cmd, hcmd, harg⟩, List.prefix_refl _⟩)
  | templateArg Name Cmds cmd Ident hcmd harg =>
    intro fuel s r hr
    cases fuel with
    | zero => simp [extractFieldsFromTemplate] at hr
    | succ fuel =>
      refine include_reach root fuel Name Cmds cmd _ hcmd harg Ident ?_ s r hr
      intro a r1 h1
      rw [includeArg_field] at h1
      have hd : ((registerPath a Ident).nodeAt Ident).isSome = true :=
        (registerPath_isSome _ a Ident).2 (Or.inr (List.prefix_refl _))
      split at h1
      · exact mono_modifyAtM _ (fun t r hr => mono_extract root fuel _ t r hr) _ _ _ h1 _ hd
      · cases h1; exact hd
  | includeField Name Cmds cmd Ident tree p hcmd harg hl _ ih =>
    intro fuel s r hr
    cases fuel with
    | zero => simp [extractFieldsFromTemplate] at hr
    | succ fuel =>
      refine include_reach root fuel Name Cmds cmd _ hcmd harg (Ident ++ p) ?_ s r hr
      intro a r1 h1
      rw [includeArg_field] at h1
      simp only [hl] at h1
      obtain ⟨node, hnode⟩ := registerPath_resolves a Ident
      rw [modifyAtM_eq _ _ _ node hnode] at h1
      cases hb : extractFieldsFromTemplate root fuel (.ListNode tree.Root) node with
      | none => simp [hb] at h1
      | some b =>
        simp only [hb, Option.map_some', Option.some.injEq] at h1
        rw [← h1, nodeAt_append, nodeAt_modifyAt_self b Ident _ node hnode]
        exact ih fuel node b hb
  | includeDot Name Cmds cmd tree p hcmd harg hl _ ih =>
    intro fuel s r hr
    cases fuel with
    | zero => simp [extractFieldsFromTemplate] at hr
    | succ fuel =>
      refine include_reach root fuel Name Cmds cmd _ hcmd harg p ?_ s r hr
      intro a r1 h1
      rw [includeArg_dot] at h1
      simp only [hl] at h1
      exact ih fuel a r1 h1
  | includeNone Name tree p hl _ ih =>
    intro fuel s r hr
    cases fuel with
    | zero => simp [extractFieldsFromTemplate] at hr
    | succ fuel =>
      simp only [extractFieldsFromTemplate, hl] at hr
      exact ih fuel s r hr
  | list Nodes n p hn _ ih =>
    intro fuel s r hr
    cases fuel with
    | zero => simp [extractFieldsFromTemplate] at hr
    | succ fuel =>
      simp only [extractFieldsFromTemplate] at hr
      exact foldlM_reach (fun t => (t.nodeAt p).isSome = true) _ Nodes n hn
        (fun a b r hr ha => mono_extract root fuel b a r hr p ha)
        (fun a r hr => ih fuel a r hr) s r hr
  | ifList Pipe l e p _ ih =>
    intro fuel s r hr
    cases fuel with
    | zero => simp [extractFieldsFromTemplate] at hr
    | succ fuel =>
      simp only [extractFieldsFromTemplate] at hr
      split at hr
      · cases hr
      · rename_i pf1 h1
        have hpf1 := ih fuel s pf1 h1
        split at hr
        · exact mono_extract root fuel _ _ _ hr p hpf1
        · cases hr; exact hpf1
  | ifElse Pipe l el p _ ih =>
    intro fuel s r hr
    cases fuel with
    | zero => simp [extractFieldsFromTemplate] at hr
    | succ fuel =>
      simp only [extractFieldsFromTemplate] at hr
      split at hr
      · cases hr
      · exact ih fuel _ r hr
  | range Pipe l e p _ ih =>
    intro fuel s r hr
    cases fuel with
    | zero => simp [extractFieldsFromTemplate] at hr
    | succ fuel =>
      simp only [extractFieldsFromTemplate] at hr
      exact ih fuel s r hr
  | withList Pipe l e p _ ih =>
    intro fuel s r hr
    cases fuel with
    | zero => simp [extractFieldsFromTemplate] at hr
    | succ fuel =>
      simp only [extractFieldsFromTemplate] at hr
      exact ih fuel s r hr

theorem nodeAt_isSome_of_append (t : templateField) (q u : List String)
    (h : (t.nodeAt (q ++ u)).isSome = true) : (t.nodeAt q).isSome = true := by
  rw [nodeAt_append] at h
  cases hq : t.nodeAt q with
  | none => simp [hq] at h
  | some n => rfl

/-- What the walk does register: when the walk of a node at a scope returns,
every field access that the walker reaches has its path, and every leading part
of it, registered below that scope: the arguments of action pipes, of range
pipes and of inclusions, in lists, in both branches of if nodes and in the
bodies of with nodes, and, below the scope that an inclusion passes on, in the
bodies of the included templates. -/
theorem extractFieldsFromTemplate_registers (root : TemplateSet) (n : Node)
    (p : List String) (fuel : Nat) (s r : templateField) (hp : Registers root n p)
    (hr : extractFieldsFromTemplate root fuel n s = some r) :
    (r.nodeAt p).isSome = true ∧ ∀ q u, p = q ++ u → (r.nodeAt q).isSome = true := by
  have h := registers_sound root n p hp fuel s r hr
  refine ⟨h, ?_⟩
  intro q u hq
  rw [hq] at h
  exact nodeAt_isSome_of_append r q u h

theorem extractFieldsFromTemplate_registers_witness :
    Registers (twoTemplates includeInnerBody [fieldAction ["Field"]])
      (.ListNode includeInnerBody) ["Inner", "Field"] ∧
    extractFieldsFromTemplate (twoTemplates includeInnerBody [fieldAction ["Field"]]) 4
      (.ListNode includeInnerBody) (newTemplateField "Root") =
      some (.mk "Root" [("Inner", .mk "Inner" [("Field", .mk "Field" [])])]) ∧
    ((templateField.mk "Root" [("Inner", .mk "Inner" [("Field", .mk "Field" [])])]).nodeAt
      ["Inner", "Field"]).isSome = true :=
  have hreg : Registers (twoTemplates includeInnerBody [fieldAction ["Field"]])
      (.ListNode includeInnerBody) ["Inner", "Field"] :=
    Registers.list _ _ _ (List.mem_cons_self _ _)
      (Registers.includeField "sub" _ _ ["Inner"] ⟨[fieldAction ["Field"]]⟩ ["Field"]
        (List.mem_cons_self _ _) (List.mem_cons_self _ _) rfl
        (Registers.list _ _ _ (List.mem_cons_self _ _)
          (Registers.action _ _ _ (List.mem_cons_self _ _) (List.mem_cons_self _ _))))
  ⟨hreg, rfl,
    (extractFieldsFromTemplate_registers _ _ _ 4 (newTemplateField "Root") _ hreg rfl).1⟩

/-- C11: in `if .Cond` ... `.Shown` ... `end` the field access `.Cond` occurs
in the body, yet the walk from the root returns the tree with the only child
`Shown` and the path `Cond` is registered nowhere: the `IfNode` case walks the
two lists and never the pipe of the node. `CompareViewModel` therefore reports
the data shape with exactly the fields `Cond` and `Shown` with the extra field
`Root->Cond`. The `RangeNode` case, next to it, does walk the pipe: the walk of
`range .Items` ... `end` registers `Items`. -/
theorem if_condition_not_registered :
    Mentions (.ListNode ifBody) ["Cond"] ∧
    (∀ fuel, extractFieldsFromTemplate (singleTemplate ifBody) (fuel + 4) (.ListNode ifBody)
      (newTemplateField "Root") = some (.mk "Root" [("Shown", .mk "Shown" [])])) ∧
    (templateField.mk "Root" [("Shown", .mk "Shown" [])]).nodeAt ["Cond"] = none ∧
    (∀ fuel, CompareViewModel (some shapeCondShown) (singleTemplate ifBody) "main" (fuel + 4) =
      .returned ([], ["Root->Cond"])) ∧
    (∀ fuel, extractFieldsFromTemplate (singleTemplate [rangeItems]) (fuel + 3)
      (.ListNode [rangeItems]) (newTemplateField "Root") =
        some (.mk "Root" [("Items", .mk "Items" [])])) ∧
    ¬ (∀ (root : TemplateSet) (n : Node) (Ident : List String) (fuel : Nat)
        (s r : templateField), Mentions n Ident →
        extractFieldsFromTemplate root fuel n s = some r → (r.nodeAt Ident).isSome = true) := by
  have hm : Mentions (.ListNode ifBody) ["Cond"] :=
    Mentions.list _ _ _ (List.mem_cons_self _ _)
      (Mentions.ifPipe _ _ _ _
        (Mentions.pipe _ _ _ _ (List.mem_cons_self _ _) (List.mem_cons_self _ _)
          (Mentions.field _)))
  refine ⟨hm, fun _ => rfl, rfl, fun _ => rfl, fun _ => rfl, ?_⟩
  intro h
  have h2 := h (singleTemplate ifBody) (.ListNode ifBody) ["Cond"] 4
    (newTemplateField "Root") _ hm rfl
  revert h2
  decide

/-- C17, amended: the walk of a with node at the scope `s` is the walk of its
body at `s`, so every field access the walk of the body reaches is registered
as a path under `s`; the walk of a range node at `s` is the walk of its pipe at
`s`: it registers under `s` the field accesses of the range pipe, whatever the
body and the else-branch are. -/
theorem extractFieldsFromTemplate_with_range (root : TemplateSet)
    (Pipe : List (List Node)) (l : List Node) (e : Option (List Node)) (s : templateField) :
    (∀ fuel, extractFieldsFromTemplate root (fuel + 1) (.WithNode Pipe l e) s =
      extractFieldsFromTemplate root fuel (.ListNode l) s) ∧
    (∀ p fuel r, Registers root (.ListNode l) p →
      extractFieldsFromTemplate root fuel (.WithNode Pipe l e) s = some r →
      (r.nodeAt p).isSome = true) ∧
    (∀ fuel, extractFieldsFromTemplate root (fuel + 1) (.RangeNode Pipe l e) s =
      extractFieldsFromTemplate root fuel (.PipeNode Pipe) s) ∧
    (∀ fuel l' e', extractFieldsFromTemplate root (fuel + 2) (.RangeNode Pipe l e) s =
      extractFieldsFromTemplate root (fuel + 2) (.RangeNode Pipe l' e') s) ∧
    (∀ fuel, ∃ r, extractFieldsFromTemplate root (fuel + 2) (.RangeNode Pipe l e) s = some r ∧
      ∀ p, (r.nodeAt p).isSome = true ↔ (s.nodeAt p).isSome = true ∨
        ∃ cmd ∈ Pipe, ∃ Ident, Node.FieldNode Ident ∈ cmd ∧ p <+: Ident) ∧
    (∀ fuel, extractFieldsFromTemplate root (fuel + 3) withUser (newTemplateField "Root") =
      some (.mk "Root" [("Name", .mk "Name" [])])) := by
  refine ⟨fun _ => by simp only [extractFieldsFromTemplate], ?_,
    fun _ => by simp only [extractFieldsFromTemplate], ?_, ?_, fun _ => rfl⟩
  · intro p fuel r hp hr
    exact registers_sound root _ p (Registers.withList Pipe l e p hp) fuel s r hr
  · intro fuel l' e'
    simp only [extractFieldsFromTemplate]
  · intro fuel
    refine ⟨(fieldArgs Pipe).foldl registerPath s, ?_, ?_⟩
    · have h1 : extractFieldsFromTemplate root (fuel + 2) (.RangeNode Pipe l e) s =
          extractFieldsFromTemplate root (fuel + 1) (.PipeNode Pipe) s := by
        simp only [extractFieldsFromTemplate]
      rw [h1, extract_pipe_eq]
    · intro p
      rw [registerAll_isSome]
      constructor
      · rintro (h | ⟨Ident, hI, hpre⟩)
        · exact Or.inl h
        · obtain ⟨cmd, hcmd, harg⟩ := (mem_fieldArgs Pipe Ident).1 hI
          exact Or.inr ⟨cmd, hcmd, Ident, harg, hpre⟩
      · rintro (h | ⟨cmd, hcmd, Ident, harg, hpre⟩)
        · exact Or.inl h
        · exact Or.inr ⟨Ident, (mem_fieldArgs Pipe Ident).2 ⟨cmd, hcmd, harg⟩, hpre⟩

/-- C17 fails for a range node: in `range .Items` ... `.Name` ... `end` the
field access `.Name` occurs in the body, the walk at the root returns the tree
with the only child `Items`, and the path `Name` is not in it. -/
theorem range_body_not_registered :
    Mentions (.ListNode [fieldAction ["Name"]]) ["Name"] ∧
    (∀ fuel, extractFieldsFromTemplate (singleTemplate [rangeItems]) (fuel + 2) rangeItems
      (newTemplateField "Root") = some (.mk "Root" [("Items", .mk "Items" [])])) ∧
    (templateField.mk "Root" [("Items", .mk "Items" [])]).nodeAt ["Name"] = none ∧
    ¬ (∀ (root : TemplateSet) (Pipe : List (List Node)) (l : List Node)
        (e : Option (List Node)) (Ident : List String) (fuel : Nat) (s r : templateField),
        Mentions (.ListNode l) Ident →
        extractFieldsFromTemplate root fuel (.RangeNode Pipe l e) s = some r →
        (r.nodeAt Ident).isSome = true) := by
  have hm : Mentions (.ListNode [fieldAction ["Name"]]) ["Name"] :=
    Mentions.list _ _ _ (List.mem_cons_self _ _)
      (Mentions.action _ _
        (Mentions.pipe _ _ _ _ (List.mem_cons_self _ _) (List.mem_cons_self _ _)
          (Mentions.field _)))
  refine ⟨hm, fun _ => rfl, rfl, ?_⟩
  intro h
  have h2 := h (singleTemplate [rangeItems]) [[.FieldNode ["Items"]]] [fieldAction ["Name"]]
    none ["Name"] 2 (newTemplateField "Root") _ hm rfl
  revert h2
  decide

/-! ## Termination of the template walk -/

theorem foldlM_mono_fn {α β : Type} (f g : α → β → Option α) (l : List β)
    (h : ∀ a, ∀ b ∈ l, ∀ r, f a b = some r → g a b = some r) :
    ∀ a r, l.foldlM f a = some r → l.foldlM g a = some r := by
  induction l with
  | nil => intro a r hr; exact hr
  | cons b rest ih =>
    intro a r hr
    simp only [List.foldlM_cons] at hr ⊢
    cases hb : f a b with
    | none => simp [hb] at hr
    | some a' =>
      have hg := h a b (List.mem_cons_self _ _) a' hb
      simp only [hb, hg, Option.some_bind, Option.bind_eq_bind] at hr ⊢
      exact ih (fun a b' hb' => h a b' (List.mem_cons_of_mem _ hb')) a' r hr

theorem modifyAtM_mono_fn (f g : templateField → Option templateField)
    (h : ∀ t r, f t = some r → g t = some r) :
    ∀ (path : List String) (t r : templateField), t.modifyAtM f path = some r →
      t.modifyAtM g path = some r := by
  intro path
  induction path with
  | nil => intro t r hr; rw [modifyAtM_nil] at hr ⊢; exact h t r hr
  | cons k ks ih =>
    intro t r hr
    rw [modifyAtM_cons] at hr ⊢
    cases hl : t.Children.lookup k with
    | none => simpa [hl] using hr
    | some c =>
      cases h2 : c.modifyAtM f ks with
      | none => simp [hl, h2] at hr
      | some c' =>
        simp only [hl, h2] at hr
        simp only [ih c c' h2]
        exact hr

theorem lookup_cases (root : TemplateSet) (Name : String) :
    root.Lookup Name = none ∨ root.Lookup Name = some ⟨none⟩ ∨
      ∃ tree, root.Lookup Name = some ⟨some tree⟩ := by
  cases h : root.Lookup Name with
  | none => exact Or.inl rfl
  | some tm =>
    obtain ⟨tr⟩ := tm
    cases tr with
    | none => exact Or.inr (Or.inl rfl)
    | some tree => exact Or.inr (Or.inr ⟨tree, rfl⟩)

theorem extract_if_eq (root : TemplateSet) (fuel : Nat) (Pipe : List (List Node))
    (l : List Node) (e : Option (List Node)) (s : templateField) :
    extractFieldsFromTemplate root (fuel + 1) (.IfNode Pipe l e) s =
      match extractFieldsFromTemplate root fuel (.ListNode l) s with
      | none => none
      | some pf =>
        match e with
        | some el => extractFieldsFromTemplate root fuel (.ListNode el) pf
        | none => some pf := by
  rfl

theorem extract_with_eq (root : TemplateSet) (fuel : Nat) (Pipe : List (List Node))
    (l : List Node) (e : Option (List Node)) (s : templateField) :
    extractFieldsFromTemplate root (fuel + 1) (.WithNode Pipe l e) s =
      extractFieldsFromTemplate root fuel (.ListNode l) s := by
  rfl

theorem extract_range_eq (root : TemplateSet) (fuel : Nat) (Pipe : List (List Node))
    (l : List Node) (e : Option (List Node)) (s : templateField) :
    extractFieldsFromTemplate root (fuel + 1) (.RangeNode Pipe l e) s =
      extractFieldsFromTemplate root fuel (.PipeNode Pipe) s := by
  rfl

theorem extract_include_none_eq (root : TemplateSet) (fuel : Nat) (Name : String)
    (s : templateField) :
    extractFieldsFromTemplate root (fuel + 1) (.TemplateNode Name none) s =
      match root.Lookup Name with
      | some ⟨some tree⟩ => extractFieldsFromTemplate root fuel (.ListNode tree.Root) s
      | _ => some s := by
  rfl

theorem extract_list_eq (root : TemplateSet) (fuel : Nat) (Nodes : List Node)
    (s : templateField) :
    extractFieldsFromTemplate root (fuel + 1) (.ListNode Nodes) s =
      Nodes.foldlM (fun pf child => extractFieldsFromTemplate root fuel child pf) s := by
  rfl

theorem includeArg_mono_fuel (root : TemplateSet) (fuel : Nat) (Name : String)
    (ih : ∀ n s r, extractFieldsFromTemplate root fuel n s = some r →
      extractFieldsFromTemplate root (fuel + 1) n s = some r)
    (a r : templateField) (arg : Node) (h : includeArg root fuel Name a arg = some r) :
    includeArg root (fuel + 1) Name a arg = some r := by
  cases arg with
  | FieldNode Ident =>
    rw [includeArg_field] at h ⊢
    rcases lookup_cases root Name with hl | hl | ⟨tree, hl⟩
    · simpa [hl] using h
    · simpa [hl] using h
    · simp only [hl] at h ⊢
      exact modifyAtM_mono_fn _ _ (fun t r hr => ih _ t r hr) _ _ _ h
  | DotNode =>
    rw [includeArg_dot] at h ⊢
    rcases lookup_cases root Name with hl | hl | ⟨tree, hl⟩
    · simpa [hl] using h
    · simpa [hl] using h
    · simp only [hl] at h ⊢
      exact ih _ _ _ h
  | _ => exact h

theorem extract_fuel_succ (root : TemplateSet) : ∀ (fuel : Nat) (n : Node)
    (s r : templateField), extractFieldsFromTemplate root fuel n s = some r →
      extractFieldsFromTemplate root (fuel + 1) n s = some r := by
  intro fuel
  induction fuel with
  | zero => intro n s r h; simp [extractFieldsFromTemplate] at h
  | succ fuel ih =>
    intro n s r h
    cases n with
    | FieldNode Ident => exact h
    | DotNode => exact h
    | OtherNode => exact h
    | PipeNode Cmds => rw [extract_pipe_eq] at h ⊢; exact h
    | ActionNode Pipe => rw [extract_action_eq] at h ⊢; exact h
    | TemplateNode Name Pipe =>
      cases Pipe with
      | none =>
        rw [extract_include_none_eq] at h ⊢
        rcases lookup_cases root Name with hl | hl | ⟨tree, hl⟩
        · simpa [hl] using h
        · simpa [hl] using h
        · simp only [hl] at h ⊢
          exact ih _ _ _ h
      | some Cmds =>
        rw [extract_include_eq] at h ⊢
        refine foldlM_mono_fn _ _ Cmds ?_ s r h
        intro a cmd _ r1 h1
        exact foldlM_mono_fn _ _ cmd
          (fun a arg _ r hr => includeArg_mono_fuel root fuel Name ih a r arg hr) a r1 h1
    | ListNode Nodes =>
      rw [extract_list_eq] at h ⊢
      exact foldlM_mono_fn _ _ Nodes (fun a b _ r hr => ih b a r hr) s r h
    | IfNode _ list elseList =>
      rw [extract_if_eq] at h ⊢
      cases h1 : extractFieldsFromTemplate root fuel (.ListNode list) s with
      | none => simp [h1] at h
      | some pf1 =>
        simp only [h1] at h
        simp only [ih _ _ _ h1]
        cases elseList with
        | none => exact h
        | some el => exact ih _ _ _ h
    | RangeNode Pipe _ _ =>
      rw [extract_range_eq] at h ⊢
      exact ih _ _ _ h
    | WithNode _ list _ =>
      rw [extract_with_eq] at h ⊢
      exact ih _ _ _ h

theorem extract_fuel_le (root : TemplateSet) (n : Node) (s r : templateField)
    (fuel fuel' : Nat) (hle : fuel ≤ fuel')
    (h : extractFieldsFromTemplate root fuel n s = some r) :
    extractFieldsFromTemplate root fuel' n s = some r := by
  induction hle with
  | refl => exact h
  | step _ ih => exact extract_fuel_succ root _ n s r ih

theorem fuel_le_of_succ {α β : Type} (f : Nat → α → β → Option α)
    (hmono : ∀ k a b r, f k a b = some r → f (k + 1) a b = some r)
    (k k' : Nat) (hle : k ≤ k') (a : α) (b : β) (r : α) (h : f k a b = some r) :
    f k' a b = some r := by
  induction hle with
  | refl => exact h
  | step _ ih => exact hmono _ a b r ih

theorem foldlM_terminates {α β : Type} (f : Nat → α → β → Option α)
    (hmono : ∀ k a b r, f k a b = some r → f (k + 1) a b = some r)
    (l : List β) (h : ∀ b ∈ l, ∀ a, ∃ k r, f k a b = some r) :
    ∀ a, ∃ k r, l.foldlM (f k) a = some r := by
  induction l with
  | nil => intro a; exact ⟨0, a, rfl⟩
  | cons b rest ih =>
    intro a
    obtain ⟨k1, r1, h1⟩ := h b (List.mem_cons_self _ _) a
    obtain ⟨k2, r2, h2⟩ := ih (fun b' hb' => h b' (List.mem_cons_of_mem _ hb')) r1
    refine ⟨max k1 k2, r2, ?_⟩
    have h1' := fuel_le_of_succ f hmono k1 (max k1 k2) (le_max_left _ _) a b r1 h1
    have h2' := foldlM_mono_fn (f k2) (f (max k1 k2)) rest
      (fun a b _ r hr => fuel_le_of_succ f hmono k2 (max k1 k2) (le_max_right _ _) a b r hr)
      r1 r2 h2
    simp only [List.foldlM_cons, h1', Option.some_bind, Option.bind_eq_bind]
    exact h2'

theorem includeArg_terminates (root : TemplateSet) (Name : String) (arg : Node)
    (ih : ∀ tree, root.Lookup Name = some ⟨some tree⟩ →
      (arg = .DotNode ∨ ∃ Ident, arg = .FieldNode Ident) →
      ∀ s, ∃ fuel r, extractFieldsFromTemplate root fuel (.ListNode tree.Root) s = some r)
    (a : templateField) : ∃ k r, includeArg root k Name a arg = some r := by
  cases arg with
  | FieldNode Ident =>
    rcases lookup_cases root Name with hl | hl | ⟨tree, hl⟩
    · exact ⟨0, registerPath a Ident, by rw [includeArg_field]; simp [hl]⟩
    · exact ⟨0, registerPath a Ident, by rw [includeArg_field]; simp [hl]⟩
    · obtain ⟨node, hnode⟩ := registerPath_resolves a Ident
      obtain ⟨k, b, hb⟩ := ih tree hl (Or.inr ⟨Ident, rfl⟩) node
      refine ⟨k, (registerPath a Ident).modifyAt (fun _ => b) Ident, ?_⟩
      rw [includeArg_field]
      simp only [hl]
      rw [modifyAtM_eq _ _ _ node hnode, hb]
      rfl
  | DotNode =>
    rcases lookup_cases root Name with hl | hl | ⟨tree, hl⟩
    · exact ⟨0, a, by rw [includeArg_dot]; simp [hl]⟩
    · exact ⟨0, a, by rw [includeArg_dot]; simp [hl]⟩
    · obtain ⟨k, b, hb⟩ := ih tree hl (Or.inl rfl) a
      exact ⟨k, b, by rw [includeArg_dot]; simp only [hl]; exact hb⟩
  | _ => exact ⟨0, a, rfl⟩

theorem walk_terminates (root : TemplateSet) (n : Node)
    (hacc : Acc (fun m n => Callee root n m) n) :
    ∀ s, ∃ fuel r, extractFieldsFromTemplate root fuel n s = some r := by
  induction hacc with
  | intro n _ ih =>
    intro s
    cases n with
    | FieldNode Ident => exact ⟨1, s, rfl⟩
    | DotNode => exact ⟨1, s, rfl⟩
    | OtherNode => exact ⟨1, s, rfl⟩
    | PipeNode Cmds => exact ⟨1, _, extract_pipe_eq root 0 Cmds s⟩
    | ActionNode Pipe => exact ⟨1, _, extract_action_eq root 0 Pipe s⟩
    | ListNode Nodes =>
      obtain ⟨k, r, hk⟩ := foldlM_terminates
        (fun k a c => extractFieldsFromTemplate root k c a)
        (fun k a b r hr => extract_fuel_succ root k b a r hr) Nodes
        (fun c hc a => ih c (Callee.list Nodes c hc) a) s
      exact ⟨k + 1, r, by rw [extract_list_eq]; exact hk⟩
    | IfNode Pipe l e =>
      obtain ⟨k1, r1, h1⟩ := ih _ (Callee.ifList Pipe l e) s
      cases e with
      | none => exact ⟨k1 + 1, r1, by rw [extract_if_eq]; simp [h1]⟩
      | some el =>
        obtain ⟨k2, r2, h2⟩ := ih _ (Callee.ifElse Pipe l el) r1
        refine ⟨max k1 k2 + 1, r2, ?_⟩
        rw [extract_if_eq]
        simp only [extract_fuel_le root _ _ _ k1 (max k1 k2) (le_max_left _ _) h1]
        exact extract_fuel_le root _ _ _ k2 (max k1 k2) (le_max_right _ _) h2
    | RangeNode Pipe l e =>
      exact ⟨2, _, by rw [extract_range_eq]; exact extract_pipe_eq root 0 Pipe s⟩
    | WithNode Pipe l e =>
      obtain ⟨k, r, hk⟩ := ih _ (Callee.withList Pipe l e) s
      exact ⟨k + 1, r, by rw [extract_with_eq]; exact hk⟩
    | TemplateNode Name Pipe =>
      cases Pipe with
      | none =>
        rcases lookup_cases root Name with hl | hl | ⟨tree, hl⟩
        · exact ⟨1, s, by rw [extract_include_none_eq]; simp [hl]⟩
        · exact ⟨1, s, by rw [extract_include_none_eq]; simp [hl]⟩
        · obtain ⟨k, r, hk⟩ := ih _ (Callee.includeNone Name tree hl) s
          exact ⟨k + 1, r, by rw [extract_include_none_eq]; simp only [hl]; exact hk⟩
      | some Cmds =>
        have hargs : ∀ cmd ∈ Cmds, ∀ arg ∈ cmd, ∀ a, ∃ k r,
            includeArg root k Name a arg = some r := by
          intro cmd hcmd arg harg a
          refine includeArg_terminates root Name arg ?_ a
          intro tree hl hkind
          rcases hkind with rfl | ⟨Ident, rfl⟩
          · exact ih _ (Callee.includeDot Name Cmds cmd tree hcmd harg hl)
          · exact ih _ (Callee.includeField Name Cmds cmd Ident tree hcmd harg hl)
        have hmono : ∀ k a b r, includeArg root k Name a b = some r →
            includeArg root (k + 1) Name a b = some r :=
          fun k a b r hr => includeArg_mono_fuel root k Name
            (fun n s r h => extract_fuel_succ root k n s r h) a r b hr
        obtain ⟨k, r, hk⟩ := foldlM_terminates
          (fun k a cmd => cmd.foldlM (includeArg root k Name) a)
          (fun k a cmd r hr => foldlM_mono_fn _ _ cmd
            (fun a b _ r hr => hmono k a b r hr) a r hr) Cmds
          (fun cmd hcmd a => foldlM_terminates (fun k a arg => includeArg root k Name a arg)
            hmono cmd (hargs cmd hcmd) a) s
        exact ⟨k + 1, r, by rw [extract_include_eq]; exact hk⟩

theorem self_include_none (s : templateField) : ∀ fuel,
    extractFieldsFromTemplate (singleTemplate selfBody) fuel (.ListNode selfBody) s = none ∧
    extractFieldsFromTemplate (singleTemplate selfBody) fuel
      (.TemplateNode "main" (some [[.DotNode]])) s = none := by
  intro fuel
  induction fuel with
  | zero => exact ⟨rfl, rfl⟩
  | succ fuel ih =>
    constructor
    · have h := extract_list_cons (singleTemplate selfBody) fuel
        (.TemplateNode "main" (some [[.DotNode]])) [] s
      rw [ih.2] at h
      exact h
    · have hl : (singleTemplate selfBody).Lookup "main" = some ⟨some ⟨selfBody⟩⟩ := rfl
      have hd : includeArg (singleTemplate selfBody) fuel "main" s .DotNode = none := by
        rw [includeArg_dot]
        simp only [hl]
        exact ih.1
      rw [extract_include_eq]
      simp only [List.foldlM_cons, List.foldlM_nil, hd]
      rfl

theorem nodeAt_modifyAt_cases (b : templateField) (path : List String) :
    ∀ (t node : templateField) (p : List String), t.nodeAt path = some node →
      ((t.modifyAt (fun _ => b) path).nodeAt p).isSome = true →
      (t.nodeAt p).isSome = true ∨ ∃ q, p = path ++ q ∧ (b.nodeAt q).isSome = true := by
  induction path with
  | nil =>
    intro t node p _ hp
    rw [modifyAt_nil] at hp
    exact Or.inr ⟨p, rfl, hp⟩
  | cons k ks ih =>
    intro t node p hnode hp
    rw [nodeAt_cons] at hnode
    rw [modifyAt_cons] at hp
    cases hl : t.Children.lookup k with
    | none => simp [hl] at hnode
    | some c =>
      simp only [hl, Option.some_bind] at hnode
      simp only [hl] at hp
      cases p with
      | nil => exact Or.inl (by simp [nodeAt_nil])
      | cons k' q' =>
        by_cases hk : k' = k
        · subst hk
          rw [nodeAt_setChild_self t k' c _ q' hl] at hp
          rcases ih c node q' hnode hp with h1 | ⟨q, hq, hb⟩
          · exact Or.inl (by rw [nodeAt_cons, hl]; exact h1)
          · exact Or.inr ⟨q, by rw [hq]; rfl, hb⟩
        · rw [nodeAt_setChild_ne t k k' _ q' hk] at hp
          exact Or.inl hp

theorem prefix_length_le (p Ident : List String) (h : p <+: Ident) :
    p.length ≤ Ident.length := by
  obtain ⟨t, rfl⟩ := h
  simp

theorem depth_includeArg (root : TemplateSet) (fuel L : Nat) (Name : String)
    (arg : Node)
    (ih : ∀ tree, root.Lookup Name = some ⟨some tree⟩ →
      (arg = .DotNode ∨ ∃ Ident, arg = .FieldNode Ident) → ∀ s r,
      extractFieldsFromTemplate root fuel (.ListNode tree.Root) s = some r →
      ∀ p, (r.nodeAt p).isSome = true → (s.nodeAt p).isSome = true ∨ p.length ≤ L * fuel)
    (hb : ∀ Ident, arg = .FieldNode Ident → Ident.length ≤ L)
    (a r : templateField) (h : includeArg root fuel Name a arg = some r)
    (p : List String) (hp : (r.nodeAt p).isSome = true) :
    (a.nodeAt p).isSome = true ∨ p.length ≤ L * (fuel + 1) := by
  have hL : L ≤ L * (fuel + 1) := Nat.le_mul_of_pos_right L (Nat.succ_pos fuel)
  cases arg with
  | FieldNode Ident =>
    have hI := hb Ident rfl
    have hreg : ∀ q, ((registerPath a Ident).nodeAt q).isSome = true →
        (a.nodeAt q).isSome = true ∨ q.length ≤ L * (fuel + 1) := by
      intro q hq
      rcases (registerPath_isSome Ident a q).1 hq with h1 | h1
      · exact Or.inl h1
      · exact Or.inr (le_trans (prefix_length_le q Ident h1) (le_trans hI hL))
    rw [includeArg_field] at h
    rcases lookup_cases root Name with hl | hl | ⟨tree, hl⟩
    · simp only [hl, Option.some.injEq] at h
      rw [← h] at hp
      exact hreg p hp
    · simp only [hl, Option.some.injEq] at h
      rw [← h] at hp
      exact hreg p hp
    · simp only [hl] at h
      obtain ⟨node, hnode⟩ := registerPath_resolves a Ident
      rw [modifyAtM_eq _ _ _ node hnode] at h
      cases hb2 : extractFieldsFromTemplate root fuel (.ListNode tree.Root) node with
      | none => simp [hb2] at h
      | some b =>
        simp only [hb2, Option.map_some', Option.some.injEq] at h
        rw [← h] at hp
        rcases nodeAt_modifyAt_cases b Ident _ node p hnode hp with h1 | ⟨q, hq, hbq⟩
        · exact hreg p h1
        · rcases ih tree hl (Or.inr ⟨Ident, rfl⟩) node b hb2 q hbq with h2 | h2
          · refine hreg p ?_
            rw [hq, nodeAt_append, hnode]
            exact h2
          · right
            rw [hq, List.length_append, Nat.mul_succ]
            omega
  | DotNode =>
    rw [includeArg_dot] at h
    rcases lookup_cases root Name with hl | hl | ⟨tree, hl⟩
    · simp only [hl, Option.some.injEq] at h
      rw [← h] at hp
      exact Or.inl hp
    · simp only [hl, Option.some.injEq] at h
      rw [← h] at hp
      exact Or.inl hp
    · simp only [hl] at h
      rcases ih tree hl (Or.inl rfl) a r h p hp with h1 | h1
      · exact Or.inl h1
      · exact Or.inr (le_trans h1 (Nat.mul_le_mul_left L (Nat.le_succ fuel)))
  | _ => cases h; exact Or.inl hp

theorem depth_registerAll (L : Nat) (Cmds : List (List Node)) (hb : pipeBounded L Cmds)
    (s : templateField) (p : List String)
    (hp : (((fieldArgs Cmds).foldl registerPath s).nodeAt p).isSome = true) :
    (s.nodeAt p).isSome = true ∨ p.length ≤ L := by
  rcases (registerAll_isSome _ s p).1 hp with h1 | ⟨Ident, hI, hpre⟩
  · exact Or.inl h1
  · obtain ⟨cmd, hcmd, harg⟩ := (mem_fieldArgs Cmds Ident).1 hI
    exact Or.inr (le_trans (prefix_length_le p Ident hpre) (hb cmd hcmd Ident harg))

theorem depth_bound (root : TemplateSet) (L : Nat) : ∀ (fuel : Nat) (n : Node)
    (s r : templateField),
    (∀ m, Relation.ReflTransGen (Callee root) n m → identsBounded L m) →
    extractFieldsFromTemplate root fuel n s = some r →
    ∀ p, (r.nodeAt p).isSome = true → (s.nodeAt p).isSome = true ∨ p.length ≤ L * fuel := by
  intro fuel
  induction fuel with
  | zero => intro n s r _ h; simp [extractFieldsFromTemplate] at h
  | succ fuel ih =>
    intro n s r hb h p hp
    have hL : L ≤ L * (fuel + 1) := Nat.le_mul_of_pos_right L (Nat.succ_pos fuel)
    have hmul : L * fuel ≤ L * (fuel + 1) := Nat.mul_le_mul_left L (Nat.le_succ fuel)
    have hcallee : ∀ m, Callee root n m → ∀ s r,
        extractFieldsFromTemplate root fuel m s = some r →
        ∀ p, (r.nodeAt p).isSome = true →
          (s.nodeAt p).isSome = true ∨ p.length ≤ L * (fuel + 1) := by
      intro m hm s r hr p hp
      rcases ih m s r (fun m' hm' => hb m' (Relation.ReflTransGen.head hm hm')) hr p hp
        with h1 | h1
      · exact Or.inl h1
      · exact Or.inr (le_trans h1 hmul)
    cases n with
    | FieldNode Ident => cases h; exact Or.inl hp
    | DotNode => cases h; exact Or.inl hp
    | OtherNode => cases h; exact Or.inl hp
    | PipeNode Cmds =>
      rw [extract_pipe_eq] at h
      cases h
      rcases depth_registerAll L Cmds (hb _ Relation.ReflTransGen.refl) s p hp with h1 | h1
      · exact Or.inl h1
      · exact Or.inr (le_trans h1 hL)
    | ActionNode Pipe =>
      rw [extract_action_eq] at h
      cases h
      rcases depth_registerAll L Pipe (hb _ Relation.ReflTransGen.refl) s p hp with h1 | h1
      · exact Or.inl h1
      · exact Or.inr (le_trans h1 hL)
    | ListNode Nodes =>
      rw [extract_list_eq] at h
      refine foldlM_inv (fun t => ∀ p, (t.nodeAt p).isSome = true →
        (s.nodeAt p).isSome = true ∨ p.length ≤ L * (fuel + 1)) _ Nodes ?_ s r
        (fun p hp => Or.inl hp) h p hp
      intro a c hc r1 ha hr1 q hq
      rcases hcallee c (Callee.list Nodes c hc) a r1 hr1 q hq with h1 | h1
      · exact ha q h1
      · exact Or.inr h1
    | IfNode Pipe l e =>
      rw [extract_if_eq] at h
      cases h1 : extractFieldsFromTemplate root fuel (.ListNode l) s with
      | none => simp [h1] at h
      | some pf1 =>
        simp only [h1] at h
        have hpf1 := hcallee _ (Callee.ifList Pipe l e) s pf1 h1
        cases e with
        | none => cases h; exact hpf1 p hp
        | some el =>
          rcases hcallee _ (Callee.ifElse Pipe l el) pf1 r h p hp with h2 | h2
          · exact hpf1 p h2
          · exact Or.inr h2
    | RangeNode Pipe l e =>
      rw [extract_range_eq] at h
      exact hcallee _ (Callee.range Pipe l e) s r h p hp
    | WithNode Pipe l e =>
      rw [extract_with_eq] at h
      exact hcallee _ (Callee.withList Pipe l e) s r h p hp
    | TemplateNode Name Pipe =>
      cases Pipe with
      | none =>
        rw [extract_include_none_eq] at h
        rcases lookup_cases root Name with hl | hl | ⟨tree, hl⟩
        · simp only [hl, Option.some.injEq] at h
          rw [← h] at hp; exact Or.inl hp
        · simp only [hl, Option.some.injEq] at h
          rw [← h] at hp; exact Or.inl hp
        · simp only [hl] at h
          exact hcallee _ (Callee.includeNone Name tree hl) s r h p hp
      | some Cmds =>
        rw [extract_include_eq] at h
        have hpb : pipeBounded L Cmds := hb _ Relation.ReflTransGen.refl
        refine foldlM_inv (fun t => ∀ p, (t.nodeAt p).isSome = true →
          (s.nodeAt p).isSome = true ∨ p.length ≤ L * (fuel + 1)) _ Cmds ?_ s r
          (fun p hp => Or.inl hp) h p hp
        intro a cmd hcmd r1 ha hr1
        refine foldlM_inv (fun t => ∀ p, (t.nodeAt p).isSome = true →
          (s.nodeAt p).isSome = true ∨ p.length ≤ L * (fuel + 1)) _ cmd ?_ a r1 ha hr1
        intro a2 arg harg r2 ha2 hr2 q hq
        have hstep := depth_includeArg root fuel L Name arg ?_ ?_ a2 r2 hr2 q hq
        · rcases hstep with h1 | h1
          · exact ha2 q h1
          · exact Or.inr h1
        · intro tree hl hkind s' r' hr' p' hp'
          rcases hkind with rfl | ⟨Ident, rfl⟩
          · exact ih _ s' r' (fun m' hm' => hb m' (Relation.ReflTransGen.head
              (Callee.includeDot Name Cmds cmd tree hcmd harg hl) hm')) hr' p' hp'
          · exact ih _ s' r' (fun m' hm' => hb m' (Relation.ReflTransGen.head
              (Callee.includeField Name Cmds cmd Ident tree hcmd harg hl) hm')) hr' p' hp'
        · intro Ident hI
          subst hI
          exact hpb cmd hcmd Ident harg

theorem acc_of_no_callee (root : TemplateSet) (n : Node) (h : ∀ m, ¬ Callee root n m) :
    Acc (fun m n => Callee root n m) n :=
  Acc.intro n (fun m hm => absurd hm (h m))

theorem acc_action (root : TemplateSet) (Pipe : List (List Node)) :
    Acc (fun m n => Callee root n m) (.ActionNode Pipe) :=
  acc_of_no_callee root _ (fun m hm => by cases hm)

theorem acc_pipe (root : TemplateSet) (Cmds : List (List Node)) :
    Acc (fun m n => Callee root n m) (.PipeNode Cmds) :=
  acc_of_no_callee root _ (fun m hm => by cases hm)

theorem acc_list (root : TemplateSet) (Nodes : List Node)
    (h : ∀ c ∈ Nodes, Acc (fun m n => Callee root n m) c) :
    Acc (fun m n => Callee root n m) (.ListNode Nodes) :=
  Acc.intro _ (fun m hm => by
    cases hm with
    | list _ _ hmem => exact h m hmem)

theorem acc_include (root : TemplateSet) (Name : String) (Pipe : Option (List (List Node)))
    (h : ∀ tree, root.Lookup Name = some ⟨some tree⟩ →
      Acc (fun m n => Callee root n m) (.ListNode tree.Root)) :
    Acc (fun m n => Callee root n m) (.TemplateNode Name Pipe) :=
  Acc.intro _ (fun m hm => by
    cases hm with
    | includeNone _ tree hl => exact h tree hl
    | includeField _ _ cmd Ident tree _ _ hl => exact h tree hl
    | includeDot _ _ cmd tree _ _ hl => exact h tree hl)

theorem acc_include_sample :
    Acc (fun m n => Callee (twoTemplates includeInnerBody [fieldAction ["Field"]]) n m)
      (.ListNode includeInnerBody) := by
  refine acc_list _ _ ?_
  intro c hc
  simp only [includeInnerBody, List.mem_singleton] at hc
  subst hc
  refine acc_include _ _ _ ?_
  intro tree hl
  have h2 : (twoTemplates includeInnerBody [fieldAction ["Field"]]).Lookup "sub" =
      some ⟨some ⟨[fieldAction ["Field"]]⟩⟩ := rfl
  rw [h2] at hl
  cases hl
  refine acc_list _ _ ?_
  intro c hc
  simp only [List.mem_singleton] at hc
  subst hc
  exact acc_action _ _

/-- C16, amended: when every chain of nested calls of the walk that starts
at the node ends (the call graph, which follows template inclusions, is
well-founded at the node, as it is when no template reached includes itself
directly or through others), the walk terminates at every scope: from some call
depth on it returns one and the same tree; and when it returns within the call
depth `fuel1`, every path of the returned tree is a path of the scope or has
at most `L * fuel1` segments, where `L` bounds the length of the field chains
that the walk registers. -/
theorem extractFieldsFromTemplate_terminates (root : TemplateSet) (n : Node)
    (s : templateField) (hacc : Acc (fun m n => Callee root n m) n) :
    ∃ fuel r, extractFieldsFromTemplate root fuel n s = some r ∧
      (∀ fuel', fuel ≤ fuel' → extractFieldsFromTemplate root fuel' n s = some r) ∧
      (∀ fuel1 r1, extractFieldsFromTemplate root fuel1 n s = some r1 →
        r1 = r ∧
        ∀ L, (∀ m, Relation.ReflTransGen (Callee root) n m → identsBounded L m) →
          ∀ p, (r.nodeAt p).isSome = true →
            (s.nodeAt p).isSome = true ∨ p.length ≤ L * fuel1) := by
  obtain ⟨fuel, r, hr⟩ := walk_terminates root n hacc s
  refine ⟨fuel, r, hr, fun fuel' hle => extract_fuel_le root n s r fuel fuel' hle hr, ?_⟩
  intro fuel1 r1 hr1
  have h1 := extract_fuel_le root n s r fuel (max fuel fuel1) (le_max_left _ _) hr
  have h2 := extract_fuel_le root n s r1 fuel1 (max fuel fuel1) (le_max_right _ _) hr1
  rw [h1] at h2
  cases h2
  exact ⟨rfl, fun L hL p hp => depth_bound root L fuel1 n s r hL hr1 p hp⟩

theorem extractFieldsFromTemplate_terminates_witness :
    Acc (fun m n => Callee (twoTemplates includeInnerBody [fieldAction ["Field"]]) n m)
      (.ListNode includeInnerBody) ∧
    ∃ fuel r, extractFieldsFromTemplate (twoTemplates includeInnerBody [fieldAction ["Field"]])
      fuel (.ListNode includeInnerBody) (newTemplateField "Root") = some r :=
  ⟨acc_include_sample,
    let ⟨fuel, r, h, _⟩ := extractFieldsFromTemplate_terminates
      (twoTemplates includeInnerBody [fieldAction ["Field"]]) (.ListNode includeInnerBody)
      (newTemplateField "Root") acc_include_sample
    ⟨fuel, r, h⟩⟩

/-- C16 fails for a template that includes itself: with `main` the body
`template "main" .`, the walk of `main` returns at no call depth, and
`CompareViewModel` never returns. -/
theorem self_include_never_returns :
    (singleTemplate selfBody).Lookup "main" = some ⟨some ⟨selfBody⟩⟩ ∧
    (¬ ∃ fuel r, extractFieldsFromTemplate (singleTemplate selfBody) fuel (.ListNode selfBody)
      (newTemplateField "Root") = some r) ∧
    (∀ data fuel, CompareViewModel data (singleTemplate selfBody) "main" fuel = .unfinished) := by
  refine ⟨rfl, ?_, ?_⟩
  · rintro ⟨fuel, r, h⟩
    rw [(self_include_none (newTemplateField "Root") fuel).1] at h
    cases h
  · intro data fuel
    have hl : (singleTemplate selfBody).Lookup "main" = some ⟨some ⟨selfBody⟩⟩ := rfl
    simp only [CompareViewModel, hl, (self_include_none (newTemplateField "Root") fuel).1]

/-! ## The tree built from a data shape -/

theorem uniqueExportedList_iff (fs : List (StructField GoType)) :
    uniqueExportedList fs = true ↔
      ∀ f ∈ fs, f.PkgPath = "" → f.Typ.Kind = .Struct → f.Typ.uniqueExported = true := by
  induction fs with
  | nil => simp [uniqueExportedList]
  | cons f rest ih =>
    obtain ⟨n, pk, ty⟩ := f
    simp only [uniqueExportedList, Bool.and_eq_true, Bool.or_eq_true, bne_iff_ne, ne_eq, ih,
      List.mem_cons, forall_eq_or_imp]
    constructor
    · rintro ⟨h1, h2⟩
      refine ⟨fun hp hk => ?_, h2⟩
      rcases h1 with (h | h) | h
      · exact absurd hp h
      · exact absurd hk h
      · exact h
    · rintro ⟨h1, h2⟩
      refine ⟨?_, h2⟩
      by_cases hp : pk = ""
      · by_cases hk : ty.Kind = .Struct
        · exact Or.inr (h1 hp hk)
        · exact Or.inl (Or.inr hk)
      · exact Or.inl (Or.inl hp)

theorem uniqueExported_struct (fs : List (StructField GoType)) :
    (GoType.Struct fs).uniqueExported = true ↔
      ((fs.filter (fun f => f.PkgPath == "")).map (fun f => f.Name)).Nodup ∧
        ∀ f ∈ fs, f.PkgPath = "" → f.Typ.Kind = .Struct → f.Typ.uniqueExported = true := by
  simp [GoType.uniqueExported, uniqueExportedList_iff]

theorem fieldTree_struct (name : String) (fs : List (StructField GoType)) :
    fieldTree name (.Struct fs) = .mk name (fieldTrees fs) := by
  simp [fieldTree]

theorem fieldTree_of_ne (name : String) (typ : GoType) (h : typ.Kind ≠ .Struct) :
    fieldTree name typ = .mk name [] := by
  cases typ <;> first | rfl | simp [GoType.Kind] at h

theorem fieldTrees_cons (f : StructField GoType) (rest : List (StructField GoType)) :
    fieldTrees (f :: rest) =
      if f.PkgPath != "" then fieldTrees rest
      else (f.Name, fieldTree f.Name f.Typ) :: fieldTrees rest := by
  obtain ⟨n, pk, ty⟩ := f
  simp [fieldTrees]

theorem setChild_append_last (cs : List (String × templateField)) (k : String)
    (a b : templateField) (h : k ∉ cs.map Prod.fst) :
    setChild (cs ++ [(k, a)]) k b = cs ++ [(k, b)] := by
  induction cs with
  | nil => simp [setChild]
  | cons kv rest ih =>
    obtain ⟨x, y⟩ := kv
    simp only [List.map_cons, List.mem_cons, not_or] at h
    have h1 : (x == k) = false := by simpa using fun e : x = k => h.1 e.symm
    simp [setChild, h1, ih h.2]

theorem exportedNames_cons_exported (f : StructField GoType)
    (rest : List (StructField GoType)) (hp : f.PkgPath = "") :
    ((f :: rest).filter (fun f => f.PkgPath == "")).map (fun f => f.Name) =
      f.Name :: (rest.filter (fun f => f.PkgPath == "")).map (fun f => f.Name) := by
  simp [List.filter_cons, hp]

theorem exportedNames_cons_unexported (f : StructField GoType)
    (rest : List (StructField GoType)) (hp : f.PkgPath ≠ "") :
    ((f :: rest).filter (fun f => f.PkgPath == "")).map (fun f => f.Name) =
      (rest.filter (fun f => f.PkgPath == "")).map (fun f => f.Name) := by
  simp [List.filter_cons, hp]

theorem extractHelperLoop_fieldTrees (fs : List (StructField GoType))
    (ih : ∀ f ∈ fs, f.PkgPath = "" → f.Typ.Kind = .Struct → ∀ name : String,
      extractHelper f.Typ (.mk name []) = fieldTree name f.Typ) :
    ∀ (name : String) (cs : List (String × templateField)),
      ((fs.filter (fun f => f.PkgPath == "")).map (fun f => f.Name)).Nodup →
      (∀ f ∈ fs, f.PkgPath = "" → f.Name ∉ cs.map Prod.fst) →
      extractHelperLoop fs (.mk name cs) = .mk name (cs ++ fieldTrees fs) := by
  induction fs with
  | nil => intro name cs _ _; simp [extractHelperLoop, fieldTrees]
  | cons f rest ihl =>
    intro name cs hnd hfresh
    have ihr := ihl (fun f hf => ih f (List.mem_cons_of_mem _ hf))
    rw [extractHelperLoop_cons, fieldTrees_cons]
    by_cases hp : f.PkgPath = ""
    · rw [exportedNames_cons_exported f rest hp, List.nodup_cons] at hnd
      have hf := hfresh f (List.mem_cons_self _ _) hp
      have hlook : cs.lookup f.Name = none := (lookup_none_iff _ _).2 hf
      have hadd : ((templateField.mk name cs).addChild f.Name).1 =
          .mk name (cs ++ [(f.Name, newTemplateField f.Name)]) := by
        simp [templateField.addChild, Children_mk, Name_mk, hlook]
      have hfresh2 : ∀ (x : templateField), ∀ g ∈ rest, g.PkgPath = "" →
          g.Name ∉ (cs ++ [(f.Name, x)]).map Prod.fst := by
        intro x g hg hgp
        simp only [List.map_append, List.map_cons, List.map_nil, List.mem_append,
          List.mem_singleton, not_or]
        refine ⟨hfresh g (List.mem_cons_of_mem _ hg) hgp, ?_⟩
        intro e
        refine hnd.1 (List.mem_map.2 ⟨g, List.mem_filter.2 ⟨hg, by simpa using hgp⟩, e⟩)
      simp only [hp, bne_self_eq_false, Bool.false_eq_true, if_false]
      rw [hadd]
      by_cases hk : f.Typ.Kind = .Struct
      · simp only [hk, if_true]
        have hl2 : (cs ++ [(f.Name, newTemplateField f.Name)]).lookup f.Name =
            some (newTemplateField f.Name) := by
          simp [List.lookup_append, hlook]
        rw [modifyAt_cons, Children_mk, hl2]
        simp only [modifyAt_nil, Name_mk]
        rw [setChild_append_last _ _ _ _ hf]
        have := ih f (List.mem_cons_self _ _) hp hk f.Name
        simp only [newTemplateField]
        rw [this, ihr name _ hnd.2 (hfresh2 _)]
        simp
      · simp only [hk, if_false]
        rw [ihr name _ hnd.2 (hfresh2 _), fieldTree_of_ne _ _ hk]
        simp [newTemplateField]
    · rw [exportedNames_cons_unexported f rest hp] at hnd
      have hp2 : (f.PkgPath != "") = true := by simpa using hp
      simp only [hp2, if_true]
      exact ihr name cs hnd (fun g hg => hfresh g (List.mem_cons_of_mem _ hg))

theorem extractHelper_fieldTree : ∀ typ : GoType, typ.uniqueExported = true →
    typ.Kind = .Struct → ∀ name : String,
      extractHelper typ (.mk name []) = fieldTree name typ := by
  intro typ
  induction typ using GoType_induction with
  | hStruct fs ih =>
    intro hu _ name
    rw [uniqueExported_struct] at hu
    rw [extractHelper_struct, fieldTree_struct]
    have := extractHelperLoop_fieldTrees fs
      (fun f hf hp hk name => ih f hf (hu.2 f hf hp hk) hk name) name [] hu.1 (by simp)
    simpa using this
  | hPtr e _ => intro _ hk; simp [GoType.Kind] at hk
  | hSlice e _ => intro _ hk; simp [GoType.Kind] at hk
  | hMap k e _ _ => intro _ hk; simp [GoType.Kind] at hk
  | hInterface => intro _ hk; simp [GoType.Kind] at hk
  | hBasic => intro _ hk; simp [GoType.Kind] at hk

theorem keys_fieldTrees (fs : List (StructField GoType)) :
    (fieldTrees fs).map Prod.fst =
      (fs.filter (fun f => f.PkgPath == "")).map (fun f => f.Name) := by
  induction fs with
  | nil => simp [fieldTrees]
  | cons f rest ih =>
    rw [fieldTrees_cons]
    by_cases hp : f.PkgPath = ""
    · simp [hp, ih, List.filter_cons]
    · have hp2 : (f.PkgPath != "") = true := by simpa using hp
      simp [hp2, hp, ih, List.filter_cons]

theorem lookup_fieldTrees (fs : List (StructField GoType))
    (hnd : ((fs.filter (fun f => f.PkgPath == "")).map (fun f => f.Name)).Nodup)
    (f : StructField GoType) (hf : f ∈ fs) (hp : f.PkgPath = "") :
    (fieldTrees fs).lookup f.Name = some (fieldTree f.Name f.Typ) := by
  induction fs with
  | nil => cases hf
  | cons g rest ih =>
    rw [fieldTrees_cons]
    by_cases hg : g.PkgPath = ""
    · rw [exportedNames_cons_exported g rest hg, List.nodup_cons] at hnd
      rcases List.mem_cons.1 hf with rfl | hm
      · simp [hp]
      · have hne : f.Name ≠ g.Name := by
          intro e
          exact hnd.1 (List.mem_map.2 ⟨f, List.mem_filter.2 ⟨hm, by simpa using hp⟩, e⟩)
        have h2 : (f.Name == g.Name) = false := by simpa using hne
        simp [hg, List.lookup_cons, h2, ih hnd.2 hm]
    · rw [exportedNames_cons_unexported g rest hg] at hnd
      have hg2 : (g.PkgPath != "") = true := by simpa using hg
      rcases List.mem_cons.1 hf with rfl | hm
      · exact absurd hp hg
      · simp [hg2, ih hnd hm]

theorem fieldTree_name (name : String) (typ : GoType) : (fieldTree name typ).Name = name := by
  cases typ <;> simp [fieldTree, Name_mk]

theorem uniqueExported_derefOnce (typ : GoType) (fs : List (StructField GoType))
    (h : typ.uniqueExported = true) (hfs : derefOnce typ = .Struct fs) :
    (GoType.Struct fs).uniqueExported = true := by
  cases typ with
  | Ptr e =>
    simp only [derefOnce] at hfs
    subst hfs
    simpa [GoType.uniqueExported, GoType.Kind] using h
  | Struct fs' =>
    simp only [derefOnce] at hfs
    rw [← hfs]
    exact h
  | _ => simp [derefOnce] at hfs

theorem extractHelper_root_fieldTree (typ : GoType) (h : typ.uniqueExported = true)
    (name : String) :
    extractHelper typ (newTemplateField name) = fieldTree name (derefOnce typ) := by
  cases typ with
  | Struct fs => exact extractHelper_fieldTree _ h rfl name
  | Ptr e =>
    cases e with
    | Struct fs =>
      rw [extractHelper_ptr_struct]
      exact extractHelper_fieldTree (.Struct fs)
        (uniqueExported_derefOnce (.Ptr (.Struct fs)) fs h rfl) rfl name
    | _ => simp [extractHelper, derefOnce, fieldTree, newTemplateField]
  | _ => simp [extractHelper, derefOnce, fieldTree, newTemplateField]

/-- C14: for every data shape in which the exported fields of each struct the
walker reaches have pairwise distinct names (unexported and blank fields may
repeat), `extractFieldsFromStruct` returns the tree with root `Name` `"Root"`
and: no children when the shape (after the one dereference of `extractHelper`)
is not a struct; for a struct, one child per exported field in declaration
order, keyed and named by the field name, which is the tree built by
`extractHelper` from the field type when that type is a struct and a leaf for
any other type. -/
theorem extractFieldsFromStruct_tree (typ : GoType) (h : typ.uniqueExported = true) :
    ∃ r, extractFieldsFromStruct (some typ) = .returned r ∧
      r = fieldTree "Root" (derefOnce typ) ∧
      r.Name = "Root" ∧
      ((derefOnce typ).Kind ≠ .Struct → r.Children = []) ∧
      (∀ fs, derefOnce typ = .Struct fs →
        r.keys = (fs.filter (fun f => f.PkgPath == "")).map (fun f => f.Name) ∧
        ∀ f ∈ fs, f.PkgPath = "" →
          ∃ c, r.child f.Name = some c ∧ c.Name = f.Name ∧
            (f.Typ.Kind = .Struct → c = extractHelper f.Typ (newTemplateField f.Name) ∧
              c = fieldTree f.Name f.Typ) ∧
            (f.Typ.Kind ≠ .Struct → c.Children = [])) := by
  refine ⟨_, rfl, extractHelper_root_fieldTree typ h "Root", ?_, ?_, ?_⟩
  · rw [extractHelper_root_fieldTree typ h, fieldTree_name]
  · intro hk
    rw [extractHelper_root_fieldTree typ h, fieldTree_of_ne _ _ hk, Children_mk]
  · intro fs hfs
    have hu := uniqueExported_derefOnce typ fs h hfs
    rw [uniqueExported_struct] at hu
    rw [extractHelper_root_fieldTree typ h, hfs, fieldTree_struct]
    refine ⟨by simp [templateField.keys, Children_mk, keys_fieldTrees], ?_⟩
    intro f hf hp
    refine ⟨fieldTree f.Name f.Typ, ?_, fieldTree_name _ _, ?_, ?_⟩
    · simp only [templateField.child, Children_mk]
      exact lookup_fieldTrees fs hu.1 f hf hp
    · intro hk
      exact ⟨(extractHelper_fieldTree _ (hu.2 f hf hp hk) hk f.Name).symm, rfl⟩
    · intro hk
      rw [fieldTree_of_ne _ _ hk, Children_mk]

theorem extractFieldsFromStruct_tree_witness :
    shapeBlanks.uniqueExported = true ∧
    ∃ r, extractFieldsFromStruct (some shapeBlanks) = .returned r ∧
      r = fieldTree "Root" (derefOnce shapeBlanks) :=
  ⟨by decide,
    let ⟨r, h1, h2, _⟩ := extractFieldsFromStruct_tree shapeBlanks (by decide)
    ⟨r, h1, h2⟩⟩

/-- The walker on `struct { X string; _ int; _ int }`: the blank fields repeat a
name, are skipped, and the tree is `Root -> X`. -/
theorem extractFieldsFromStruct_blanks :
    extractFieldsFromStruct (some shapeBlanks) = .returned (.mk "Root" [("X", .mk "X" [])]) ∧
    shapeBlanks.uniqueExported = true ∧ shapeNested.uniqueExported = true :=
  ⟨rfl, by decide, by decide⟩

end GoValidTemple
